import Mathlib

/-!
# Binary morphology of `PiiMorphology-templates.h`

A shallow embedding of the routines of
`src/modules/image/lib/PiiMorphology-templates.h` (`PiiImage::erode`, `dilate`,
`topHat`, `bottomHat`, `hitAndMiss`, `border`, `shrink`, `thin`, `morphology` and
`createMask`) and proofs of their pixel-level contracts.

Conventions of the embedding

* The pixel type `T` and the mask type `U` are both `int`, modelled as `Int`;
  `|`, `&` and `~` are `Int.lor`, `Int.land` and `Int.lnot` (two's complement,
  so they agree with the machine operations on every `int`).
* All index arithmetic is done in `Int`, as in the source, so that a loop bound
  such as `rows - maskRows` may be negative.
* A grid is a pair of extents and a cell function.  Every read and write the
  source performs is checked against the extents of the grid it touches; a
  miss clears the `ok` flag of the computation (the behaviour of the source is
  undefined from then on).
* A `double` of the mask generators is the rational number it holds, and every
  operation on a `double` is followed by the rounding of IEEE 754 double
  precision (to nearest, ties to even; the exponent range is not modelled).
-/

namespace PiiImage

/-! ## Grids -/

/-- A `PiiMatrix<int>`: extents and cells.  Cells outside the extents are not
part of the grid; no operation below reads them without clearing `ok`. -/
structure Matrix where
  rows : Nat
  cols : Nat
  cell : Int → Int → Int

namespace Matrix

/-- The constructor `PiiMatrix<T> result(rows, cols)`: a zero-filled grid. -/
def zero (rows cols : Nat) : Matrix := ⟨rows, cols, fun _ _ => 0⟩

/-- Whether `(r, c)` is a cell of the grid. -/
def inb (m : Matrix) (r c : Int) : Bool :=
  decide (0 ≤ r) && decide (r < (m.rows : Int)) && decide (0 ≤ c) && decide (c < (m.cols : Int))

/-- The assignment `m(r, c) = v`. -/
def set (m : Matrix) (r c v : Int) : Matrix :=
  ⟨m.rows, m.cols, fun i j => if i = r ∧ j = c then v else m.cell i j⟩

/-- A grid given by its rows, for concrete inputs. -/
def ofRows (rows cols : Nat) (l : List (List Int)) : Matrix :=
  ⟨rows, cols, fun i j => ((l.getD i.toNat []).getD j.toNat 0)⟩

/-- Every cell of the grid is 0 or 1. -/
def Binary (m : Matrix) : Prop :=
  ∀ i j : Int, 0 ≤ i → i < m.rows → 0 ≤ j → j < m.cols → m.cell i j = 0 ∨ m.cell i j = 1

/-- Cell-for-cell equality of two grids of the same extents. -/
def Same (a b : Matrix) : Prop :=
  a.rows = b.rows ∧ a.cols = b.cols ∧
    ∀ i j : Int, 0 ≤ i → i < a.rows → 0 ≤ j → j < a.cols → a.cell i j = b.cell i j

end Matrix

/-- The state of a pass over a result grid: the grid, and whether every access
so far was inside the grid it touched. -/
structure Work where
  result : Matrix
  ok : Bool

/-- What a routine returns: the grid, whether all accesses were in bounds, and
whether `piiWarning` was called. -/
structure Outcome where
  value : Matrix
  ok : Bool
  warned : Bool

/-! ## Loops -/

/-- The loop `for (i = lo; n--; ++i) s = body(i, s)`. -/
def loopUp {σ : Type} (body : Int → σ → σ) : Nat → Int → σ → σ
  | 0, _, s => s
  | n + 1, i, s => loopUp body n (i + 1) (body i s)

/-- The loop `for (int i = lo; i < hi; ++i)`. -/
def forUp {σ : Type} (lo hi : Int) (body : Int → σ → σ) (s : σ) : σ :=
  loopUp body (hi - lo).toNat lo s

/-- A counted loop whose body may `break`: the body returns the new state and
whether it left the loop. -/
def loopUpBrk {σ : Type} (body : Int → σ → σ × Bool) : Nat → Int → σ → σ
  | 0, _, s => s
  | n + 1, i, s => if (body i s).2 then (body i s).1 else loopUpBrk body n (i + 1) (body i s).1

/-- The loop `for (int i = lo; i < hi; ++i)` with a `break`. -/
def forUpBrk {σ : Type} (lo hi : Int) (body : Int → σ → σ × Bool) (s : σ) : σ :=
  loopUpBrk body (hi - lo).toNat lo s

/-- The loop `for (int mr = lo, ir = lo2; n--; ++mr, ++ir)`. -/
def loopUp2 {σ : Type} (body : Int → Int → σ → σ) : Nat → Int → Int → σ → σ
  | 0, _, _, s => s
  | n + 1, i, k, s => loopUp2 body n (i + 1) (k + 1) (body i k s)

/-- The loop `for (int mr = lo, ir = lo2; mr < hi; ++mr, ++ir)`. -/
def forUp2 {σ : Type} (lo lo2 hi : Int) (body : Int → Int → σ → σ) (s : σ) : σ :=
  loopUp2 body (hi - lo).toNat lo lo2 s

/-- The body of `for (int mc = n; mc--; )` run for `mc = n-1, ..., 0`. -/
def loopDown {σ : Type} (body : Int → σ → σ) : Nat → σ → σ
  | 0, s => s
  | n + 1, s => loopDown body n (body (n : Int) s)

/-! ## The pointwise functions -/

/-- The conversion `bool(x)` of the source, as an `int`. -/
def toBool (x : Int) : Int := if x = 0 then 0 else 1

/-- The functor `TophatFunction::operator()`: `bool(secondValue) - bool(firstValue)`. -/
def TophatFunction (firstValue secondValue : Int) : Int := toBool secondValue - toBool firstValue

/-- The functor `BottomhatFunction::operator()`: `bool(firstValue) - bool(secondValue)`. -/
def BottomhatFunction (firstValue secondValue : Int) : Int :=
  toBool firstValue - toBool secondValue

/-! ## Erosion -/

/-- Modelled from the spec: `Pii::extend(image, top, bottom, left, right,
Pii::ExtendReplicate)` of `PiiMatrixUtil.h`, which is not among the sources.
The image is edge-replicate-extended by `top`/`bottom` rows and
`left`/`right` columns: a cell of the extension holds the nearest image cell. -/
def extend (image : Matrix) (top bottom left right : Int) : Matrix :=
  ⟨((image.rows : Int) + top + bottom).toNat, ((image.cols : Int) + left + right).toNat,
    fun i j => image.cell (max 0 (min (i - top) ((image.rows : Int) - 1)))
      (max 0 (min (j - left) ((image.cols : Int) - 1)))⟩

/-- Modelled from the spec: the sub-grid `m(r, c, rows, columns)` of
`PiiMatrix.h` (not among the sources) with non-negative extents, the crop of
`rows x columns` cells whose top left corner is `(r, c)`. -/
def subMatrix (m : Matrix) (r c : Int) (rows cols : Nat) : Matrix :=
  ⟨rows, cols, fun i j => m.cell (i + r) (j + c)⟩

/-- The state of the scan of one window of `erode`: whether `goto out` was
taken, and whether all reads were in bounds. -/
structure Scan where
  out : Bool
  ok : Bool

/-- The body of the innermost loop of `erode`, skipped once `goto out` was taken:
`if (int(maskData[mc]) & ~int(imageData[mc])) goto out;` with
`maskData = mask.row(mr)` and `imageData = img.row(r+mr) + c`. -/
def erodeTest (img mask : Matrix) (r c mr mc : Int) (s : Scan) : Scan :=
  if s.out then s
  else
    ⟨decide (Int.land (mask.cell mr mc) (Int.lnot (img.cell (r + mr) (c + mc))) ≠ 0),
      s.ok && mask.inb mr mc && img.inb (r + mr) (c + mc)⟩

/-- The two mask loops of `erode` at the window whose top left corner is `(r, c)`. -/
def erodeScan (img mask : Matrix) (r c : Int) : Scan :=
  forUp 0 (mask.rows : Int)
    (fun mr s => loopDown (fun mc s => erodeTest img mask r c mr mc s) mask.cols s)
    ⟨false, true⟩

/-- The body of the `c` loop of `erode`: scan the window, and unless `goto out`
was taken set `result(r+rOrig, c+cOrig) = T(1)`. -/
def erodeCell (img mask : Matrix) (rOrig cOrig r c : Int) (w : Work) : Work :=
  let s := erodeScan img mask r c
  if s.out then ⟨w.result, w.ok && s.ok⟩
  else ⟨w.result.set (r + rOrig) (c + cOrig) 1,
    w.ok && s.ok && w.result.inb (r + rOrig) (c + cOrig)⟩

/-- The two window loops of `erode`, run on the (possibly extended) image `img`
with a zero-filled `result(rows, cols)`. -/
def erodeLoops (img mask : Matrix) : Work :=
  let maskRows : Int := mask.rows
  let maskCols : Int := mask.cols
  let rOrig : Int := maskRows / 2
  let cOrig : Int := maskCols / 2
  let rows : Int := img.rows
  let cols : Int := img.cols
  let rDiff : Int := rows - maskRows
  let cDiff : Int := cols - maskCols
  forUp 0 (rDiff + 1)
    (fun r w => forUp 0 (cDiff + 1) (fun c w => erodeCell img mask rOrig cOrig r c w) w)
    ⟨Matrix.zero img.rows img.cols, true⟩

/-- The routine `PiiImage::erode(image, mask, handleBorders)`. -/
def erode (image mask : Matrix) (handleBorders : Bool) : Outcome :=
  let maskRows : Int := mask.rows
  let maskCols : Int := mask.cols
  let rOrig : Int := maskRows / 2
  let cOrig : Int := maskCols / 2
  let img : Matrix :=
    if handleBorders then
      extend image rOrig (maskRows - rOrig - 1) cOrig (maskCols - cOrig - 1)
    else image
  let rows : Int := img.rows
  let cols : Int := img.cols
  if maskRows > rows ∨ maskCols > cols then ⟨img, true, true⟩
  else
    let w : Work := erodeLoops img mask
    if handleBorders then ⟨subMatrix w.result rOrig cOrig image.rows image.cols, w.ok, false⟩
    else ⟨w.result, w.ok, false⟩

/-! ## Dilation -/

/-- The assignment `ptr[mc] = T(int(ptr[mc]) | int(maskData[mc]))` with
`ptr = result.row(rr) + cc` and `maskData = mask.row(mr) + mo`. -/
def orCell (mask : Matrix) (mr mo rr cc mc : Int) (w : Work) : Work :=
  ⟨w.result.set rr (cc + mc) (Int.lor (w.result.cell rr (cc + mc)) (mask.cell mr (mo + mc))),
    w.ok && w.result.inb rr (cc + mc) && mask.inb mr (mo + mc)⟩

/-- The innermost loop of every pass of `dilate`:
`for (int mc = n; mc--; ) ptr[mc] = T(int(ptr[mc]) | int(maskData[mc]));`
with `ptr = result.row(rr) + cc` and `maskData = mask.row(mr) + mo`.
A negative `n` would run the index below zero. -/
def orRow (mask : Matrix) (mr mo rr cc n : Int) (w : Work) : Work :=
  loopDown (fun mc w => orCell mask mr mo rr cc mc w) n.toNat ⟨w.result, w.ok && decide (0 ≤ n)⟩

/-- The test `if (!image(r, c)) continue;` in front of the rest of a loop body. -/
def ifSet (image : Matrix) (r c : Int) (rest : Work → Work) (w : Work) : Work :=
  if image.cell r c = 0 then ⟨w.result, w.ok && image.inb r c⟩
  else rest ⟨w.result, w.ok && image.inb r c⟩

/-- The first pass of `dilate`: the mask lies wholly inside the image. -/
def dilateInterior (image mask : Matrix) (w : Work) : Work :=
  let maskRows : Int := mask.rows
  let maskCols : Int := mask.cols
  let rows : Int := image.rows
  let cols : Int := image.cols
  let rOrig : Int := maskRows / 2
  let cOrig : Int := maskCols / 2
  let rDiff : Int := rows - maskRows
  let cDiff : Int := cols - maskCols
  forUp 0 (rDiff + 1)
    (fun r w => forUp 0 (cDiff + 1)
      (fun c w => ifSet image (r + rOrig) (c + cOrig)
        (fun w => forUp 0 maskRows (fun mr w => orRow mask mr 0 (r + mr) c maskCols w) w) w) w) w

/-- The pass `// left edge`. -/
def dilateLeft (image mask : Matrix) (w : Work) : Work :=
  let maskRows : Int := mask.rows
  let maskCols : Int := mask.cols
  let rows : Int := image.rows
  let rOrig : Int := maskRows / 2
  let cOrig : Int := maskCols / 2
  let rDiff : Int := rows - maskRows
  (forUp 0 cOrig
    (fun c (s : Work × Int) =>
      let edge := s.2 - 1
      (forUp 0 (rDiff + 1)
        (fun r w => ifSet image (r + rOrig) c
          (fun w => forUp 0 maskRows
            (fun mr w => orRow mask mr edge (r + mr) 0 (maskCols - edge) w) w) w) s.1, edge))
    (w, cOrig + 1)).1

/-- The pass `//right edge`. -/
def dilateRight (image mask : Matrix) (w : Work) : Work :=
  let maskRows : Int := mask.rows
  let maskCols : Int := mask.cols
  let rows : Int := image.rows
  let cols : Int := image.cols
  let rOrig : Int := maskRows / 2
  let cOrig : Int := maskCols / 2
  let rDiff : Int := rows - maskRows
  let maxCols : Int := cols - (maskCols - cOrig)
  (forUpBrk (cols - maskCols + 1) (maxCols + 1)
    (fun c (s : Work × Int) =>
      let edge := s.2 - 1
      if c + cOrig > cols - 1 then ((s.1, edge), true)
      else
        ((forUp 0 (rDiff + 1)
          (fun r w => ifSet image (r + rOrig) (c + cOrig)
            (fun w => forUp 0 maskRows (fun mr w => orRow mask mr 0 (r + mr) c edge w) w) w) s.1,
          edge), false))
    (w, maskCols)).1

/-- The pass `//top edge`. -/
def dilateTop (image mask : Matrix) (w : Work) : Work :=
  let maskRows : Int := mask.rows
  let maskCols : Int := mask.cols
  let cols : Int := image.cols
  let rOrig : Int := maskRows / 2
  let cOrig : Int := maskCols / 2
  let cDiff : Int := cols - maskCols
  (forUp 0 rOrig
    (fun r (s : Work × Int) =>
      let edge := s.2 - 1
      (forUp 0 (cDiff + 1)
        (fun c w => ifSet image r (c + cOrig)
          (fun w => forUp2 edge 0 maskRows
            (fun mr ir w => orRow mask mr 0 ir c maskCols w) w) w) s.1, edge))
    (w, rOrig + 1)).1

/-- The pass `//bottom edge`. -/
def dilateBottom (image mask : Matrix) (w : Work) : Work :=
  let maskRows : Int := mask.rows
  let maskCols : Int := mask.cols
  let rows : Int := image.rows
  let cols : Int := image.cols
  let rOrig : Int := maskRows / 2
  let cOrig : Int := maskCols / 2
  let cDiff : Int := cols - maskCols
  let maxRows : Int := rows - (maskRows - rOrig)
  (forUpBrk (rows - maskRows + 1) (maxRows + 1)
    (fun r (s : Work × Int) =>
      if r + rOrig > rows - 1 then (s, true)
      else
        let edge := s.2 - 1
        ((forUp 0 (cDiff + 1)
          (fun c w => ifSet image (r + rOrig) (c + cOrig)
            (fun w => forUp 0 edge (fun mr w => orRow mask mr 0 (r + mr) c maskCols w) w) w) s.1,
          edge), false))
    (w, maskRows)).1

/-- The pass `//left top`. -/
def dilateLeftTop (image mask : Matrix) (w : Work) : Work :=
  let maskRows : Int := mask.rows
  let maskCols : Int := mask.cols
  let rOrig : Int := maskRows / 2
  let cOrig : Int := maskCols / 2
  (forUp 0 rOrig
    (fun r (s : Work × Int) =>
      let rEdge := s.2 - 1
      ((forUp 0 cOrig
        (fun c (t : Work × Int) =>
          let cEdge := t.2 - 1
          (ifSet image r c
            (fun w => forUp2 rEdge 0 maskRows
              (fun mr ir w => orRow mask mr cEdge ir 0 (maskCols - cEdge) w) w) t.1, cEdge))
        (s.1, cOrig + 1)).1, rEdge))
    (w, rOrig + 1)).1

/-- The pass `//right top`. -/
def dilateRightTop (image mask : Matrix) (w : Work) : Work :=
  let maskRows : Int := mask.rows
  let maskCols : Int := mask.cols
  let cols : Int := image.cols
  let rOrig : Int := maskRows / 2
  let cOrig : Int := maskCols / 2
  (forUp 0 rOrig
    (fun r (s : Work × Int) =>
      let rEdge := s.2 - 1
      ((forUp (cols - maskCols + cOrig + 1) cols
        (fun c (t : Work × Int) =>
          let cEdge := t.2 - 1
          (ifSet image r c
            (fun w => forUp2 rEdge 0 maskRows
              (fun mr ir w => orRow mask mr 0 ir (c - cOrig) cEdge w) w) t.1, cEdge))
        (s.1, maskCols)).1, rEdge))
    (w, rOrig + 1)).1

/-- The pass `//left bottom`. -/
def dilateLeftBottom (image mask : Matrix) (w : Work) : Work :=
  let maskRows : Int := mask.rows
  let maskCols : Int := mask.cols
  let rows : Int := image.rows
  let rOrig : Int := maskRows / 2
  let cOrig : Int := maskCols / 2
  (forUp (rows - maskRows + rOrig + 1) rows
    (fun r (s : Work × Int) =>
      let rEdge := s.2 - 1
      ((forUp 0 cOrig
        (fun c (t : Work × Int) =>
          let cEdge := t.2 - 1
          (ifSet image r c
            (fun w => forUp 0 rEdge
              (fun mr w => orRow mask mr cEdge (r + mr - rOrig) 0 (maskCols - cEdge) w) w) t.1,
            cEdge))
        (s.1, cOrig + 1)).1, rEdge))
    (w, maskRows)).1

/-- The pass `//right bottom`. -/
def dilateRightBottom (image mask : Matrix) (w : Work) : Work :=
  let maskRows : Int := mask.rows
  let maskCols : Int := mask.cols
  let rows : Int := image.rows
  let cols : Int := image.cols
  let rOrig : Int := maskRows / 2
  let cOrig : Int := maskCols / 2
  (forUp (rows - maskRows + rOrig + 1) rows
    (fun r (s : Work × Int) =>
      let rEdge := s.2 - 1
      ((forUp (cols - maskCols + cOrig + 1) cols
        (fun c (t : Work × Int) =>
          let cEdge := t.2 - 1
          (ifSet image r c
            (fun w => forUp 0 rEdge
              (fun mr w => orRow mask mr 0 (r + mr - rOrig) (c - cOrig) cEdge w) w) t.1,
            cEdge))
        (s.1, maskCols)).1, rEdge))
    (w, maskRows)).1

/-- The routine `PiiImage::dilate(image, mask)`: the interior pass, the four edge passes and
the four corner passes, in the order of the source, on a zero-filled result. -/
def dilate (image mask : Matrix) : Outcome :=
  let w0 : Work := ⟨Matrix.zero image.rows image.cols, true⟩
  let w := dilateRightBottom image mask (dilateLeftBottom image mask
    (dilateRightTop image mask (dilateLeftTop image mask (dilateBottom image mask
      (dilateTop image mask (dilateRight image mask (dilateLeft image mask
        (dilateInterior image mask w0))))))))
  ⟨w.result, w.ok, decide ((mask.rows : Int) > image.rows ∨ (mask.cols : Int) > image.cols)⟩

/-! ## Open, close, top-hat and bottom-hat -/

/-- Run `f` on the grid of an outcome, keeping the flags of both steps. -/
def Outcome.andThen (a : Outcome) (f : Matrix → Outcome) : Outcome :=
  ⟨(f a.value).value, a.ok && (f a.value).ok, a.warned || (f a.value).warned⟩

/-- Modelled from the spec: `open(image, mask)`, defined outside the given
sources, is `dilate(erode(image, mask), mask)`; the two-argument `erode` call
does not handle borders. -/
def openOp (image mask : Matrix) : Outcome :=
  (erode image mask false).andThen (fun e => dilate e mask)

/-- The expression `erode(dilate(image, mask), mask)` of `bottomHat` (`// First
close`); the two-argument `erode` call does not handle borders. -/
def close (image mask : Matrix) : Outcome :=
  (dilate image mask).andThen (fun d => erode d mask false)

/-- Modelled from the spec: `PiiMatrix::map(function, other)` of `PiiMatrix.h`
(not among the sources) replaces every cell `x` of the grid by
`function(x, y)`, `y` the cell of `other` at the same place. -/
def Matrix.map (f : Int → Int → Int) (m other : Matrix) : Matrix :=
  ⟨m.rows, m.cols, fun i j => f (m.cell i j) (other.cell i j)⟩

/-- Modelled from the spec: the end (exclusive) of a view `m(r, c, rows, columns)`
along one axis.  A negative extent `-a` ends the view `a` cells before the end of
the grid, so that `m(rOrig, cOrig, -(maskRows-rOrig), -(maskCols-cOrig))` is the
sub-region `[rOrig, rows-(maskRows-rOrig)) x [cOrig, cols-(maskCols-cOrig))`. -/
def viewEnd (extent start n : Int) : Int := if n < 0 then extent + n else start + n

/-- Modelled from the spec: `m(r, c, nr, nc).map(function, other(r, c, nr, nc))`,
the in-place map of the view of `m` against the same view of `other`; cells of
`m` outside the view are left as they are. -/
def Matrix.mapView (f : Int → Int → Int) (m other : Matrix) (r c nr nc : Int) : Matrix :=
  ⟨m.rows, m.cols, fun i j =>
    if r ≤ i ∧ i < viewEnd m.rows r nr ∧ c ≤ j ∧ j < viewEnd m.cols c nc then
      f (m.cell i j) (other.cell i j)
    else m.cell i j⟩

/-- Whether the view `m(r, c, nr, nc)` lies inside the grid. -/
def Matrix.viewOk (m : Matrix) (r c nr nc : Int) : Bool :=
  decide (0 ≤ r) && decide (r ≤ viewEnd m.rows r nr) && decide (viewEnd m.rows r nr ≤ m.rows) &&
    decide (0 ≤ c) && decide (c ≤ viewEnd m.cols c nc) && decide (viewEnd m.cols c nc ≤ m.cols)

/-- The routine `PiiImage::topHat(image, mask)`. -/
def topHat (image mask : Matrix) : Outcome :=
  let opened := openOp image mask
  ⟨opened.value.map TophatFunction image,
    opened.ok && decide (opened.value.rows = image.rows ∧ opened.value.cols = image.cols),
    opened.warned⟩

/-- The routine `PiiImage::bottomHat(image, mask)`. -/
def bottomHat (image mask : Matrix) : Outcome :=
  let maskRows : Int := mask.rows
  let maskCols : Int := mask.cols
  let rOrig : Int := maskRows / 2
  let cOrig : Int := maskCols / 2
  let closed := close image mask
  ⟨closed.value.mapView BottomhatFunction image rOrig cOrig (-(maskRows - rOrig))
      (-(maskCols - cOrig)),
    closed.ok && closed.value.viewOk rOrig cOrig (-(maskRows - rOrig)) (-(maskCols - cOrig)) &&
      image.viewOk rOrig cOrig (-(maskRows - rOrig)) (-(maskCols - cOrig)),
    closed.warned⟩

/-- The complement of a binary image: 0 and 1 swapped. -/
def complement (image : Matrix) : Matrix :=
  ⟨image.rows, image.cols, fun i j => if image.cell i j = 0 then 1 else 0⟩

/-! ## Predicates of the specification -/

/-- The mask `mask` fits the image: `1 <= maskRows <= rows`, `1 <= maskCols <= cols`. -/
def Fits (image mask : Matrix) : Prop :=
  1 ≤ mask.rows ∧ mask.rows ≤ image.rows ∧ 1 ≤ mask.cols ∧ mask.cols ≤ image.cols

/-- The full-coverage region of a mask over a grid of the extents of `image`:
`rOrig <= i <= rows-maskRows+rOrig` and `cOrig <= j <= cols-maskCols+cOrig`. -/
def Covered (image mask : Matrix) (i j : Int) : Prop :=
  (mask.rows : Int) / 2 ≤ i ∧ i ≤ (image.rows : Int) - mask.rows + (mask.rows : Int) / 2 ∧
    (mask.cols : Int) / 2 ≤ j ∧ j ≤ (image.cols : Int) - mask.cols + (mask.cols : Int) / 2

/-- The set definition of dilation: some foreground mask cell `(mr, mc)` has its
source pixel `(i-mr+rOrig, j-mc+cOrig)` inside the image and foreground there. -/
def Minkowski (image mask : Matrix) (i j : Int) : Prop :=
  ∃ mr mc : Int, 0 ≤ mr ∧ mr < mask.rows ∧ 0 ≤ mc ∧ mc < mask.cols ∧
    mask.cell mr mc ≠ 0 ∧
    0 ≤ i - mr + (mask.rows : Int) / 2 ∧ i - mr + (mask.rows : Int) / 2 < image.rows ∧
    0 ≤ j - mc + (mask.cols : Int) / 2 ∧ j - mc + (mask.cols : Int) / 2 < image.cols ∧
    image.cell (i - mr + (mask.rows : Int) / 2) (j - mc + (mask.cols : Int) / 2) ≠ 0

/-- The set definition of erosion at `(i, j)`: every foreground mask cell
`(mr, mc)` has `image(i+mr-rOrig, j+mc-cOrig)` foreground. -/
def Covers (image mask : Matrix) (i j : Int) : Prop :=
  ∀ mr mc : Int, 0 ≤ mr → mr < mask.rows → 0 ≤ mc → mc < mask.cols →
    mask.cell mr mc ≠ 0 →
    image.cell (i + mr - (mask.rows : Int) / 2) (j + mc - (mask.cols : Int) / 2) ≠ 0

/-- The clamp of `x` to `[0, n-1]`. -/
def clamp (x : Int) (n : Nat) : Int := max 0 (min x ((n : Int) - 1))

/-- The set definition of erosion with replicated borders at `(i, j)`. -/
def CoversClamped (image mask : Matrix) (i j : Int) : Prop :=
  ∀ mr mc : Int, 0 ≤ mr → mr < mask.rows → 0 ≤ mc → mc < mask.cols →
    mask.cell mr mc ≠ 0 →
    image.cell (clamp (i + mr - (mask.rows : Int) / 2) image.rows)
      (clamp (j + mc - (mask.cols : Int) / 2) image.cols) ≠ 0

/-- The mask is symmetric about its centre:
`mask(mr, mc) = mask(maskRows-1-mr, maskCols-1-mc)`. -/
def Symmetric (mask : Matrix) : Prop :=
  ∀ mr mc : Int, 0 ≤ mr → mr < mask.rows → 0 ≤ mc → mc < mask.cols →
    mask.cell mr mc = mask.cell ((mask.rows : Int) - 1 - mr) ((mask.cols : Int) - 1 - mc)

/-! ## Loop invariants -/

/-- The body `f` keeps the states `good` and adds exactly `Q` to what is
observed of the state: `obs (f s) a` iff `obs s a` or `Q a`. -/
def Accum {σ α : Type} (good : σ → Prop) (obs : σ → α → Prop) (f : σ → σ) (Q : α → Prop) :
    Prop :=
  ∀ s, good s → good (f s) ∧ ∀ a, obs (f s) a ↔ (obs s a ∨ Q a)

/-- A pass state that is in bounds so far and works on an `R x C` result. -/
def WGood (R C : Nat) (w : Work) : Prop :=
  w.ok = true ∧ w.result.rows = R ∧ w.result.cols = C

/-- Bit `a.2.2` of cell `(a.1, a.2.1)` of the result is set. -/
def WBit (w : Work) (a : Int × Int × Nat) : Prop :=
  (w.result.cell a.1 a.2.1).testBit a.2.2 = true

/-- A step of a pass of `dilate` that ORs exactly the bits `Q` into the result. -/
def Step (R C : Nat) (f : Work → Work) (Q : Int × Int × Nat → Prop) : Prop :=
  Accum (WGood R C) WBit f Q

/-- The bits that `dilate` ORs into cell `(a.1, a.2.1)` from the source pixels of
the rectangle `[rLo, rHi) x [cLo, cHi)`: bit `a.2.2` is set in a mask cell
`(mr, mc)` whose source pixel `(sr, sc)` is foreground. -/
def HitIn (image mask : Matrix) (rLo rHi cLo cHi : Int) (a : Int × Int × Nat) : Prop :=
  ∃ sr sc mr mc : Int, rLo ≤ sr ∧ sr < rHi ∧ cLo ≤ sc ∧ sc < cHi ∧
    0 ≤ mr ∧ mr < mask.rows ∧ 0 ≤ mc ∧ mc < mask.cols ∧
    a.1 = sr + mr - (mask.rows : Int) / 2 ∧ a.2.1 = sc + mc - (mask.cols : Int) / 2 ∧
    0 ≤ a.1 ∧ a.1 < image.rows ∧ 0 ≤ a.2.1 ∧ a.2.1 < image.cols ∧
    image.cell sr sc ≠ 0 ∧ (mask.cell mr mc).testBit a.2.2 = true

/-- Every bit of `v` is a bit of `x`: `v & ~x == 0`. -/
def BitsIn (v x : Int) : Prop := Int.land v (Int.lnot x) = 0

/-- The test `erode` performs at `(i, j)`, for arbitrary `int` cells: no mask
cell `(mr, mc)` has a bit that `image(i+mr-rOrig, j+mc-cOrig)` lacks. -/
def BitCovers (image mask : Matrix) (i j : Int) : Prop :=
  ∀ mr mc : Int, 0 ≤ mr → mr < mask.rows → 0 ≤ mc → mc < mask.cols →
    BitsIn (mask.cell mr mc)
      (image.cell (i + mr - (mask.rows : Int) / 2) (j + mc - (mask.cols : Int) / 2))

/-- A window scan whose reads were all in bounds so far. -/
def SGood (s : Scan) : Prop := s.ok = true

/-- The scan has taken `goto out`. -/
def SOut (s : Scan) (_ : Unit) : Prop := s.out = true

/-- A state of the window loops of `erode`: in bounds so far, an `R x C` result,
every cell of which is 0 or 1. -/
def EGood (R C : Nat) (w : Work) : Prop :=
  w.ok = true ∧ w.result.rows = R ∧ w.result.cols = C ∧
    ∀ i j : Int, w.result.cell i j = 0 ∨ w.result.cell i j = 1

/-- Cell `(a.1, a.2)` of the result is 1. -/
def EOne (w : Work) (a : Int × Int) : Prop := w.result.cell a.1 a.2 = 1

/-- The all-foreground grid of the given extents (a rectangular mask). -/
def ones (rows cols : Nat) : Matrix := ⟨rows, cols, fun _ _ => 1⟩

/-- The central sub-region of `bottomHat`:
`[rOrig, rows-(maskRows-rOrig)) x [cOrig, cols-(maskCols-cOrig))`. -/
def Central (image mask : Matrix) (i j : Int) : Prop :=
  (mask.rows : Int) / 2 ≤ i ∧ i < (image.rows : Int) - ((mask.rows : Int) - (mask.rows : Int) / 2) ∧
    (mask.cols : Int) / 2 ≤ j ∧ j < (image.cols : Int) - ((mask.cols : Int) - (mask.cols : Int) / 2)

/-! ## Hit-and-miss -/

/-- The body of the innermost loop of `hitAndMiss`, skipped once `goto out` was
taken: `if (signData[mc] & (maskData[mc] ^ T(imageData[mc]))) goto out;` with
`maskData = mask.row(mr)`, `signData = significance.row(mr)` and
`imageData = image.row(r+mr) + c`. -/
def hitAndMissTest (image mask significance : Matrix) (r c mr mc : Int) (s : Scan) : Scan :=
  if s.out then s
  else
    ⟨decide (Int.land (significance.cell mr mc)
        (Int.xor (mask.cell mr mc) (image.cell (r + mr) (c + mc))) ≠ 0),
      s.ok && mask.inb mr mc && significance.inb mr mc && image.inb (r + mr) (c + mc)⟩

/-- The two mask loops of `hitAndMiss` at the window whose top left corner is
`(r, c)`; both run downwards (`for (int mr=maskRows; mr--; )`). -/
def hitAndMissScan (image mask significance : Matrix) (r c : Int) : Scan :=
  loopDown
    (fun mr s => loopDown (fun mc s => hitAndMissTest image mask significance r c mr mc s)
      mask.cols s)
    mask.rows ⟨false, true⟩

/-- The body of the `c` loop of `hitAndMiss`: scan the window, and unless
`goto out` was taken set `result(r+rOrig, c+cOrig) = T(1)`. -/
def hitAndMissCell (image mask significance : Matrix) (rOrig cOrig r c : Int) (w : Work) :
    Work :=
  let s := hitAndMissScan image mask significance r c
  if s.out then ⟨w.result, w.ok && s.ok⟩
  else ⟨w.result.set (r + rOrig) (c + cOrig) 1,
    w.ok && s.ok && w.result.inb (r + rOrig) (c + cOrig)⟩

/-- The two window loops of `hitAndMiss` on a zero-filled `result(rows, cols)`. -/
def hitAndMissLoops (image mask significance : Matrix) : Work :=
  let maskRows : Int := mask.rows
  let maskCols : Int := mask.cols
  let rows : Int := image.rows
  let cols : Int := image.cols
  let rOrig : Int := maskRows / 2
  let cOrig : Int := maskCols / 2
  forUp 0 (rows - maskRows + 1)
    (fun r w => forUp 0 (cols - maskCols + 1)
      (fun c w => hitAndMissCell image mask significance rOrig cOrig r c w) w)
    ⟨Matrix.zero image.rows image.cols, true⟩

/-- The routine `PiiImage::hitAndMiss(image, mask, significance)`. -/
def hitAndMiss (image mask significance : Matrix) : Outcome :=
  let maskRows : Int := mask.rows
  let maskCols : Int := mask.cols
  let rows : Int := image.rows
  let cols : Int := image.cols
  if maskRows > rows ∨ maskCols > cols then ⟨image, true, true⟩
  else
    let w : Work := hitAndMissLoops image mask significance
    ⟨w.result, w.ok, false⟩

/-! ## Border, shrink and thin

The table `borderMasks[8][2]` of the eight (mask, significance) pairs is defined
outside the given sources; it is a parameter of the three routines:
`borderMasks m 0` is the mask and `borderMasks m 1` the significance grid of
direction `m`. -/

/-- Whether two grids have the same extents. -/
def sameExtents (a b : Matrix) : Bool := decide (a.rows = b.rows ∧ a.cols = b.cols)

/-- The statement `result.map(BottomhatFunction<T>(), other)` on an outcome,
`other` being the outcome of a call made for it. -/
def subtractFrom (acc other : Outcome) : Outcome :=
  ⟨acc.value.map BottomhatFunction other.value,
    acc.ok && other.ok && sameExtents acc.value other.value, acc.warned || other.warned⟩

/-- The statement `result |= other` on an outcome; modelled from the spec:
`PiiMatrix::operator|=` of `PiiMatrix.h` (not among the sources) ORs the grids
cell by cell. -/
def orInto (acc other : Outcome) : Outcome :=
  ⟨acc.value.map Int.lor other.value,
    acc.ok && other.ok && sameExtents acc.value other.value, acc.warned || other.warned⟩

/-- The routine `PiiImage::border(image)`: the loop `for (int m=8; m--;)` over
the table on a zero-filled result. -/
def border (borderMasks : Int → Int → Matrix) (image : Matrix) : Outcome :=
  loopDown
    (fun m acc => orInto acc (hitAndMiss image (borderMasks m 0) (borderMasks m 1)))
    8 ⟨Matrix.zero image.rows image.cols, true, false⟩

/-- The routine `PiiImage::shrink(image, amount)`.  The loop `while (amount--)`
of a negative `amount` counts below zero; the run is then not `ok`. -/
def shrink (borderMasks : Int → Int → Matrix) (image : Matrix) (amount : Int) : Outcome :=
  if amount = 1 then
    subtractFrom ⟨image, true, false⟩ (border borderMasks image)
  else
    loopDown (fun _ result => subtractFrom result (border borderMasks result.value))
      amount.toNat ⟨image, decide (0 ≤ amount), false⟩

/-- One pass of the loop `for (int m=8; m--;)` of `thin` over the working copy:
`result.map(BottomhatFunction<T>(), hitAndMiss(result, borderMasks[m][0],
borderMasks[m][1]))` for `m = 7, ..., 0`. -/
def thinSweep (borderMasks : Int → Int → Matrix) (result : Outcome) : Outcome :=
  loopDown
    (fun m result =>
      subtractFrom result (hitAndMiss result.value (borderMasks m 0) (borderMasks m 1)))
    8 result

/-- Modelled from the spec: `Pii::equals(a, b)` of `PiiMatrixUtil.h` (not among
the sources), the cell for cell comparison of two grids. -/
def equals (a b : Matrix) : Bool :=
  decide (a.rows = b.rows) && decide (a.cols = b.cols) &&
    (List.range a.rows).all (fun i => (List.range a.cols).all (fun j =>
      decide (a.cell (i : Int) (j : Int) = b.cell (i : Int) (j : Int))))

/-- The loop `while (true)` of `thin` for a negative amount, run for at most
`fuel` sweeps: sweep `tmpResult`, stop with `result` if the sweep left
`tmpResult` equal to `result`, else copy `tmpResult` to `result` and go on.
The value is `none` when the fuel runs out before the loop breaks. -/
def thinConverge (borderMasks : Int → Int → Matrix) : Nat → Outcome → Outcome → Option Outcome
  | 0, _, _ => none
  | fuel + 1, result, tmpResult =>
    if equals (thinSweep borderMasks tmpResult).value result.value then
      some ⟨result.value, (thinSweep borderMasks tmpResult).ok,
        (thinSweep borderMasks tmpResult).warned⟩
    else
      thinConverge borderMasks fuel (thinSweep borderMasks tmpResult)
        (thinSweep borderMasks tmpResult)

/-- The routine `PiiImage::thin(image, amount)`: `amount` sweeps when
`amount >= 0`, else sweeps until nothing changes (at most `fuel` of them). -/
def thin (borderMasks : Int → Int → Matrix) (image : Matrix) (amount : Int) (fuel : Nat) :
    Option Outcome :=
  if amount ≥ 0 then
    some (loopDown (fun _ result => thinSweep borderMasks result) amount.toNat
      ⟨image, true, false⟩)
  else
    thinConverge borderMasks fuel ⟨image, true, false⟩ ⟨image, true, false⟩

/-! ## Predicates of the specification, continued -/

/-- The test `hitAndMiss` performs at `(i, j)`, for arbitrary `int` cells: no
cell `(mr, mc)` has a significance bit at which the mask and
`image(i+mr-rOrig, j+mc-cOrig)` differ. -/
def BitMatches (image mask significance : Matrix) (i j : Int) : Prop :=
  ∀ mr mc : Int, 0 ≤ mr → mr < mask.rows → 0 ≤ mc → mc < mask.cols →
    Int.land (significance.cell mr mc)
      (Int.xor (mask.cell mr mc)
        (image.cell (i + mr - (mask.rows : Int) / 2) (j + mc - (mask.cols : Int) / 2))) = 0

/-- The set definition of hit-and-miss at `(i, j)`: at every cell `(mr, mc)` whose
significance is set, `mask(mr, mc)` equals `image(i+mr-rOrig, j+mc-cOrig)`. -/
def Matches (image mask significance : Matrix) (i j : Int) : Prop :=
  ∀ mr mc : Int, 0 ≤ mr → mr < mask.rows → 0 ≤ mc → mc < mask.cols →
    significance.cell mr mc ≠ 0 →
    mask.cell mr mc = image.cell (i + mr - (mask.rows : Int) / 2) (j + mc - (mask.cols : Int) / 2)

/-- The mask is larger than the image: `maskRows > rows || maskCols > cols`. -/
def Oversized (image mask : Matrix) : Prop :=
  (mask.rows : Int) > image.rows ∨ (mask.cols : Int) > image.cols

/-- Two grids of the same extents with the same set of nonzero pixels. -/
def SameForeground (a b : Matrix) : Prop :=
  a.rows = b.rows ∧ a.cols = b.cols ∧
    ∀ i j : Int, 0 ≤ i → i < a.rows → 0 ≤ j → j < a.cols → (a.cell i j ≠ 0 ↔ b.cell i j ≠ 0)

/-- One border subtraction, in the words of the spec: `x` mapped cell-wise with
`BottomhatFunction` against `border(x)`. -/
def subtractBorder (borderMasks : Int → Int → Matrix) (x : Matrix) : Matrix :=
  x.map BottomhatFunction (border borderMasks x).value

/-- One direction of a sweep, in the words of the spec: `w` mapped cell-wise with
`BottomhatFunction` against `hitAndMiss(w, mask_m, significance_m)`. -/
def thinStep (borderMasks : Int → Int → Matrix) (m : Int) (w : Matrix) : Matrix :=
  w.map BottomhatFunction (hitAndMiss w (borderMasks m 0) (borderMasks m 1)).value

/-- One sweep, in the words of the spec: the eight directions in the order
`m = 7` down to `0`, each on the copy the earlier ones have modified. -/
def sweep (borderMasks : Int → Int → Matrix) (w : Matrix) : Matrix :=
  thinStep borderMasks 0 (thinStep borderMasks 1 (thinStep borderMasks 2
    (thinStep borderMasks 3 (thinStep borderMasks 4 (thinStep borderMasks 5
      (thinStep borderMasks 6 (thinStep borderMasks 7 w)))))))

/-- The extents of the result grid of a pass state. -/
def extentsOf (w : Work) : Nat × Nat := (w.result.rows, w.result.cols)

/-! ## The dispatcher -/

/-- The selector `MorphologyOperation` (declared outside the given sources): the
six operations `morphology` dispatches on, and any other value the `int`-backed
enumeration can hold. -/
inductive MorphologyOperation where
  | Erode
  | Dilate
  | Open
  | Close
  | TopHat
  | BottomHat
  | unrecognised (value : Int)

/-- The routine `PiiImage::morphology(image, mask, type, handleBorders)`; the
`default:` label returns the image. -/
def morphology (image mask : Matrix) (type : MorphologyOperation) (handleBorders : Bool) :
    Outcome :=
  match type with
  | MorphologyOperation.Erode => erode image mask handleBorders
  | MorphologyOperation.Dilate => dilate image mask
  | MorphologyOperation.Open => openOp image mask
  | MorphologyOperation.Close => close image mask
  | MorphologyOperation.TopHat => topHat image mask
  | MorphologyOperation.BottomHat => bottomHat image mask
  | MorphologyOperation.unrecognised _ => ⟨image, true, false⟩

/-! ## Mask generators

The elliptical and the diamond generator compute in `double`.  A `double` is
embedded as the rational number it holds, and every operation of the source on
a `double` is followed by the rounding of IEEE 754 double precision
(`binary64`; `binary64Sqrt` for `std::sqrt`).  The loops
`for (double r=0.5; r<rows; ++r)` run over `r = i + 1/2` for the integers
`0 <= i < rows`: these half-integers are `double`s and `++r` is exact on them
(below `2^52`).  The diamond generator takes the rounding `fl` of an operation
as a parameter, so that it can also be run without rounding (`fl` the identity);
`createMask` runs it with `binary64`. -/

/-- The selector `MaskType` (declared outside the given sources): the three
shapes, and any other value the enumeration can hold. -/
inductive MaskType where
  | RectangularMask
  | EllipticalMask
  | DiamondMask
  | unrecognised (value : Int)

/-- The conversion `static_cast<int>(x)` (and `int(x)`) of a `double`: truncation
toward zero. -/
def toInt (x : ℚ) : Int := if 0 ≤ x then Rat.floor x else -Rat.floor (-x)

/-- The assignment `mask(r, c) = T(1)` of a generator, checked against the
extents of the mask. -/
def setOne (r c : Int) (w : Work) : Work :=
  ⟨w.result.set r c 1, w.ok && w.result.inb r c⟩

/-- The number of binary digits of `n` after the first, `floor(log2 n)` for
`n >= 1`. -/
def log2Fuel : Nat → Nat → Nat
  | 0, _ => 0
  | fuel + 1, n => if n < 2 then 0 else log2Fuel fuel (n / 2) + 1

/-- The binary exponent `floor(log2 x)` of a positive rational. -/
def ilog2 (x : ℚ) : Int :=
  let e0 : Int := (log2Fuel x.num.natAbs x.num.natAbs : Int) - (log2Fuel x.den x.den : Int)
  if x < (2 : ℚ) ^ e0 then e0 - 1 else e0

/-- The nearest integer, a tie going to the even one. -/
def roundHalfEven (x : ℚ) : Int :=
  let f := Rat.floor x
  let d := x - f
  if d < 1 / 2 then f else if 1 / 2 < d then f + 1 else if f % 2 = 0 then f else f + 1

/-- The rounding of the exact result of a `double` operation under IEEE 754
double precision: to the nearest number with a 53-bit significand, a tie going
to the even significand.  The exponent range is not modelled (the values of the
generators are far from overflow and underflow). -/
def binary64 (x : ℚ) : ℚ :=
  if x = 0 then 0
  else
    let ulp : ℚ := (2 : ℚ) ^ (ilog2 |x| - 52)
    (roundHalfEven (x / ulp) : ℚ) * ulp

/-- The integer square root `floor(sqrt n)`, bit by bit from bit `k - 1` down:
`r` holds the bits found so far. -/
def sqrtFloorAux : Nat → Nat → Nat → Nat
  | 0, _, r => r
  | k + 1, n, r =>
    if (r + 2 ^ k) * (r + 2 ^ k) ≤ n then sqrtFloorAux k n (r + 2 ^ k) else sqrtFloorAux k n r

/-- The integer square root `floor(sqrt n)`. -/
def sqrtFloor (n : Nat) : Nat := sqrtFloorAux (log2Fuel n n / 2 + 1) n 0

/-- The function `std::sqrt` on a `double` under IEEE 754: the square root
rounded to the nearest number with a 53-bit significand; `none` stands for the
NaN of a negative argument. -/
def binary64Sqrt (x : ℚ) : Option ℚ :=
  if x < 0 then none
  else if x = 0 then some 0
  else
    let ulp : ℚ := (2 : ℚ) ^ (ilog2 x / 2 - 52)
    let q : ℚ := x / (ulp * ulp)
    let s : Int := sqrtFloor (Rat.floor q).toNat
    let m : ℚ := ((s : ℚ) + 1 / 2) * ((s : ℚ) + 1 / 2)
    let n : Int := if q < m then s else if m < q then s + 1 else if s % 2 = 0 then s else s + 1
    some ((n : ℚ) * ulp)

/-- The variables `bottom` and `top` of a row of the elliptical generator:
`double x = a*std::sqrt(1-(double)(r-b)*double(r-b)/(b*b)); double bottom = a-x;
double top = a+x;`, each operation rounded; `none` when the square root is NaN
(every comparison with `bottom` and `top` is then false). -/
def ellipseBounds (a b r : ℚ) : Option (ℚ × ℚ) :=
  match binary64Sqrt
      (binary64 (1 - binary64 (binary64 (binary64 (r - b) * binary64 (r - b)) /
        binary64 (b * b)))) with
  | none => none
  | some root =>
    let x : ℚ := binary64 (a * root)
    some (binary64 (a - x), binary64 (a + x))

/-- The `case EllipticalMask:` of `createMask(type, mask)`, with
`a = (double)cols/2` and `b = (double)rows/2`. -/
def ellipticalMask (mask : Matrix) : Work :=
  let rows : Int := mask.rows
  let cols : Int := mask.cols
  let a : ℚ := binary64 ((cols : ℚ) / 2)
  let b : ℚ := binary64 ((rows : ℚ) / 2)
  forUp 0 rows
    (fun i w =>
      let r : ℚ := (i : ℚ) + 1 / 2
      match ellipseBounds a b r with
      | none => w
      | some bounds =>
        forUp 0 cols
          (fun j w =>
            let c : ℚ := (j : ℚ) + 1 / 2
            if c > bounds.1 ∧ c < bounds.2 then setOne (toInt r) (toInt c) w else w) w)
    ⟨mask, true⟩

/-- The loop over `c` of the diamond generator for row `r` at the running offset
`temp`: `for (int c=static_cast<int>(temp-kc-0.5);
c<static_cast<int>(cols-temp-kc+0.5); ++c) mask(r,int(c+kc)) = T(1);`, each
operation on a `double` rounded by `fl`. -/
def diamondRow (fl : ℚ → ℚ) (cols : Int) (kc temp : ℚ) (r : Int) (w : Work) : Work :=
  forUp (toInt (fl (fl (temp - kc) - 1 / 2)))
    (toInt (fl (fl (fl ((cols : ℚ) - temp) - kc) + 1 / 2)))
    (fun c w => setOne r (toInt (fl ((c : ℚ) + kc))) w) w

/-- The `case DiamondMask:` of `createMask(type, mask)`: the upper side from row
`kp` up to row 0, then the bottom side down to the last row, `temp` growing by
`step` after each row; each operation on a `double` is rounded by `fl`.  Here
`kc = cols/2` is the integer quotient. -/
def diamondMask (fl : ℚ → ℚ) (mask : Matrix) : Work :=
  let rows : Int := mask.rows
  let cols : Int := mask.cols
  let step : ℚ := fl (fl ((cols : ℚ) / 2) / fl ((rows : ℚ) / 2))
  let kc : ℚ := ((cols / 2 : Int) : ℚ)
  let kp : Int := rows / 2
  let kpUp : Int := if rows % 2 = 0 then kp - 1 else kp
  let upper : Work × ℚ :=
    loopDown (fun r (s : Work × ℚ) => (diamondRow fl cols kc s.2 r s.1, fl (s.2 + step)))
      (kpUp + 1).toNat (⟨mask, true⟩, 0)
  let kpDown : Int := if rows % 2 = 0 then kpUp + 1 else kpUp
  (forUp kpDown rows
    (fun r (s : Work × ℚ) => (diamondRow fl cols kc s.2 r s.1, fl (s.2 + step)))
    (upper.1, 0)).1

/-- The overload `PiiImage::createMask(type, mask)` that fills a zero-filled
mask in place; the `default:` label is `mask = T(1)`, which sets every cell. -/
def createMaskIn (type : MaskType) (mask : Matrix) : Work :=
  match type with
  | MaskType.EllipticalMask => ellipticalMask mask
  | MaskType.DiamondMask => diamondMask binary64 mask
  | _ => ⟨⟨mask.rows, mask.cols, fun _ _ => 1⟩, true⟩

/-- The routine `PiiImage::createMask(type, rows, cols)`. -/
def createMask (type : MaskType) (rows cols : Int) : Work :=
  if rows = 0 then ⟨Matrix.zero 0 0, true⟩
  else createMaskIn type (Matrix.zero rows.toNat (if cols = 0 then rows else cols).toNat)

/-! ## The sources `dilate` visits

Each pass of `dilate` with its body reduced to the pixel it tests in
`if (!image(r, c)) continue;`: the loops, counters and `break`s are those of the
pass, and the tested pixel is appended to a log. -/

/-- The pixel `(r, c)` is tested as a source: it is appended to the log. -/
def visit (r c : Int) (log : List (Int × Int)) : List (Int × Int) := log ++ [(r, c)]

/-- The sources of the interior pass. -/
def sourcesInterior (image mask : Matrix) (log : List (Int × Int)) : List (Int × Int) :=
  let maskRows : Int := mask.rows
  let maskCols : Int := mask.cols
  let rows : Int := image.rows
  let cols : Int := image.cols
  let rOrig : Int := maskRows / 2
  let cOrig : Int := maskCols / 2
  let rDiff : Int := rows - maskRows
  let cDiff : Int := cols - maskCols
  forUp 0 (rDiff + 1)
    (fun r log => forUp 0 (cDiff + 1) (fun c log => visit (r + rOrig) (c + cOrig) log) log) log

/-- The sources of the pass `// left edge`. -/
def sourcesLeft (image mask : Matrix) (log : List (Int × Int)) : List (Int × Int) :=
  let maskRows : Int := mask.rows
  let maskCols : Int := mask.cols
  let rows : Int := image.rows
  let rOrig : Int := maskRows / 2
  let cOrig : Int := maskCols / 2
  let rDiff : Int := rows - maskRows
  (forUp 0 cOrig
    (fun c (s : List (Int × Int) × Int) =>
      let edge := s.2 - 1
      (forUp 0 (rDiff + 1) (fun r log => visit (r + rOrig) c log) s.1, edge))
    (log, cOrig + 1)).1

/-- The sources of the pass `//right edge`. -/
def sourcesRight (image mask : Matrix) (log : List (Int × Int)) : List (Int × Int) :=
  let maskRows : Int := mask.rows
  let maskCols : Int := mask.cols
  let rows : Int := image.rows
  let cols : Int := image.cols
  let rOrig : Int := maskRows / 2
  let cOrig : Int := maskCols / 2
  let rDiff : Int := rows - maskRows
  let maxCols : Int := cols - (maskCols - cOrig)
  (forUpBrk (cols - maskCols + 1) (maxCols + 1)
    (fun c (s : List (Int × Int) × Int) =>
      let edge := s.2 - 1
      if c + cOrig > cols - 1 then ((s.1, edge), true)
      else
        ((forUp 0 (rDiff + 1) (fun r log => visit (r + rOrig) (c + cOrig) log) s.1, edge),
          false))
    (log, maskCols)).1

/-- The sources of the pass `//top edge`. -/
def sourcesTop (image mask : Matrix) (log : List (Int × Int)) : List (Int × Int) :=
  let maskRows : Int := mask.rows
  let maskCols : Int := mask.cols
  let cols : Int := image.cols
  let rOrig : Int := maskRows / 2
  let cOrig : Int := maskCols / 2
  let cDiff : Int := cols - maskCols
  (forUp 0 rOrig
    (fun r (s : List (Int × Int) × Int) =>
      let edge := s.2 - 1
      (forUp 0 (cDiff + 1) (fun c log => visit r (c + cOrig) log) s.1, edge))
    (log, rOrig + 1)).1

/-- The sources of the pass `//bottom edge`. -/
def sourcesBottom (image mask : Matrix) (log : List (Int × Int)) : List (Int × Int) :=
  let maskRows : Int := mask.rows
  let maskCols : Int := mask.cols
  let rows : Int := image.rows
  let cols : Int := image.cols
  let rOrig : Int := maskRows / 2
  let cOrig : Int := maskCols / 2
  let cDiff : Int := cols - maskCols
  let maxRows : Int := rows - (maskRows - rOrig)
  (forUpBrk (rows - maskRows + 1) (maxRows + 1)
    (fun r (s : List (Int × Int) × Int) =>
      if r + rOrig > rows - 1 then (s, true)
      else
        let edge := s.2 - 1
        ((forUp 0 (cDiff + 1) (fun c log => visit (r + rOrig) (c + cOrig) log) s.1, edge),
          false))
    (log, maskRows)).1

/-- The sources of the pass `//left top`. -/
def sourcesLeftTop (mask : Matrix) (log : List (Int × Int)) : List (Int × Int) :=
  let maskRows : Int := mask.rows
  let maskCols : Int := mask.cols
  let rOrig : Int := maskRows / 2
  let cOrig : Int := maskCols / 2
  (forUp 0 rOrig
    (fun r (s : List (Int × Int) × Int) =>
      let rEdge := s.2 - 1
      ((forUp 0 cOrig
        (fun c (t : List (Int × Int) × Int) =>
          let cEdge := t.2 - 1
          (visit r c t.1, cEdge))
        (s.1, cOrig + 1)).1, rEdge))
    (log, rOrig + 1)).1

/-- The sources of the pass `//right top`. -/
def sourcesRightTop (image mask : Matrix) (log : List (Int × Int)) : List (Int × Int) :=
  let maskRows : Int := mask.rows
  let maskCols : Int := mask.cols
  let cols : Int := image.cols
  let rOrig : Int := maskRows / 2
  let cOrig : Int := maskCols / 2
  (forUp 0 rOrig
    (fun r (s : List (Int × Int) × Int) =>
      let rEdge := s.2 - 1
      ((forUp (cols - maskCols + cOrig + 1) cols
        (fun c (t : List (Int × Int) × Int) =>
          let cEdge := t.2 - 1
          (visit r c t.1, cEdge))
        (s.1, maskCols)).1, rEdge))
    (log, rOrig + 1)).1

/-- The sources of the pass `//left bottom`. -/
def sourcesLeftBottom (image mask : Matrix) (log : List (Int × Int)) : List (Int × Int) :=
  let maskRows : Int := mask.rows
  let maskCols : Int := mask.cols
  let rows : Int := image.rows
  let rOrig : Int := maskRows / 2
  let cOrig : Int := maskCols / 2
  (forUp (rows - maskRows + rOrig + 1) rows
    (fun r (s : List (Int × Int) × Int) =>
      let rEdge := s.2 - 1
      ((forUp 0 cOrig
        (fun c (t : List (Int × Int) × Int) =>
          let cEdge := t.2 - 1
          (visit r c t.1, cEdge))
        (s.1, cOrig + 1)).1, rEdge))
    (log, maskRows)).1

/-- The sources of the pass `//right bottom`. -/
def sourcesRightBottom (image mask : Matrix) (log : List (Int × Int)) : List (Int × Int) :=
  let maskRows : Int := mask.rows
  let maskCols : Int := mask.cols
  let rows : Int := image.rows
  let cols : Int := image.cols
  let rOrig : Int := maskRows / 2
  let cOrig : Int := maskCols / 2
  (forUp (rows - maskRows + rOrig + 1) rows
    (fun r (s : List (Int × Int) × Int) =>
      let rEdge := s.2 - 1
      ((forUp (cols - maskCols + cOrig + 1) cols
        (fun c (t : List (Int × Int) × Int) =>
          let cEdge := t.2 - 1
          (visit r c t.1, cEdge))
        (s.1, maskCols)).1, rEdge))
    (log, maskRows)).1

/-- The sources `dilate` tests, in the order of its nine passes. -/
def dilateSources (image mask : Matrix) : List (Int × Int) :=
  sourcesRightBottom image mask (sourcesLeftBottom image mask
    (sourcesRightTop image mask (sourcesLeftTop mask (sourcesBottom image mask
      (sourcesTop image mask (sourcesRight image mask (sourcesLeft image mask
        (sourcesInterior image mask []))))))))

/-- The step `f` adds to a log exactly `q a` occurrences of every pixel `a`. -/
def Tally (f : List (Int × Int) → List (Int × Int)) (q : Int × Int → Nat) : Prop :=
  ∀ (s : List (Int × Int)) (a : Int × Int), (f s).count a = s.count a + q a

/-- The number of times a pass visits `a` when it visits each pixel of the
rectangle `[rLo, rHi) x [cLo, cHi)` once: 1 inside, 0 outside. -/
def inRect (rLo rHi cLo cHi : Int) (a : Int × Int) : Nat :=
  if rLo ≤ a.1 ∧ a.1 < rHi ∧ cLo ≤ a.2 ∧ a.2 < cHi then 1 else 0

/-- The sweep of `thin`, in the words of the spec, run `n` times. -/
def sweeps (borderMasks : Int → Int → Matrix) (n : Nat) (image : Matrix) : Matrix :=
  (sweep borderMasks)^[n] image

/-- The centre `(c + 1/2, r + 1/2)` of cell `(r, c)` lies strictly inside the
ellipse `((x-a)/a)^2 + ((y-b)/b)^2 < 1` with `a = cols/2`, `b = rows/2`, in the
words of the spec. -/
def InEllipse (rows cols r c : Int) : Prop :=
  (((c : ℚ) + 1 / 2 - (cols : ℚ) / 2) / ((cols : ℚ) / 2)) ^ 2 +
    (((r : ℚ) + 1 / 2 - (rows : ℚ) / 2) / ((rows : ℚ) / 2)) ^ 2 < 1

instance InEllipse.decidable (rows cols r c : Int) : Decidable (InEllipse rows cols r c) := by
  unfold InEllipse
  infer_instance

/-- The distance of row `r` from the midline of a diamond of `rows` rows: from
the row `(rows-1)/2` upwards, from the row `rows/2` downwards. -/
def midDistance (rows r : Int) : Int :=
  if r ≤ (rows - 1) / 2 then (rows - 1) / 2 - r else r - rows / 2

/-- The half-width of a row of the diamond at distance `k` from the midline, in
the words of the spec: it decreases linearly at the rate
`step = (cols/2)/(rows/2)`. -/
def halfWidth (rows cols k : Int) : Int :=
  Rat.floor (((cols / 2 : Int) : ℚ) + 1 / 2 - (k : ℚ) * (((cols : ℚ) / 2) / ((rows : ℚ) / 2)))

/-- Cell `(r, c)` lies in the rhombus: its column is within the half-width of
its row around the centre column. -/
def InDiamond (rows cols r c : Int) : Prop :=
  cols / 2 - halfWidth rows cols (midDistance rows r) ≤ c ∧
    c < cols - cols / 2 + halfWidth rows cols (midDistance rows r)

instance InDiamond.decidable (rows cols r c : Int) : Decidable (InDiamond rows cols r c) := by
  unfold InDiamond
  infer_instance

end PiiImage

/-! # Proofs -/

namespace PiiImage

/-! ## Bits of an `int` -/

theorem nat_exists_testBit {n : Nat} (h : n ≠ 0) : ∃ b, n.testBit b = true := by
  by_contra hc
  push_neg at hc
  apply h
  apply Nat.eq_of_testBit_eq
  intro i
  simp [hc i]

theorem int_exists_testBit {x : Int} (h : x ≠ 0) : ∃ b, x.testBit b = true := by
  cases x with
  | ofNat n =>
    have hn : n ≠ 0 := by
      intro e
      apply h
      simp [e]
    obtain ⟨b, hb⟩ := nat_exists_testBit hn
    exact ⟨b, by simpa [Int.testBit] using hb⟩
  | negSucc n =>
    refine ⟨n, ?_⟩
    have : n.testBit n = false := Nat.testBit_eq_false_of_lt (Nat.lt_two_pow n)
    simp [Int.testBit, this]

theorem int_testBit_zero (b : Nat) : (0 : Int).testBit b = false := by
  show Int.testBit (Int.ofNat 0) b = false
  simp [Int.testBit]

theorem int_ne_zero_iff (x : Int) : x ≠ 0 ↔ ∃ b, x.testBit b = true := by
  constructor
  · exact int_exists_testBit
  · rintro ⟨b, hb⟩ e
    rw [e, int_testBit_zero] at hb
    exact Bool.noConfusion hb

theorem int_eq_zero_iff (x : Int) : x = 0 ↔ ∀ b, x.testBit b = false := by
  constructor
  · intro e b
    rw [e]
    exact int_testBit_zero b
  · intro h
    by_contra hx
    obtain ⟨b, hb⟩ := int_exists_testBit hx
    rw [h b] at hb
    exact Bool.noConfusion hb

theorem int_eq_of_testBit {x y : Int} (h : ∀ b, x.testBit b = y.testBit b) : x = y := by
  have hz : Int.xor x y = 0 := by
    rw [int_eq_zero_iff]
    intro b
    rw [Int.testBit_lxor, h b]
    simp
  have key : ∀ a c : Int, Int.xor a c = 0 → a = c := by
    intro a c hac
    cases a with
    | ofNat m =>
      cases c with
      | ofNat n =>
        have : (Int.ofNat (m ^^^ n) : Int) = 0 := hac
        have h2 : m ^^^ n = 0 := Int.ofNat.inj this
        have : m = n := Nat.xor_eq_zero.mp h2
        rw [this]
      | negSucc n =>
        exact absurd hac (by simp [Int.xor])
    | negSucc m =>
      cases c with
      | ofNat n =>
        exact absurd hac (by simp [Int.xor])
      | negSucc n =>
        have : (Int.ofNat (m ^^^ n) : Int) = 0 := hac
        have h2 : m ^^^ n = 0 := Int.ofNat.inj this
        have : m = n := Nat.xor_eq_zero.mp h2
        rw [this]
  exact key x y hz

theorem bitsIn_iff (v x : Int) :
    BitsIn v x ↔ ∀ b, v.testBit b = true → x.testBit b = true := by
  unfold BitsIn
  rw [int_eq_zero_iff]
  constructor
  · intro h b hv
    have := h b
    rw [Int.testBit_land, Int.testBit_lnot, hv] at this
    simpa using this
  · intro h b
    rw [Int.testBit_land, Int.testBit_lnot]
    cases hv : v.testBit b
    · simp
    · simp [h b hv]

theorem bitsIn_zero_left (x : Int) : BitsIn 0 x := by
  rw [bitsIn_iff]
  intro b hb
  rw [int_testBit_zero] at hb
  exact Bool.noConfusion hb

theorem ne_zero_of_bitsIn {v x : Int} (h : BitsIn v x) (hv : v ≠ 0) : x ≠ 0 := by
  rw [bitsIn_iff] at h
  obtain ⟨b, hb⟩ := int_exists_testBit hv
  exact (int_ne_zero_iff x).mpr ⟨b, h b hb⟩

theorem bitsIn_self (x : Int) : BitsIn x x := by
  rw [bitsIn_iff]
  exact fun _ h => h

theorem bitsIn_binary {v x : Int} (hv : v = 0 ∨ v = 1) (hx : x = 0 ∨ x = 1) :
    BitsIn v x ↔ (v ≠ 0 → x ≠ 0) := by
  constructor
  · exact fun h hv0 => ne_zero_of_bitsIn h hv0
  · intro h
    rcases hv with rfl | rfl
    · exact bitsIn_zero_left x
    · rcases hx with rfl | rfl
      · exact absurd rfl (h (by decide))
      · exact bitsIn_self 1


/-! ## Loops -/

theorem accum_congr {σ α : Type} {good : σ → Prop} {obs : σ → α → Prop} {f : σ → σ}
    {Q Q' : α → Prop} (h : Accum good obs f Q) (hq : ∀ a, Q a ↔ Q' a) :
    Accum good obs f Q' := by
  intro s hs
  refine ⟨(h s hs).1, fun a => ?_⟩
  rw [(h s hs).2 a, hq a]

theorem accum_skip {σ α : Type} (good : σ → Prop) (obs : σ → α → Prop) :
    Accum good obs (fun s => s) (fun _ => False) := by
  intro s hs
  exact ⟨hs, fun a => by simp⟩

theorem accum_comp {σ α : Type} {good : σ → Prop} {obs : σ → α → Prop} {f g : σ → σ}
    {Q Q' : α → Prop} (hf : Accum good obs f Q) (hg : Accum good obs g Q') :
    Accum good obs (fun s => g (f s)) (fun a => Q a ∨ Q' a) := by
  intro s hs
  have h1 := hf s hs
  have h2 := hg (f s) h1.1
  refine ⟨h2.1, fun a => ?_⟩
  rw [h2.2 a, h1.2 a, or_assoc]

theorem accum_loopUp {σ α : Type} {good : σ → Prop} {obs : σ → α → Prop}
    {body : Int → σ → σ} {Q : Int → α → Prop} (n : Nat) (lo : Int)
    (h : ∀ k, lo ≤ k → k < lo + n → Accum good obs (body k) (Q k)) :
    Accum good obs (loopUp body n lo) (fun a => ∃ k, lo ≤ k ∧ k < lo + n ∧ Q k a) := by
  induction n generalizing lo with
  | zero =>
    intro s hs
    refine ⟨hs, fun a => ?_⟩
    simp only [loopUp]
    constructor
    · exact fun h => Or.inl h
    · rintro (h | ⟨k, h1, h2, _⟩)
      · exact h
      · simp at h2
        omega
  | succ n ih =>
    intro s hs
    have h0 := h lo (le_refl lo) (by push_cast; omega) s hs
    have hr := ih (lo + 1) (fun k h1 h2 => h k (by omega) (by push_cast; omega)) (body lo s) h0.1
    refine ⟨hr.1, fun a => ?_⟩
    simp only [loopUp]
    rw [hr.2 a, h0.2 a]
    constructor
    · rintro ((h | h) | ⟨k, h1, h2, h3⟩)
      · exact Or.inl h
      · exact Or.inr ⟨lo, le_refl lo, by push_cast; omega, h⟩
      · exact Or.inr ⟨k, by omega, by push_cast; omega, h3⟩
    · rintro (h | ⟨k, h1, h2, h3⟩)
      · exact Or.inl (Or.inl h)
      · by_cases hk : k = lo
        · subst hk
          exact Or.inl (Or.inr h3)
        · exact Or.inr ⟨k, by omega, by push_cast at h2; omega, h3⟩

theorem accum_forUp {σ α : Type} {good : σ → Prop} {obs : σ → α → Prop}
    {body : Int → σ → σ} {Q : Int → α → Prop} (lo hi : Int)
    (h : ∀ k, lo ≤ k → k < hi → Accum good obs (body k) (Q k)) :
    Accum good obs (forUp lo hi body) (fun a => ∃ k, lo ≤ k ∧ k < hi ∧ Q k a) := by
  have h1 := accum_loopUp (hi - lo).toNat lo
    (fun k h1 h2 => h k h1 (by omega))
  refine accum_congr h1 (fun a => ?_)
  constructor
  · rintro ⟨k, h1, h2, h3⟩
    exact ⟨k, h1, by omega, h3⟩
  · rintro ⟨k, h1, h2, h3⟩
    exact ⟨k, h1, by omega, h3⟩

theorem accum_loopDown {σ α : Type} {good : σ → Prop} {obs : σ → α → Prop}
    {body : Int → σ → σ} {Q : Int → α → Prop} (n : Nat)
    (h : ∀ k : Int, 0 ≤ k → k < n → Accum good obs (body k) (Q k)) :
    Accum good obs (loopDown body n) (fun a => ∃ k : Int, 0 ≤ k ∧ k < n ∧ Q k a) := by
  induction n with
  | zero =>
    intro s hs
    refine ⟨hs, fun a => ?_⟩
    simp only [loopDown]
    constructor
    · exact fun h => Or.inl h
    · rintro (h | ⟨k, h1, h2, _⟩)
      · exact h
      · simp at h2
        omega
  | succ n ih =>
    intro s hs
    have h0 := h (n : Int) (by omega) (by push_cast; omega) s hs
    have hr := ih (fun k h1 h2 => h k h1 (by push_cast; omega)) (body (n : Int) s) h0.1
    refine ⟨hr.1, fun a => ?_⟩
    simp only [loopDown]
    rw [hr.2 a, h0.2 a]
    constructor
    · rintro ((h | h) | ⟨k, h1, h2, h3⟩)
      · exact Or.inl h
      · exact Or.inr ⟨n, by omega, by push_cast; omega, h⟩
      · exact Or.inr ⟨k, h1, by push_cast; omega, h3⟩
    · rintro (h | ⟨k, h1, h2, h3⟩)
      · exact Or.inl (Or.inl h)
      · by_cases hk : k = (n : Int)
        · subst hk
          exact Or.inl (Or.inr h3)
        · exact Or.inr ⟨k, h1, by push_cast at h2; omega, h3⟩

theorem loopUp2_eq {σ : Type} (body : Int → Int → σ → σ) (n : Nat) (i k : Int) (s : σ) :
    loopUp2 body n i k s = loopUp (fun a s => body a (a - i + k) s) n i s := by
  induction n generalizing i k s with
  | zero => rfl
  | succ n ih =>
    simp only [loopUp2, loopUp]
    rw [ih, show i - i + k = k by omega]
    congr 1
    funext a s
    rw [show a - (i + 1) + (k + 1) = a - i + k by omega]

theorem forUp2_eq {σ : Type} (body : Int → Int → σ → σ) (lo lo2 hi : Int) (s : σ) :
    forUp2 lo lo2 hi body s = forUp lo hi (fun a s => body a (a - lo + lo2) s) s := by
  unfold forUp2 forUp
  exact loopUp2_eq body _ lo lo2 s

theorem loopUp_counter {σ : Type} (f : Int → Int → σ → σ) (n : Nat) (i e : Int) (s : σ) :
    loopUp (fun k (p : σ × Int) => (f k (p.2 - 1) p.1, p.2 - 1)) n i (s, e) =
      (loopUp (fun k s => f k (e - 1 - (k - i)) s) n i s, e - n) := by
  induction n generalizing i e s with
  | zero => simp [loopUp]
  | succ n ih =>
    simp only [loopUp]
    rw [ih, show e - 1 - (i - i) = e - 1 by omega]
    congr 1
    · congr 1
      funext k s
      rw [show e - 1 - 1 - (k - (i + 1)) = e - 1 - (k - i) by omega]
    · push_cast
      omega

theorem forUp_counter {σ : Type} (f : Int → Int → σ → σ) (lo hi e : Int) (s : σ) :
    (forUp lo hi (fun k (p : σ × Int) => (f k (p.2 - 1) p.1, p.2 - 1)) (s, e)).1 =
      forUp lo hi (fun k s => f k (e - 1 - (k - lo)) s) s := by
  unfold forUp
  rw [loopUp_counter]

theorem loopUp_guard_skip {σ : Type} (brk : Int → Prop) [DecidablePred brk] (g : Int → σ → σ)
    (hmono : ∀ k, brk k → brk (k + 1)) (n : Nat) (i : Int) (s : σ) (hi : brk i) :
    loopUp (fun k s => if brk k then s else g k s) n i s = s := by
  induction n generalizing i s with
  | zero => rfl
  | succ n ih =>
    simp only [loopUp, hi, if_true]
    exact ih (i + 1) s (hmono i hi)

theorem loopUpBrk_counter {σ : Type} (brk : Int → Prop) [DecidablePred brk]
    (f : Int → Int → σ → σ)
    (atBrk : σ × Int → σ × Int) (hb : ∀ p, (atBrk p).1 = p.1)
    (hmono : ∀ k, brk k → brk (k + 1)) (n : Nat) (i e : Int) (s : σ) :
    (loopUpBrk (fun k (p : σ × Int) =>
        if brk k then (atBrk p, true) else ((f k (p.2 - 1) p.1, p.2 - 1), false)) n i (s, e)).1 =
      loopUp (fun k s => if brk k then s else f k (e - 1 - (k - i)) s) n i s := by
  induction n generalizing i e s with
  | zero => simp [loopUpBrk, loopUp]
  | succ n ih =>
    simp only [loopUpBrk, loopUp]
    by_cases hk : brk i
    · simp only [hk, if_true]
      rw [hb, loopUp_guard_skip brk _ hmono n (i + 1) s (hmono i hk)]
    · simp only [hk, Bool.false_eq_true, if_false]
      rw [ih, show e - 1 - (i - i) = e - 1 by omega]
      congr 1
      funext k s
      rw [show e - 1 - 1 - (k - (i + 1)) = e - 1 - (k - i) by omega]

theorem forUpBrk_counter {σ : Type} (brk : Int → Prop) [DecidablePred brk]
    (f : Int → Int → σ → σ)
    (atBrk : σ × Int → σ × Int) (hb : ∀ p, (atBrk p).1 = p.1)
    (hmono : ∀ k, brk k → brk (k + 1)) (lo hi e : Int) (s : σ) :
    (forUpBrk lo hi (fun k (p : σ × Int) =>
        if brk k then (atBrk p, true) else ((f k (p.2 - 1) p.1, p.2 - 1), false)) (s, e)).1 =
      forUp lo hi (fun k s => if brk k then s else f k (e - 1 - (k - lo)) s) s := by
  unfold forUpBrk forUp
  exact loopUpBrk_counter brk f atBrk hb hmono _ lo e s

theorem accum_guard {σ α : Type} {good : σ → Prop} {obs : σ → α → Prop} {f : σ → σ}
    {Q : α → Prop} (p : Prop) [Decidable p] (h : ¬p → Accum good obs f Q) :
    Accum good obs (fun s => if p then s else f s) (fun a => ¬p ∧ Q a) := by
  by_cases hp : p
  · simp only [hp, if_true]
    exact accum_congr (accum_skip good obs) (fun a => by simp)
  · simp only [hp, if_false]
    exact accum_congr (h hp) (fun a => by simp)


/-! ## The steps of a pass of `dilate` -/

theorem inb_iff (m : Matrix) (r c : Int) :
    m.inb r c = true ↔ 0 ≤ r ∧ r < m.rows ∧ 0 ≤ c ∧ c < m.cols := by
  simp [Matrix.inb, and_assoc]

theorem orCell_step (R C : Nat) (mask : Matrix) (mr mo rr cc mc : Int)
    (h1 : 0 ≤ rr) (h2 : rr < R) (h3 : 0 ≤ cc + mc) (h4 : cc + mc < C)
    (h5 : 0 ≤ mr) (h6 : mr < mask.rows) (h7 : 0 ≤ mo + mc) (h8 : mo + mc < mask.cols) :
    Step R C (orCell mask mr mo rr cc mc)
      (fun a => a.1 = rr ∧ a.2.1 = cc + mc ∧ (mask.cell mr (mo + mc)).testBit a.2.2 = true) := by
  rintro w ⟨hok, hr, hc⟩
  refine ⟨⟨?_, hr, hc⟩, ?_⟩
  · have e1 : w.result.inb rr (cc + mc) = true :=
      (inb_iff _ _ _).mpr ⟨h1, by rw [hr]; exact h2, h3, by rw [hc]; exact h4⟩
    have e2 : mask.inb mr (mo + mc) = true := (inb_iff _ _ _).mpr ⟨h5, h6, h7, h8⟩
    simp [orCell, hok, e1, e2]
  · rintro ⟨i, j, b⟩
    simp only [WBit, orCell, Matrix.set]
    by_cases hij : i = rr ∧ j = cc + mc
    · rw [if_pos hij, Int.testBit_lor, Bool.or_eq_true]
      obtain ⟨rfl, rfl⟩ := hij
      simp
    · rw [if_neg hij]
      constructor
      · exact fun h => Or.inl h
      · rintro (h | ⟨h1, h2, _⟩)
        · exact h
        · exact absurd ⟨h1, h2⟩ hij

theorem orRow_step (R C : Nat) (mask : Matrix) (mr mo rr cc n : Int)
    (h0 : 0 ≤ n) (h1 : 0 ≤ rr) (h2 : rr < R) (h3 : 0 ≤ cc) (h4 : cc + n ≤ C)
    (h5 : 0 ≤ mr) (h6 : mr < mask.rows) (h7 : 0 ≤ mo) (h8 : mo + n ≤ mask.cols) :
    Step R C (orRow mask mr mo rr cc n)
      (fun a => a.1 = rr ∧ ∃ mc : Int, 0 ≤ mc ∧ mc < n ∧ a.2.1 = cc + mc ∧
        (mask.cell mr (mo + mc)).testBit a.2.2 = true) := by
  have hl : Accum (WGood R C) WBit
      (loopDown (fun mc w => orCell mask mr mo rr cc mc w) n.toNat) _ :=
    accum_loopDown n.toNat
      (fun k hk1 hk2 => orCell_step R C mask mr mo rr cc k h1 h2 (by omega) (by omega) h5 h6
        (by omega) (by omega))
  rintro w ⟨hok, hr, hc⟩
  have hw : WGood R C ⟨w.result, w.ok && decide (0 ≤ n)⟩ := ⟨by simp [hok, h0], hr, hc⟩
  have := hl _ hw
  refine ⟨this.1, fun a => ?_⟩
  unfold orRow
  rw [this.2 a]
  constructor
  · rintro (h | ⟨k, hk1, hk2, hk3, hk4, hk5⟩)
    · exact Or.inl h
    · exact Or.inr ⟨hk3, k, hk1, by omega, hk4, hk5⟩
  · rintro (h | ⟨hk3, k, hk1, hk2, hk4, hk5⟩)
    · exact Or.inl h
    · exact Or.inr ⟨k, hk1, by omega, hk3, hk4, hk5⟩

theorem ifSet_step (R C : Nat) (image : Matrix) (r c : Int) {rest : Work → Work}
    {Q : Int × Int × Nat → Prop}
    (h1 : 0 ≤ r) (h2 : r < image.rows) (h3 : 0 ≤ c) (h4 : c < image.cols)
    (h : Step R C rest Q) :
    Step R C (ifSet image r c rest) (fun a => image.cell r c ≠ 0 ∧ Q a) := by
  have e : image.inb r c = true := (inb_iff _ _ _).mpr ⟨h1, h2, h3, h4⟩
  rintro w ⟨hok, hr, hc⟩
  have ew : (⟨w.result, w.ok && image.inb r c⟩ : Work) = w := by
    cases w
    simp_all
  unfold ifSet
  rw [ew]
  by_cases hz : image.cell r c = 0
  · rw [if_pos hz]
    exact ⟨⟨hok, hr, hc⟩, fun a => by simp [hz]⟩
  · rw [if_neg hz]
    have := h w ⟨hok, hr, hc⟩
    exact ⟨this.1, fun a => by rw [this.2 a]; simp [hz]⟩

theorem dilateInterior_step (image mask : Matrix) (hfit : Fits image mask) :
    Step image.rows image.cols (dilateInterior image mask)
      (HitIn image mask ((mask.rows : Int) / 2)
        ((image.rows : Int) - mask.rows + (mask.rows : Int) / 2 + 1)
        ((mask.cols : Int) / 2)
        ((image.cols : Int) - mask.cols + (mask.cols : Int) / 2 + 1)) := by
  obtain ⟨f1, f2, f3, f4⟩ := hfit
  unfold dilateInterior
  dsimp only
  refine accum_congr
    (accum_forUp 0 _ (fun r hr1 hr2 => accum_forUp 0 _ (fun c hc1 hc2 =>
      ifSet_step image.rows image.cols image _ _ (by omega) (by omega) (by omega) (by omega)
        (accum_forUp 0 _ (fun mr hm1 hm2 =>
          orRow_step image.rows image.cols mask mr 0 (r + mr) c mask.cols (by omega) (by omega)
            (by omega) (by omega) (by omega) (by omega) (by omega) (by omega) (by omega)))))) ?_
  rintro ⟨i, j, b⟩
  simp only [HitIn]
  constructor
  · rintro ⟨r, hr1, hr2, c, hc1, hc2, him, mr, hm1, hm2, hi, mc, hmc1, hmc2, hj, hb⟩
    exact ⟨_, _, mr, 0 + mc, by omega, by omega, by omega, by omega, hm1, hm2, by omega,
      by omega, by omega, by omega, by omega, by omega, by omega, by omega, him, hb⟩
  · rintro ⟨sr, sc, mr, mc, h1, h2, h3, h4, h5, h6, h7, h8, h9, h10, h11, h12, h13, h14, him,
      hb⟩
    refine ⟨sr - (mask.rows : Int) / 2, by omega, by omega, sc - (mask.cols : Int) / 2,
      by omega, by omega, ?_, mr, h5, h6, by omega, mc, h7, h8, by omega, ?_⟩
    · rwa [show sr - (mask.rows : Int) / 2 + (mask.rows : Int) / 2 = sr by omega,
        show sc - (mask.cols : Int) / 2 + (mask.cols : Int) / 2 = sc by omega]
    · rwa [show (0 : Int) + mc = mc by omega]


theorem cell_ne_congr {m : Matrix} {a a' b b' : Int} (h : m.cell a b ≠ 0) (ha : a' = a)
    (hb : b' = b) : m.cell a' b' ≠ 0 := by
  subst ha hb
  exact h

theorem cell_bit_congr {m : Matrix} {a a' b b' : Int} {k : Nat}
    (h : (m.cell a b).testBit k = true) (ha : a' = a) (hb : b' = b) :
    (m.cell a' b').testBit k = true := by
  subst ha hb
  exact h

theorem accum_forUp_counter {σ α : Type} {good : σ → Prop} {obs : σ → α → Prop}
    (f : Int → Int → σ → σ) (lo hi e : Int) {Q : Int → α → Prop}
    (h : ∀ k, lo ≤ k → k < hi → Accum good obs (f k (e - 1 - (k - lo))) (Q k)) :
    Accum good obs
      (fun s => (forUp lo hi (fun k (p : σ × Int) => (f k (p.2 - 1) p.1, p.2 - 1)) (s, e)).1)
      (fun a => ∃ k, lo ≤ k ∧ k < hi ∧ Q k a) := by
  have e1 : (fun s => (forUp lo hi (fun k (p : σ × Int) => (f k (p.2 - 1) p.1, p.2 - 1))
      (s, e)).1) = forUp lo hi (fun k s => f k (e - 1 - (k - lo)) s) :=
    funext (fun s => forUp_counter f lo hi e s)
  rw [e1]
  exact accum_forUp lo hi h

theorem accum_forUpBrk_counter {σ α : Type} {good : σ → Prop} {obs : σ → α → Prop}
    (brk : Int → Prop) [DecidablePred brk] (f : Int → Int → σ → σ)
    (atBrk : σ × Int → σ × Int) (hb : ∀ p, (atBrk p).1 = p.1)
    (hmono : ∀ k, brk k → brk (k + 1)) (lo hi e : Int) {Q : Int → α → Prop}
    (h : ∀ k, lo ≤ k → k < hi → ¬brk k → Accum good obs (f k (e - 1 - (k - lo))) (Q k)) :
    Accum good obs
      (fun s => (forUpBrk lo hi (fun k (p : σ × Int) =>
        if brk k then (atBrk p, true) else ((f k (p.2 - 1) p.1, p.2 - 1), false)) (s, e)).1)
      (fun a => ∃ k, lo ≤ k ∧ k < hi ∧ ¬brk k ∧ Q k a) := by
  have e1 : (fun s => (forUpBrk lo hi (fun k (p : σ × Int) =>
        if brk k then (atBrk p, true) else ((f k (p.2 - 1) p.1, p.2 - 1), false)) (s, e)).1) =
      forUp lo hi (fun k s => if brk k then s else f k (e - 1 - (k - lo)) s) :=
    funext (fun s => forUpBrk_counter brk f atBrk hb hmono lo hi e s)
  rw [e1]
  exact accum_forUp lo hi (fun k h1 h2 => accum_guard (brk k) (h k h1 h2))

theorem accum_forUp2 {σ α : Type} {good : σ → Prop} {obs : σ → α → Prop}
    {body : Int → Int → σ → σ} (lo lo2 hi : Int) {Q : Int → α → Prop}
    (h : ∀ k, lo ≤ k → k < hi → Accum good obs (body k (k - lo + lo2)) (Q k)) :
    Accum good obs (forUp2 lo lo2 hi body) (fun a => ∃ k, lo ≤ k ∧ k < hi ∧ Q k a) := by
  have e1 : forUp2 lo lo2 hi body = forUp lo hi (fun a s => body a (a - lo + lo2) s) :=
    funext (fun s => forUp2_eq body lo lo2 hi s)
  rw [e1]
  exact accum_forUp lo hi h

theorem dilateLeft_step (image mask : Matrix) (hfit : Fits image mask) :
    Step image.rows image.cols (dilateLeft image mask)
      (HitIn image mask ((mask.rows : Int) / 2)
        ((image.rows : Int) - mask.rows + (mask.rows : Int) / 2 + 1)
        0 ((mask.cols : Int) / 2)) := by
  obtain ⟨f1, f2, f3, f4⟩ := hfit
  refine accum_congr
    (accum_forUp_counter
      (fun c edge w => forUp 0 ((image.rows : Int) - mask.rows + 1)
        (fun r w => ifSet image (r + (mask.rows : Int) / 2) c
          (fun w => forUp 0 (mask.rows : Int)
            (fun mr w => orRow mask mr edge (r + mr) 0 ((mask.cols : Int) - edge) w) w) w) w)
      0 ((mask.cols : Int) / 2) ((mask.cols : Int) / 2 + 1)
      (fun c hc1 hc2 => accum_forUp 0 _ (fun r hr1 hr2 =>
        ifSet_step image.rows image.cols image _ _ (by omega) (by omega) (by omega) (by omega)
          (accum_forUp 0 _ (fun mr hm1 hm2 =>
            orRow_step image.rows image.cols mask mr _ (r + mr) 0 _ (by omega) (by omega)
              (by omega) (by omega) (by omega) (by omega) (by omega) (by omega) (by omega)))))) ?_
  rintro ⟨i, j, b⟩
  simp only [HitIn]
  constructor
  · rintro ⟨c, hc1, hc2, r, hr1, hr2, him, mr, hm1, hm2, hi, mc, hmc1, hmc2, hj, hb⟩
    exact ⟨_, _, mr, _, by omega, by omega, by omega, by omega, hm1, hm2, by omega,
      by omega, by omega, by omega, by omega, by omega, by omega, by omega, him, hb⟩
  · rintro ⟨sr, sc, mr, mc, h1, h2, h3, h4, h5, h6, h7, h8, h9, h10, h11, h12, h13, h14, him,
      hb⟩
    exact ⟨sc, by omega, by omega, sr - (mask.rows : Int) / 2, by omega, by omega,
      cell_ne_congr him (by omega) (by omega), mr, h5, h6, by omega,
      mc - ((mask.cols : Int) / 2 + 1 - 1 - (sc - 0)), by omega, by omega, by omega,
      cell_bit_congr hb (by omega) (by omega)⟩


theorem dilateRight_step (image mask : Matrix) (hfit : Fits image mask) :
    Step image.rows image.cols (dilateRight image mask)
      (HitIn image mask ((mask.rows : Int) / 2)
        ((image.rows : Int) - mask.rows + (mask.rows : Int) / 2 + 1)
        ((image.cols : Int) - mask.cols + (mask.cols : Int) / 2 + 1) image.cols) := by
  obtain ⟨f1, f2, f3, f4⟩ := hfit
  refine accum_congr
    (accum_forUpBrk_counter
      (fun c => c + (mask.cols : Int) / 2 > (image.cols : Int) - 1)
      (fun c edge w => forUp 0 ((image.rows : Int) - mask.rows + 1)
        (fun r w => ifSet image (r + (mask.rows : Int) / 2) (c + (mask.cols : Int) / 2)
          (fun w => forUp 0 (mask.rows : Int)
            (fun mr w => orRow mask mr 0 (r + mr) c edge w) w) w) w)
      (fun p => (p.1, p.2 - 1)) (fun _ => rfl) (fun k hk => by omega)
      ((image.cols : Int) - mask.cols + 1)
      ((image.cols : Int) - ((mask.cols : Int) - (mask.cols : Int) / 2) + 1) (mask.cols : Int)
      (fun c hc1 hc2 hc3 => accum_forUp 0 _ (fun r hr1 hr2 =>
        ifSet_step image.rows image.cols image _ _ (by omega) (by omega) (by omega) (by omega)
          (accum_forUp 0 _ (fun mr hm1 hm2 =>
            orRow_step image.rows image.cols mask mr 0 (r + mr) c _ (by omega) (by omega)
              (by omega) (by omega) (by omega) (by omega) (by omega) (by omega) (by omega)))))) ?_
  rintro ⟨i, j, b⟩
  simp only [HitIn]
  constructor
  · rintro ⟨c, hc1, hc2, hc3, r, hr1, hr2, him, mr, hm1, hm2, hi, mc, hmc1, hmc2, hj, hb⟩
    exact ⟨_, _, mr, _, by omega, by omega, by omega, by omega, hm1, hm2, by omega,
      by omega, by omega, by omega, by omega, by omega, by omega, by omega, him, hb⟩
  · rintro ⟨sr, sc, mr, mc, h1, h2, h3, h4, h5, h6, h7, h8, h9, h10, h11, h12, h13, h14, him,
      hb⟩
    exact ⟨sc - (mask.cols : Int) / 2, by omega, by omega, by omega,
      sr - (mask.rows : Int) / 2, by omega, by omega,
      cell_ne_congr him (by omega) (by omega), mr, h5, h6, by omega,
      mc, by omega, by omega, by omega, cell_bit_congr hb (by omega) (by omega)⟩

theorem dilateTop_step (image mask : Matrix) (hfit : Fits image mask) :
    Step image.rows image.cols (dilateTop image mask)
      (HitIn image mask 0 ((mask.rows : Int) / 2)
        ((mask.cols : Int) / 2)
        ((image.cols : Int) - mask.cols + (mask.cols : Int) / 2 + 1)) := by
  obtain ⟨f1, f2, f3, f4⟩ := hfit
  refine accum_congr
    (accum_forUp_counter
      (fun r edge w => forUp 0 ((image.cols : Int) - mask.cols + 1)
        (fun c w => ifSet image r (c + (mask.cols : Int) / 2)
          (fun w => forUp2 edge 0 (mask.rows : Int)
            (fun mr ir w => orRow mask mr 0 ir c (mask.cols : Int) w) w) w) w)
      0 ((mask.rows : Int) / 2) ((mask.rows : Int) / 2 + 1)
      (fun r hr1 hr2 => accum_forUp 0 _ (fun c hc1 hc2 =>
        ifSet_step image.rows image.cols image _ _ (by omega) (by omega) (by omega) (by omega)
          (accum_forUp2 _ 0 _ (fun mr hm1 hm2 =>
            orRow_step image.rows image.cols mask mr 0 _ c _ (by omega) (by omega)
              (by omega) (by omega) (by omega) (by omega) (by omega) (by omega) (by omega)))))) ?_
  rintro ⟨i, j, b⟩
  simp only [HitIn]
  constructor
  · rintro ⟨r, hr1, hr2, c, hc1, hc2, him, mr, hm1, hm2, hi, mc, hmc1, hmc2, hj, hb⟩
    exact ⟨_, _, mr, _, by omega, by omega, by omega, by omega, by omega, hm2, by omega,
      by omega, by omega, by omega, by omega, by omega, by omega, by omega, him, hb⟩
  · rintro ⟨sr, sc, mr, mc, h1, h2, h3, h4, h5, h6, h7, h8, h9, h10, h11, h12, h13, h14, him,
      hb⟩
    exact ⟨sr, by omega, by omega, sc - (mask.cols : Int) / 2, by omega, by omega,
      cell_ne_congr him (by omega) (by omega), mr, by omega, h6, by omega,
      mc, by omega, by omega, by omega, cell_bit_congr hb (by omega) (by omega)⟩

theorem dilateBottom_step (image mask : Matrix) (hfit : Fits image mask) :
    Step image.rows image.cols (dilateBottom image mask)
      (HitIn image mask ((image.rows : Int) - mask.rows + (mask.rows : Int) / 2 + 1) image.rows
        ((mask.cols : Int) / 2)
        ((image.cols : Int) - mask.cols + (mask.cols : Int) / 2 + 1)) := by
  obtain ⟨f1, f2, f3, f4⟩ := hfit
  refine accum_congr
    (accum_forUpBrk_counter
      (fun r => r + (mask.rows : Int) / 2 > (image.rows : Int) - 1)
      (fun r edge w => forUp 0 ((image.cols : Int) - mask.cols + 1)
        (fun c w => ifSet image (r + (mask.rows : Int) / 2) (c + (mask.cols : Int) / 2)
          (fun w => forUp 0 edge
            (fun mr w => orRow mask mr 0 (r + mr) c (mask.cols : Int) w) w) w) w)
      (fun p => p) (fun _ => rfl) (fun k hk => by omega)
      ((image.rows : Int) - mask.rows + 1)
      ((image.rows : Int) - ((mask.rows : Int) - (mask.rows : Int) / 2) + 1) (mask.rows : Int)
      (fun r hr1 hr2 hr3 => accum_forUp 0 _ (fun c hc1 hc2 =>
        ifSet_step image.rows image.cols image _ _ (by omega) (by omega) (by omega) (by omega)
          (accum_forUp 0 _ (fun mr hm1 hm2 =>
            orRow_step image.rows image.cols mask mr 0 (r + mr) c _ (by omega) (by omega)
              (by omega) (by omega) (by omega) (by omega) (by omega) (by omega) (by omega)))))) ?_
  rintro ⟨i, j, b⟩
  simp only [HitIn]
  constructor
  · rintro ⟨r, hr1, hr2, hr3, c, hc1, hc2, him, mr, hm1, hm2, hi, mc, hmc1, hmc2, hj, hb⟩
    exact ⟨_, _, mr, _, by omega, by omega, by omega, by omega, hm1, by omega, by omega,
      by omega, by omega, by omega, by omega, by omega, by omega, by omega, him, hb⟩
  · rintro ⟨sr, sc, mr, mc, h1, h2, h3, h4, h5, h6, h7, h8, h9, h10, h11, h12, h13, h14, him,
      hb⟩
    exact ⟨sr - (mask.rows : Int) / 2, by omega, by omega, by omega,
      sc - (mask.cols : Int) / 2, by omega, by omega,
      cell_ne_congr him (by omega) (by omega), mr, h5, by omega, by omega,
      mc, by omega, by omega, by omega, cell_bit_congr hb (by omega) (by omega)⟩


theorem dilateLeftTop_step (image mask : Matrix) (hfit : Fits image mask) :
    Step image.rows image.cols (dilateLeftTop image mask)
      (HitIn image mask 0 ((mask.rows : Int) / 2) 0 ((mask.cols : Int) / 2)) := by
  obtain ⟨f1, f2, f3, f4⟩ := hfit
  refine accum_congr
    (accum_forUp_counter
      (fun r rEdge w => (forUp 0 ((mask.cols : Int) / 2)
        (fun c (t : Work × Int) =>
          (ifSet image r c
            (fun w => forUp2 rEdge 0 (mask.rows : Int)
              (fun mr ir w => orRow mask mr (t.2 - 1) ir 0 ((mask.cols : Int) - (t.2 - 1)) w) w)
            t.1, t.2 - 1))
        (w, (mask.cols : Int) / 2 + 1)).1)
      0 ((mask.rows : Int) / 2) ((mask.rows : Int) / 2 + 1)
      (fun r hr1 hr2 => accum_forUp_counter
        (fun c cEdge w => ifSet image r c
          (fun w => forUp2 ((mask.rows : Int) / 2 + 1 - 1 - (r - 0)) 0 (mask.rows : Int)
            (fun mr ir w => orRow mask mr cEdge ir 0 ((mask.cols : Int) - cEdge) w) w) w)
        0 ((mask.cols : Int) / 2) ((mask.cols : Int) / 2 + 1)
        (fun c hc1 hc2 =>
          ifSet_step image.rows image.cols image _ _ (by omega) (by omega) (by omega) (by omega)
            (accum_forUp2 _ 0 _ (fun mr hm1 hm2 =>
              orRow_step image.rows image.cols mask mr _ _ 0 _ (by omega) (by omega)
                (by omega) (by omega) (by omega) (by omega) (by omega) (by omega)
                (by omega)))))) ?_
  rintro ⟨i, j, b⟩
  simp only [HitIn]
  constructor
  · rintro ⟨r, hr1, hr2, c, hc1, hc2, him, mr, hm1, hm2, hi, mc, hmc1, hmc2, hj, hb⟩
    exact ⟨_, _, mr, _, by omega, by omega, by omega, by omega, by omega, hm2, by omega,
      by omega, by omega, by omega, by omega, by omega, by omega, by omega, him, hb⟩
  · rintro ⟨sr, sc, mr, mc, h1, h2, h3, h4, h5, h6, h7, h8, h9, h10, h11, h12, h13, h14, him,
      hb⟩
    exact ⟨sr, by omega, by omega, sc, by omega, by omega,
      cell_ne_congr him (by omega) (by omega), mr, by omega, h6, by omega,
      mc - ((mask.cols : Int) / 2 + 1 - 1 - (sc - 0)), by omega, by omega, by omega,
      cell_bit_congr hb (by omega) (by omega)⟩

theorem dilateRightTop_step (image mask : Matrix) (hfit : Fits image mask) :
    Step image.rows image.cols (dilateRightTop image mask)
      (HitIn image mask 0 ((mask.rows : Int) / 2)
        ((image.cols : Int) - mask.cols + (mask.cols : Int) / 2 + 1) image.cols) := by
  obtain ⟨f1, f2, f3, f4⟩ := hfit
  refine accum_congr
    (accum_forUp_counter
      (fun r rEdge w => (forUp ((image.cols : Int) - mask.cols + (mask.cols : Int) / 2 + 1)
          (image.cols : Int)
        (fun c (t : Work × Int) =>
          (ifSet image r c
            (fun w => forUp2 rEdge 0 (mask.rows : Int)
              (fun mr ir w => orRow mask mr 0 ir (c - (mask.cols : Int) / 2) (t.2 - 1) w) w)
            t.1, t.2 - 1))
        (w, (mask.cols : Int))).1)
      0 ((mask.rows : Int) / 2) ((mask.rows : Int) / 2 + 1)
      (fun r hr1 hr2 => accum_forUp_counter
        (fun c cEdge w => ifSet image r c
          (fun w => forUp2 ((mask.rows : Int) / 2 + 1 - 1 - (r - 0)) 0 (mask.rows : Int)
            (fun mr ir w => orRow mask mr 0 ir (c - (mask.cols : Int) / 2) cEdge w) w) w)
        ((image.cols : Int) - mask.cols + (mask.cols : Int) / 2 + 1) (image.cols : Int)
        (mask.cols : Int)
        (fun c hc1 hc2 =>
          ifSet_step image.rows image.cols image _ _ (by omega) (by omega) (by omega) (by omega)
            (accum_forUp2 _ 0 _ (fun mr hm1 hm2 =>
              orRow_step image.rows image.cols mask mr 0 _ _ _ (by omega) (by omega)
                (by omega) (by omega) (by omega) (by omega) (by omega) (by omega)
                (by omega)))))) ?_
  rintro ⟨i, j, b⟩
  simp only [HitIn]
  constructor
  · rintro ⟨r, hr1, hr2, c, hc1, hc2, him, mr, hm1, hm2, hi, mc, hmc1, hmc2, hj, hb⟩
    exact ⟨_, _, mr, _, by omega, by omega, by omega, by omega, by omega, hm2, by omega,
      by omega, by omega, by omega, by omega, by omega, by omega, by omega, him, hb⟩
  · rintro ⟨sr, sc, mr, mc, h1, h2, h3, h4, h5, h6, h7, h8, h9, h10, h11, h12, h13, h14, him,
      hb⟩
    exact ⟨sr, by omega, by omega, sc, by omega, by omega,
      cell_ne_congr him (by omega) (by omega), mr, by omega, h6, by omega,
      mc, by omega, by omega, by omega, cell_bit_congr hb (by omega) (by omega)⟩

theorem dilateLeftBottom_step (image mask : Matrix) (hfit : Fits image mask) :
    Step image.rows image.cols (dilateLeftBottom image mask)
      (HitIn image mask ((image.rows : Int) - mask.rows + (mask.rows : Int) / 2 + 1) image.rows
        0 ((mask.cols : Int) / 2)) := by
  obtain ⟨f1, f2, f3, f4⟩ := hfit
  refine accum_congr
    (accum_forUp_counter
      (fun r rEdge w => (forUp 0 ((mask.cols : Int) / 2)
        (fun c (t : Work × Int) =>
          (ifSet image r c
            (fun w => forUp 0 rEdge
              (fun mr w => orRow mask mr (t.2 - 1) (r + mr - (mask.rows : Int) / 2) 0
                ((mask.cols : Int) - (t.2 - 1)) w) w)
            t.1, t.2 - 1))
        (w, (mask.cols : Int) / 2 + 1)).1)
      ((image.rows : Int) - mask.rows + (mask.rows : Int) / 2 + 1) (image.rows : Int)
      (mask.rows : Int)
      (fun r hr1 hr2 => accum_forUp_counter
        (fun c cEdge w => ifSet image r c
          (fun w => forUp 0 ((mask.rows : Int) - 1 -
              (r - ((image.rows : Int) - mask.rows + (mask.rows : Int) / 2 + 1)))
            (fun mr w => orRow mask mr cEdge (r + mr - (mask.rows : Int) / 2) 0
              ((mask.cols : Int) - cEdge) w) w) w)
        0 ((mask.cols : Int) / 2) ((mask.cols : Int) / 2 + 1)
        (fun c hc1 hc2 =>
          ifSet_step image.rows image.cols image _ _ (by omega) (by omega) (by omega) (by omega)
            (accum_forUp 0 _ (fun mr hm1 hm2 =>
              orRow_step image.rows image.cols mask mr _ _ 0 _ (by omega) (by omega)
                (by omega) (by omega) (by omega) (by omega) (by omega) (by omega)
                (by omega)))))) ?_
  rintro ⟨i, j, b⟩
  simp only [HitIn]
  constructor
  · rintro ⟨r, hr1, hr2, c, hc1, hc2, him, mr, hm1, hm2, hi, mc, hmc1, hmc2, hj, hb⟩
    exact ⟨_, _, mr, _, by omega, by omega, by omega, by omega, hm1, by omega, by omega,
      by omega, by omega, by omega, by omega, by omega, by omega, by omega, him, hb⟩
  · rintro ⟨sr, sc, mr, mc, h1, h2, h3, h4, h5, h6, h7, h8, h9, h10, h11, h12, h13, h14, him,
      hb⟩
    exact ⟨sr, by omega, by omega, sc, by omega, by omega,
      cell_ne_congr him (by omega) (by omega), mr, h5, by omega, by omega,
      mc - ((mask.cols : Int) / 2 + 1 - 1 - (sc - 0)), by omega, by omega, by omega,
      cell_bit_congr hb (by omega) (by omega)⟩

theorem dilateRightBottom_step (image mask : Matrix) (hfit : Fits image mask) :
    Step image.rows image.cols (dilateRightBottom image mask)
      (HitIn image mask ((image.rows : Int) - mask.rows + (mask.rows : Int) / 2 + 1) image.rows
        ((image.cols : Int) - mask.cols + (mask.cols : Int) / 2 + 1) image.cols) := by
  obtain ⟨f1, f2, f3, f4⟩ := hfit
  refine accum_congr
    (accum_forUp_counter
      (fun r rEdge w => (forUp ((image.cols : Int) - mask.cols + (mask.cols : Int) / 2 + 1)
          (image.cols : Int)
        (fun c (t : Work × Int) =>
          (ifSet image r c
            (fun w => forUp 0 rEdge
              (fun mr w => orRow mask mr 0 (r + mr - (mask.rows : Int) / 2)
                (c - (mask.cols : Int) / 2) (t.2 - 1) w) w)
            t.1, t.2 - 1))
        (w, (mask.cols : Int))).1)
      ((image.rows : Int) - mask.rows + (mask.rows : Int) / 2 + 1) (image.rows : Int)
      (mask.rows : Int)
      (fun r hr1 hr2 => accum_forUp_counter
        (fun c cEdge w => ifSet image r c
          (fun w => forUp 0 ((mask.rows : Int) - 1 -
              (r - ((image.rows : Int) - mask.rows + (mask.rows : Int) / 2 + 1)))
            (fun mr w => orRow mask mr 0 (r + mr - (mask.rows : Int) / 2)
              (c - (mask.cols : Int) / 2) cEdge w) w) w)
        ((image.cols : Int) - mask.cols + (mask.cols : Int) / 2 + 1) (image.cols : Int)
        (mask.cols : Int)
        (fun c hc1 hc2 =>
          ifSet_step image.rows image.cols image _ _ (by omega) (by omega) (by omega) (by omega)
            (accum_forUp 0 _ (fun mr hm1 hm2 =>
              orRow_step image.rows image.cols mask mr 0 _ _ _ (by omega) (by omega)
                (by omega) (by omega) (by omega) (by omega) (by omega) (by omega)
                (by omega)))))) ?_
  rintro ⟨i, j, b⟩
  simp only [HitIn]
  constructor
  · rintro ⟨r, hr1, hr2, c, hc1, hc2, him, mr, hm1, hm2, hi, mc, hmc1, hmc2, hj, hb⟩
    exact ⟨_, _, mr, _, by omega, by omega, by omega, by omega, hm1, by omega, by omega,
      by omega, by omega, by omega, by omega, by omega, by omega, by omega, him, hb⟩
  · rintro ⟨sr, sc, mr, mc, h1, h2, h3, h4, h5, h6, h7, h8, h9, h10, h11, h12, h13, h14, him,
      hb⟩
    exact ⟨sr, by omega, by omega, sc, by omega, by omega,
      cell_ne_congr him (by omega) (by omega), mr, h5, by omega, by omega,
      mc, by omega, by omega, by omega, cell_bit_congr hb (by omega) (by omega)⟩


/-! ## Dilation is its set definition -/

theorem hitIn_mono {image mask : Matrix} {rLo rHi cLo cHi rLo' rHi' cLo' cHi' : Int}
    {a : Int × Int × Nat} (h1 : rLo' ≤ rLo) (h2 : rHi ≤ rHi') (h3 : cLo' ≤ cLo) (h4 : cHi ≤ cHi')
    (h : HitIn image mask rLo rHi cLo cHi a) : HitIn image mask rLo' rHi' cLo' cHi' a := by
  obtain ⟨sr, sc, mr, mc, g1, g2, g3, g4, rest⟩ := h
  exact ⟨sr, sc, mr, mc, by omega, by omega, by omega, by omega, rest⟩

theorem hitIn_rows {image mask : Matrix} {rLo rHi cLo cHi : Int} (m : Int)
    {a : Int × Int × Nat} (h : HitIn image mask rLo rHi cLo cHi a) :
    HitIn image mask rLo m cLo cHi a ∨ HitIn image mask m rHi cLo cHi a := by
  obtain ⟨sr, sc, mr, mc, g1, g2, rest⟩ := h
  rcases lt_or_le sr m with hm | hm
  · exact Or.inl ⟨sr, sc, mr, mc, g1, hm, rest⟩
  · exact Or.inr ⟨sr, sc, mr, mc, hm, g2, rest⟩

theorem hitIn_cols {image mask : Matrix} {rLo rHi cLo cHi : Int} (m : Int)
    {a : Int × Int × Nat} (h : HitIn image mask rLo rHi cLo cHi a) :
    HitIn image mask rLo rHi cLo m a ∨ HitIn image mask rLo rHi m cHi a := by
  obtain ⟨sr, sc, mr, mc, g1, g2, g3, g4, rest⟩ := h
  rcases lt_or_le sc m with hm | hm
  · exact Or.inl ⟨sr, sc, mr, mc, g1, g2, g3, hm, rest⟩
  · exact Or.inr ⟨sr, sc, mr, mc, g1, g2, hm, g4, rest⟩

/-- The nine passes of `dilate` together OR into the result exactly the bits of
the mask cells whose source pixel is a foreground pixel of the image. -/
theorem dilate_passes (image mask : Matrix) (hfit : Fits image mask) :
    Step image.rows image.cols
      (fun w => dilateRightBottom image mask (dilateLeftBottom image mask
        (dilateRightTop image mask (dilateLeftTop image mask (dilateBottom image mask
          (dilateTop image mask (dilateRight image mask (dilateLeft image mask
            (dilateInterior image mask w)))))))))
      (HitIn image mask 0 image.rows 0 image.cols) := by
  have hf := hfit
  obtain ⟨f1, f2, f3, f4⟩ := hf
  refine accum_congr
    (accum_comp (accum_comp (accum_comp (accum_comp (accum_comp (accum_comp (accum_comp
      (accum_comp (dilateInterior_step image mask hfit) (dilateLeft_step image mask hfit))
      (dilateRight_step image mask hfit)) (dilateTop_step image mask hfit))
      (dilateBottom_step image mask hfit)) (dilateLeftTop_step image mask hfit))
      (dilateRightTop_step image mask hfit)) (dilateLeftBottom_step image mask hfit))
      (dilateRightBottom_step image mask hfit)) ?_
  intro a
  constructor
  · rintro ((((((((h | h) | h) | h) | h) | h) | h) | h) | h) <;>
      exact hitIn_mono (by omega) (by omega) (by omega) (by omega) h
  · intro h
    rcases hitIn_rows ((mask.rows : Int) / 2) h with ht | h
    · rcases hitIn_cols ((mask.cols : Int) / 2) ht with hl | ht
      · exact Or.inl (Or.inl (Or.inl (Or.inr hl)))
      · rcases hitIn_cols ((image.cols : Int) - mask.cols + (mask.cols : Int) / 2 + 1) ht
          with hm | hr
        · exact Or.inl (Or.inl (Or.inl (Or.inl (Or.inl (Or.inr hm)))))
        · exact Or.inl (Or.inl (Or.inr hr))
    · rcases hitIn_rows ((image.rows : Int) - mask.rows + (mask.rows : Int) / 2 + 1) h
        with hmid | hbot
      · rcases hitIn_cols ((mask.cols : Int) / 2) hmid with hl | ht
        · exact Or.inl (Or.inl (Or.inl (Or.inl (Or.inl (Or.inl (Or.inl (Or.inr hl)))))))
        · rcases hitIn_cols ((image.cols : Int) - mask.cols + (mask.cols : Int) / 2 + 1) ht
            with hm | hr
          · exact Or.inl (Or.inl (Or.inl (Or.inl (Or.inl (Or.inl (Or.inl (Or.inl hm)))))))
          · exact Or.inl (Or.inl (Or.inl (Or.inl (Or.inl (Or.inl (Or.inr hr))))))
      · rcases hitIn_cols ((mask.cols : Int) / 2) hbot with hl | ht
        · exact Or.inl (Or.inr hl)
        · rcases hitIn_cols ((image.cols : Int) - mask.cols + (mask.cols : Int) / 2 + 1) ht
            with hm | hr
          · exact Or.inl (Or.inl (Or.inl (Or.inl (Or.inr hm))))
          · exact Or.inr hr

/-- Bit-level contract of `dilate` for a mask that fits: no access leaves its
grid, the result has the extents of the image, no warning is given, and bit `b`
of cell `(i, j)` is set iff a mask cell with that bit has a foreground source. -/
theorem dilate_bits (image mask : Matrix) (hfit : Fits image mask) :
    (dilate image mask).ok = true ∧ (dilate image mask).value.rows = image.rows ∧
      (dilate image mask).value.cols = image.cols ∧ (dilate image mask).warned = false ∧
      ∀ (i j : Int) (b : Nat), ((dilate image mask).value.cell i j).testBit b = true ↔
        HitIn image mask 0 image.rows 0 image.cols (i, j, b) := by
  have h := dilate_passes image mask hfit ⟨Matrix.zero image.rows image.cols, true⟩
    ⟨rfl, rfl, rfl⟩
  obtain ⟨⟨h1, h2, h3⟩, h4⟩ := h
  obtain ⟨f1, f2, f3, f4⟩ := hfit
  refine ⟨h1, h2, h3, ?_, fun i j b => ?_⟩
  · simp only [dilate, decide_eq_false_iff_not]
    omega
  · have := h4 (i, j, b)
    simp only [WBit, Matrix.zero, int_testBit_zero, Bool.false_eq_true, false_or] at this
    exact this

theorem dilate_ne_zero_iff (image mask : Matrix) (hfit : Fits image mask) (i j : Int)
    (hi0 : 0 ≤ i) (hi1 : i < image.rows) (hj0 : 0 ≤ j) (hj1 : j < image.cols) :
    (dilate image mask).value.cell i j ≠ 0 ↔ Minkowski image mask i j := by
  have hb := (dilate_bits image mask hfit).2.2.2.2
  rw [int_ne_zero_iff]
  constructor
  · rintro ⟨b, h⟩
    obtain ⟨sr, sc, mr, mc, g1, g2, g3, g4, g5, g6, g7, g8, g9, g10, g11, g12, g13, g14, him,
      hbit⟩ := (hb i j b).mp h
    simp only at g9 g10
    exact ⟨mr, mc, g5, g6, g7, g8, (int_ne_zero_iff _).mpr ⟨b, hbit⟩, by omega, by omega,
      by omega, by omega, cell_ne_congr him (by omega) (by omega)⟩
  · rintro ⟨mr, mc, g1, g2, g3, g4, hm, g5, g6, g7, g8, him⟩
    obtain ⟨b, hbit⟩ := (int_ne_zero_iff _).mp hm
    exact ⟨b, (hb i j b).mpr ⟨_, _, mr, mc, g5, g6, g7, g8, g1, g2, g3, g4,
      by simp only; omega, by simp only; omega, hi0, hi1, hj0, hj1, him, hbit⟩⟩


/-! ## Erosion -/

theorem erodeTest_step (img mask : Matrix) (r c mr mc : Int)
    (h1 : 0 ≤ mr) (h2 : mr < mask.rows) (h3 : 0 ≤ mc) (h4 : mc < mask.cols)
    (h5 : 0 ≤ r + mr) (h6 : r + mr < img.rows) (h7 : 0 ≤ c + mc) (h8 : c + mc < img.cols) :
    Accum SGood SOut (erodeTest img mask r c mr mc)
      (fun _ => ¬BitsIn (mask.cell mr mc) (img.cell (r + mr) (c + mc))) := by
  intro s hs
  have e1 : mask.inb mr mc = true := (inb_iff _ _ _).mpr ⟨h1, h2, h3, h4⟩
  have e2 : img.inb (r + mr) (c + mc) = true := (inb_iff _ _ _).mpr ⟨h5, h6, h7, h8⟩
  unfold erodeTest
  by_cases ho : s.out = true
  · rw [if_pos ho]
    exact ⟨hs, fun _ => by simp [SOut, ho]⟩
  · rw [if_neg ho]
    refine ⟨?_, fun _ => ?_⟩
    · have : s.ok = true := hs
      simp [SGood, this, e1, e2]
    · simp only [SOut, BitsIn, decide_eq_true_eq]
      constructor
      · exact fun h => Or.inr h
      · rintro (h | h)
        · exact absurd h ho
        · exact h

theorem erodeScan_spec (img mask : Matrix) (r c : Int)
    (h1 : 0 ≤ r) (h2 : r + mask.rows ≤ img.rows) (h3 : 0 ≤ c) (h4 : c + mask.cols ≤ img.cols) :
    (erodeScan img mask r c).ok = true ∧
      ((erodeScan img mask r c).out = true ↔
        ¬∀ mr mc : Int, 0 ≤ mr → mr < mask.rows → 0 ≤ mc → mc < mask.cols →
          BitsIn (mask.cell mr mc) (img.cell (r + mr) (c + mc))) := by
  have h : Accum SGood SOut
      (forUp 0 (mask.rows : Int)
        (fun mr s => loopDown (fun mc s => erodeTest img mask r c mr mc s) mask.cols s)) _ :=
    accum_forUp 0 (mask.rows : Int)
      (fun mr hm1 hm2 => accum_loopDown mask.cols (fun mc hc1 hc2 =>
        erodeTest_step img mask r c mr mc hm1 hm2 hc1 hc2 (by omega) (by omega) (by omega)
          (by omega)))
  have := h ⟨false, true⟩ rfl
  refine ⟨this.1, ?_⟩
  have h2 := this.2 ()
  simp only [SOut, Bool.false_eq_true, false_or] at h2
  unfold erodeScan
  rw [h2]
  constructor
  · rintro ⟨mr, hm1, hm2, mc, hc1, hc2, hb⟩ hall
    exact hb (hall mr mc hm1 hm2 hc1 hc2)
  · intro hn
    by_contra hc
    apply hn
    intro mr mc hm1 hm2 hc1 hc2
    by_contra hb
    exact hc ⟨mr, hm1, hm2, mc, hc1, hc2, hb⟩

theorem erodeCell_step (R C : Nat) (img mask : Matrix) (rOrig cOrig r c : Int)
    (h1 : 0 ≤ r) (h2 : r + mask.rows ≤ img.rows) (h3 : 0 ≤ c) (h4 : c + mask.cols ≤ img.cols)
    (h5 : 0 ≤ r + rOrig) (h6 : r + rOrig < R) (h7 : 0 ≤ c + cOrig) (h8 : c + cOrig < C) :
    Accum (EGood R C) EOne (erodeCell img mask rOrig cOrig r c)
      (fun a => a.1 = r + rOrig ∧ a.2 = c + cOrig ∧
        ∀ mr mc : Int, 0 ≤ mr → mr < mask.rows → 0 ≤ mc → mc < mask.cols →
          BitsIn (mask.cell mr mc) (img.cell (r + mr) (c + mc))) := by
  rintro w ⟨hok, hr, hc, hbin⟩
  obtain ⟨hsok, hsout⟩ := erodeScan_spec img mask r c h1 h2 h3 h4
  unfold erodeCell
  dsimp only
  by_cases ho : (erodeScan img mask r c).out = true
  · rw [if_pos ho]
    refine ⟨⟨by simp [hok, hsok], hr, hc, hbin⟩, fun a => ?_⟩
    have := hsout.mp ho
    simp only [EOne]
    constructor
    · exact fun h => Or.inl h
    · rintro (h | ⟨_, _, h⟩)
      · exact h
      · exact absurd h this
  · rw [if_neg ho]
    have hall := not_not.mp (fun hn => ho (hsout.mpr hn))
    have e1 : w.result.inb (r + rOrig) (c + cOrig) = true :=
      (inb_iff _ _ _).mpr ⟨h5, by rw [hr]; exact h6, h7, by rw [hc]; exact h8⟩
    refine ⟨⟨by simp [hok, hsok, e1], hr, hc, fun i j => ?_⟩, fun a => ?_⟩
    · simp only [Matrix.set]
      split
      · exact Or.inr rfl
      · exact hbin i j
    · obtain ⟨i, j⟩ := a
      simp only [EOne, Matrix.set]
      by_cases hij : i = r + rOrig ∧ j = c + cOrig
      · rw [if_pos hij]
        exact ⟨fun _ => Or.inr ⟨hij.1, hij.2, hall⟩, fun _ => rfl⟩
      · rw [if_neg hij]
        constructor
        · exact fun h => Or.inl h
        · rintro (h | ⟨g1, g2, _⟩)
          · exact h
          · exact absurd ⟨g1, g2⟩ hij

/-- The window loops of `erode` on an image the mask fits: all accesses are in
bounds, the result has the extents of `img`, every cell is 0 or 1, and cell
`(i, j)` is 1 exactly in the full-coverage region where no mask cell has a bit
that the image cell under it lacks. -/
theorem erodeLoops_spec (img mask : Matrix) (hfit : Fits img mask) :
    (erodeLoops img mask).ok = true ∧ (erodeLoops img mask).result.rows = img.rows ∧
      (erodeLoops img mask).result.cols = img.cols ∧
      (∀ i j : Int, (erodeLoops img mask).result.cell i j = 0 ∨
        (erodeLoops img mask).result.cell i j = 1) ∧
      ∀ i j : Int, (erodeLoops img mask).result.cell i j = 1 ↔
        (Covered img mask i j ∧ BitCovers img mask i j) := by
  obtain ⟨f1, f2, f3, f4⟩ := hfit
  have h : Accum (EGood img.rows img.cols) EOne
      (forUp 0 ((img.rows : Int) - mask.rows + 1)
        (fun r w => forUp 0 ((img.cols : Int) - mask.cols + 1)
          (fun c w => erodeCell img mask ((mask.rows : Int) / 2) ((mask.cols : Int) / 2) r c w)
          w)) _ :=
    accum_forUp 0 ((img.rows : Int) - mask.rows + 1)
      (fun r hr1 hr2 => accum_forUp 0 _ (fun c hc1 hc2 =>
        erodeCell_step img.rows img.cols img mask ((mask.rows : Int) / 2)
          ((mask.cols : Int) / 2) r c hr1 (by omega) hc1 (by omega) (by omega) (by omega)
          (by omega) (by omega)))
  have := h ⟨Matrix.zero img.rows img.cols, true⟩ ⟨rfl, rfl, rfl, fun _ _ => Or.inl rfl⟩
  obtain ⟨⟨g1, g2, g3, g4⟩, g5⟩ := this
  refine ⟨g1, g2, g3, g4, fun i j => ?_⟩
  have := g5 (i, j)
  simp only [EOne, Matrix.zero] at this
  refine Iff.trans this ?_
  simp only [Covered, BitCovers]
  constructor
  · rintro (h | ⟨r, hr1, hr2, c, hc1, hc2, hi, hj, hall⟩)
    · exact absurd h (by decide)
    · refine ⟨⟨by omega, by omega, by omega, by omega⟩, fun mr mc m1 m2 m3 m4 => ?_⟩
      have := hall mr mc m1 m2 m3 m4
      rwa [show i + mr - (mask.rows : Int) / 2 = r + mr by omega,
        show j + mc - (mask.cols : Int) / 2 = c + mc by omega]
  · rintro ⟨⟨c1, c2, c3, c4⟩, hall⟩
    refine Or.inr ⟨i - (mask.rows : Int) / 2, by omega, by omega, j - (mask.cols : Int) / 2,
      by omega, by omega, by omega, by omega, fun mr mc m1 m2 m3 m4 => ?_⟩
    have := hall mr mc m1 m2 m3 m4
    rwa [show i + mr - (mask.rows : Int) / 2 = i - (mask.rows : Int) / 2 + mr by omega,
      show j + mc - (mask.cols : Int) / 2 = j - (mask.cols : Int) / 2 + mc by omega] at this

/-- The contract of `erode(image, mask, false)` for a mask that fits. -/
theorem erode_false_spec (image mask : Matrix) (hfit : Fits image mask) :
    (erode image mask false).ok = true ∧ (erode image mask false).warned = false ∧
      (erode image mask false).value.rows = image.rows ∧
      (erode image mask false).value.cols = image.cols ∧
      (∀ i j : Int, (erode image mask false).value.cell i j = 0 ∨
        (erode image mask false).value.cell i j = 1) ∧
      ∀ i j : Int, (erode image mask false).value.cell i j = 1 ↔
        (Covered image mask i j ∧ BitCovers image mask i j) := by
  have h := erodeLoops_spec image mask hfit
  obtain ⟨f1, f2, f3, f4⟩ := hfit
  have hg : ¬((mask.rows : Int) > image.rows ∨ (mask.cols : Int) > image.cols) := by omega
  have e : erode image mask false =
      ⟨(erodeLoops image mask).result, (erodeLoops image mask).ok, false⟩ := by
    unfold erode
    simp only [Bool.false_eq_true, if_false]
    rw [if_neg hg]
  rw [e]
  exact ⟨h.1, rfl, h.2.1, h.2.2.1, h.2.2.2.1, h.2.2.2.2⟩


/-! ## The contracts of `dilate` and `erode` -/

/-- C1: for every image and every mask with `1 <= maskRows <= rows` and
`1 <= maskCols <= cols` (any integer cells), `dilate` stays inside its grids,
returns a grid of the image's extents, and pixel `(i, j)` of the result is
nonzero iff some nonzero mask cell `(mr, mc)` has its source
`(i-mr+rOrig, j-mc+cOrig)` inside the image and nonzero there: the interior pass
and the eight edge and corner passes produce exactly the Minkowski union. -/
theorem dilate_eq_set_definition (image mask : Matrix) (hfit : Fits image mask) :
    (dilate image mask).ok = true ∧ (dilate image mask).value.rows = image.rows ∧
      (dilate image mask).value.cols = image.cols ∧
      ∀ i j : Int, 0 ≤ i → i < image.rows → 0 ≤ j → j < image.cols →
        ((dilate image mask).value.cell i j ≠ 0 ↔ Minkowski image mask i j) :=
  ⟨(dilate_bits image mask hfit).1, (dilate_bits image mask hfit).2.1,
    (dilate_bits image mask hfit).2.2.1,
    fun i j h1 h2 h3 h4 => dilate_ne_zero_iff image mask hfit i j h1 h2 h3 h4⟩

theorem dilate_eq_set_definition_witness :
    Fits (Matrix.ofRows 3 4 [[0, 0, 1, 0], [0, 0, 0, 0], [2, 0, 0, 0]])
        (Matrix.ofRows 2 3 [[0, 1, 1], [4, 0, 0]]) ∧
      ((dilate (Matrix.ofRows 3 4 [[0, 0, 1, 0], [0, 0, 0, 0], [2, 0, 0, 0]])
          (Matrix.ofRows 2 3 [[0, 1, 1], [4, 0, 0]])).ok = true ∧
        (dilate (Matrix.ofRows 3 4 [[0, 0, 1, 0], [0, 0, 0, 0], [2, 0, 0, 0]])
          (Matrix.ofRows 2 3 [[0, 1, 1], [4, 0, 0]])).value.rows = 3 ∧
        (dilate (Matrix.ofRows 3 4 [[0, 0, 1, 0], [0, 0, 0, 0], [2, 0, 0, 0]])
          (Matrix.ofRows 2 3 [[0, 1, 1], [4, 0, 0]])).value.cols = 4 ∧
        ∀ i j : Int, 0 ≤ i → i < (3 : Nat) → 0 ≤ j → j < (4 : Nat) →
          ((dilate (Matrix.ofRows 3 4 [[0, 0, 1, 0], [0, 0, 0, 0], [2, 0, 0, 0]])
              (Matrix.ofRows 2 3 [[0, 1, 1], [4, 0, 0]])).value.cell i j ≠ 0 ↔
            Minkowski (Matrix.ofRows 3 4 [[0, 0, 1, 0], [0, 0, 0, 0], [2, 0, 0, 0]])
              (Matrix.ofRows 2 3 [[0, 1, 1], [4, 0, 0]]) i j)) :=
  ⟨⟨by decide, by decide, by decide, by decide⟩,
    dilate_eq_set_definition _ _ ⟨by decide, by decide, by decide, by decide⟩⟩

theorem binary_bitCovers_iff {image mask : Matrix} (hi : image.Binary) (hm : mask.Binary)
    {i j : Int} (hc : Covered image mask i j) :
    BitCovers image mask i j ↔ Covers image mask i j := by
  obtain ⟨c1, c2, c3, c4⟩ := hc
  constructor
  · intro h mr mc m1 m2 m3 m4 hne
    exact ne_zero_of_bitsIn (h mr mc m1 m2 m3 m4) hne
  · intro h mr mc m1 m2 m3 m4
    exact (bitsIn_binary (hm mr mc m1 m2 m3 m4)
      (hi _ _ (by omega) (by omega) (by omega) (by omega))).mpr (h mr mc m1 m2 m3 m4)

theorem covered_ones_5_3 (i j : Int) :
    Covered (ones 5 5) (ones 3 3) i j ↔ (1 ≤ i ∧ i ≤ 3 ∧ 1 ≤ j ∧ j ≤ 3) := by
  simp only [Covered, ones]
  norm_num

/-- C2: for every 0/1 image and 0/1 mask with `1 <= maskRows <= rows` and
`1 <= maskCols <= cols`, `erode(image, mask, false)` stays in bounds, gives no
warning, keeps the extents, and its pixel `(i, j)` is 1 iff `(i, j)` lies in the
full-coverage region and every foreground mask cell lies over a foreground
image pixel; every other pixel is 0, so the border strip is background.  The
all-foreground 5x5 image eroded by the all-foreground 3x3 mask is 1 on the 3x3
interior and 0 on the 1-pixel border. -/
theorem erode_no_borders (image mask : Matrix) (hi : image.Binary) (hm : mask.Binary)
    (hfit : Fits image mask) :
    ((erode image mask false).ok = true ∧ (erode image mask false).warned = false ∧
      (erode image mask false).value.rows = image.rows ∧
      (erode image mask false).value.cols = image.cols ∧
      ∀ i j : Int, 0 ≤ i → i < image.rows → 0 ≤ j → j < image.cols →
        (((erode image mask false).value.cell i j = 1 ↔
            (Covered image mask i j ∧ Covers image mask i j)) ∧
          (¬(Covered image mask i j ∧ Covers image mask i j) →
            (erode image mask false).value.cell i j = 0) ∧
          (¬Covered image mask i j → (erode image mask false).value.cell i j = 0))) ∧
      ∀ i j : Int, 0 ≤ i → i < 5 → 0 ≤ j → j < 5 →
        (erode (ones 5 5) (ones 3 3) false).value.cell i j =
          if 1 ≤ i ∧ i ≤ 3 ∧ 1 ≤ j ∧ j ≤ 3 then 1 else 0 := by
  have key : ∀ (im mk : Matrix), im.Binary → mk.Binary → Fits im mk → ∀ i j : Int,
      ((erode im mk false).value.cell i j = 1 ↔ (Covered im mk i j ∧ Covers im mk i j)) ∧
        (¬(Covered im mk i j ∧ Covers im mk i j) → (erode im mk false).value.cell i j = 0) := by
    intro im mk him hmk hf i j
    obtain ⟨_, _, _, _, hbin, hone⟩ := erode_false_spec im mk hf
    have e : (erode im mk false).value.cell i j = 1 ↔ (Covered im mk i j ∧ Covers im mk i j) := by
      rw [hone i j]
      constructor
      · exact fun h => ⟨h.1, (binary_bitCovers_iff him hmk h.1).mp h.2⟩
      · exact fun h => ⟨h.1, (binary_bitCovers_iff him hmk h.1).mpr h.2⟩
    refine ⟨e, fun hn => ?_⟩
    rcases hbin i j with h0 | h1
    · exact h0
    · exact absurd (e.mp h1) hn
  obtain ⟨g1, g2, g3, g4, _, _⟩ := erode_false_spec image mask hfit
  refine ⟨⟨g1, g2, g3, g4, fun i j _ _ _ _ =>
    ⟨(key image mask hi hm hfit i j).1, (key image mask hi hm hfit i j).2,
      fun hn => (key image mask hi hm hfit i j).2 (fun h => hn h.1)⟩⟩, ?_⟩
  intro i j h1 h2 h3 h4
  have hb : ∀ r c : Nat, (ones r c).Binary := fun _ _ _ _ _ _ _ _ => Or.inr rfl
  have hk := key (ones 5 5) (ones 3 3) (hb 5 5) (hb 3 3)
    ⟨by decide, by decide, by decide, by decide⟩ i j
  have hcov : Covers (ones 5 5) (ones 3 3) i j := fun _ _ _ _ _ _ _ => by
    show (1 : Int) ≠ 0
    decide
  by_cases hc : 1 ≤ i ∧ i ≤ 3 ∧ 1 ≤ j ∧ j ≤ 3
  · rw [if_pos hc]
    exact hk.1.mpr ⟨(covered_ones_5_3 i j).mpr hc, hcov⟩
  · rw [if_neg hc]
    exact hk.2 (fun h => hc ((covered_ones_5_3 i j).mp h.1))

theorem erode_no_borders_witness :
    (ones 5 5).Binary ∧ (ones 3 3).Binary ∧ Fits (ones 5 5) (ones 3 3) ∧
      (((erode (ones 5 5) (ones 3 3) false).ok = true ∧
        (erode (ones 5 5) (ones 3 3) false).warned = false ∧
        (erode (ones 5 5) (ones 3 3) false).value.rows = (ones 5 5).rows ∧
        (erode (ones 5 5) (ones 3 3) false).value.cols = (ones 5 5).cols ∧
        ∀ i j : Int, 0 ≤ i → i < (ones 5 5).rows → 0 ≤ j → j < (ones 5 5).cols →
          (((erode (ones 5 5) (ones 3 3) false).value.cell i j = 1 ↔
              (Covered (ones 5 5) (ones 3 3) i j ∧ Covers (ones 5 5) (ones 3 3) i j)) ∧
            (¬(Covered (ones 5 5) (ones 3 3) i j ∧ Covers (ones 5 5) (ones 3 3) i j) →
              (erode (ones 5 5) (ones 3 3) false).value.cell i j = 0) ∧
            (¬Covered (ones 5 5) (ones 3 3) i j →
              (erode (ones 5 5) (ones 3 3) false).value.cell i j = 0))) ∧
        ∀ i j : Int, 0 ≤ i → i < 5 → 0 ≤ j → j < 5 →
          (erode (ones 5 5) (ones 3 3) false).value.cell i j =
            if 1 ≤ i ∧ i ≤ 3 ∧ 1 ≤ j ∧ j ≤ 3 then 1 else 0) :=
  ⟨fun _ _ _ _ _ _ => Or.inr rfl, fun _ _ _ _ _ _ => Or.inr rfl,
    ⟨by decide, by decide, by decide, by decide⟩,
    erode_no_borders (ones 5 5) (ones 3 3) (fun _ _ _ _ _ _ => Or.inr rfl)
      (fun _ _ _ _ _ _ => Or.inr rfl) ⟨by decide, by decide, by decide, by decide⟩⟩


theorem clamp_bounds (x : Int) (n : Nat) (hn : 1 ≤ n) : 0 ≤ clamp x n ∧ clamp x n < n := by
  unfold clamp
  omega

/-- C3: for every 0/1 image with `rows >= 1` and `cols >= 1` and every 0/1 mask with
`maskRows >= 1` and `maskCols >= 1` (it may be larger than the image),
`erode(image, mask, true)` stays in bounds, gives no warning, has the image's
extents, and its pixel `(i, j)` is 1 iff every foreground mask cell `(mr, mc)`
has `image(clamp(i+mr-rOrig), clamp(j+mc-cOrig))` foreground, and 0 otherwise:
the erosion of the edge-replicated image cropped back to the image. -/
theorem erode_with_borders (image mask : Matrix) (hi : image.Binary) (hm : mask.Binary)
    (hr : 1 ≤ image.rows) (hc : 1 ≤ image.cols) (hmr : 1 ≤ mask.rows) (hmc : 1 ≤ mask.cols) :
    (erode image mask true).ok = true ∧ (erode image mask true).warned = false ∧
      (erode image mask true).value.rows = image.rows ∧
      (erode image mask true).value.cols = image.cols ∧
      ∀ i j : Int, 0 ≤ i → i < image.rows → 0 ≤ j → j < image.cols →
        (((erode image mask true).value.cell i j = 1 ↔ CoversClamped image mask i j) ∧
          (¬CoversClamped image mask i j → (erode image mask true).value.cell i j = 0)) := by
  have hext : ∀ x y : Int,
      (extend image ((mask.rows : Int) / 2) ((mask.rows : Int) - (mask.rows : Int) / 2 - 1)
        ((mask.cols : Int) / 2) ((mask.cols : Int) - (mask.cols : Int) / 2 - 1)).cell x y =
      image.cell (clamp (x - (mask.rows : Int) / 2) image.rows)
        (clamp (y - (mask.cols : Int) / 2) image.cols) := fun _ _ => rfl
  have hrows : ((extend image ((mask.rows : Int) / 2)
      ((mask.rows : Int) - (mask.rows : Int) / 2 - 1) ((mask.cols : Int) / 2)
      ((mask.cols : Int) - (mask.cols : Int) / 2 - 1)).rows : Int) =
      (image.rows : Int) + mask.rows - 1 := by
    simp only [extend]
    omega
  have hcols : ((extend image ((mask.rows : Int) / 2)
      ((mask.rows : Int) - (mask.rows : Int) / 2 - 1) ((mask.cols : Int) / 2)
      ((mask.cols : Int) - (mask.cols : Int) / 2 - 1)).cols : Int) =
      (image.cols : Int) + mask.cols - 1 := by
    simp only [extend]
    omega
  generalize hE : extend image ((mask.rows : Int) / 2)
      ((mask.rows : Int) - (mask.rows : Int) / 2 - 1) ((mask.cols : Int) / 2)
      ((mask.cols : Int) - (mask.cols : Int) / 2 - 1) = ext at hext hrows hcols
  have hfit : Fits ext mask := ⟨hmr, by omega, hmc, by omega⟩
  have hg : ¬((mask.rows : Int) > ext.rows ∨ (mask.cols : Int) > ext.cols) := by omega
  have e : erode image mask true =
      ⟨subMatrix (erodeLoops ext mask).result ((mask.rows : Int) / 2) ((mask.cols : Int) / 2)
        image.rows image.cols, (erodeLoops ext mask).ok, false⟩ := by
    unfold erode
    simp only [if_true]
    rw [hE, if_neg hg]
  obtain ⟨g1, _, _, gbin, gone⟩ := erodeLoops_spec ext mask hfit
  rw [e]
  refine ⟨g1, rfl, rfl, rfl, fun i j i0 i1 j0 j1 => ?_⟩
  have hone : (erodeLoops ext mask).result.cell (i + (mask.rows : Int) / 2)
      (j + (mask.cols : Int) / 2) = 1 ↔ CoversClamped image mask i j := by
    rw [gone]
    have hcov : Covered ext mask (i + (mask.rows : Int) / 2) (j + (mask.cols : Int) / 2) := by
      unfold Covered
      omega
    constructor
    · rintro ⟨_, hb⟩ mr mc m1 m2 m3 m4 hne
      have := ne_zero_of_bitsIn (hb mr mc m1 m2 m3 m4) hne
      rw [hext] at this
      exact cell_ne_congr this (by congr 1; omega) (by congr 1; omega)
    · intro hcl
      refine ⟨hcov, fun mr mc m1 m2 m3 m4 => ?_⟩
      rw [hext]
      have hb1 := clamp_bounds (i + (mask.rows : Int) / 2 + mr - (mask.rows : Int) / 2 -
        (mask.rows : Int) / 2) image.rows hr
      have hb2 := clamp_bounds (j + (mask.cols : Int) / 2 + mc - (mask.cols : Int) / 2 -
        (mask.cols : Int) / 2) image.cols hc
      refine (bitsIn_binary (hm mr mc m1 m2 m3 m4) (hi _ _ hb1.1 hb1.2 hb2.1 hb2.2)).mpr
        (fun hne => ?_)
      exact cell_ne_congr (hcl mr mc m1 m2 m3 m4 hne) (by congr 1; omega) (by congr 1; omega)
  refine ⟨hone, fun hn => ?_⟩
  rcases gbin (i + (mask.rows : Int) / 2) (j + (mask.cols : Int) / 2) with h0 | h1
  · exact h0
  · exact absurd (hone.mp h1) hn

theorem erode_with_borders_witness :
    (ones 2 2).Binary ∧ (ones 3 3).Binary ∧ 1 ≤ (ones 2 2).rows ∧ 1 ≤ (ones 2 2).cols ∧
      1 ≤ (ones 3 3).rows ∧ 1 ≤ (ones 3 3).cols ∧
      ((erode (ones 2 2) (ones 3 3) true).ok = true ∧
        (erode (ones 2 2) (ones 3 3) true).warned = false ∧
        (erode (ones 2 2) (ones 3 3) true).value.rows = (ones 2 2).rows ∧
        (erode (ones 2 2) (ones 3 3) true).value.cols = (ones 2 2).cols ∧
        ∀ i j : Int, 0 ≤ i → i < (ones 2 2).rows → 0 ≤ j → j < (ones 2 2).cols →
          (((erode (ones 2 2) (ones 3 3) true).value.cell i j = 1 ↔
              CoversClamped (ones 2 2) (ones 3 3) i j) ∧
            (¬CoversClamped (ones 2 2) (ones 3 3) i j →
              (erode (ones 2 2) (ones 3 3) true).value.cell i j = 0))) :=
  ⟨fun _ _ _ _ _ _ => Or.inr rfl, fun _ _ _ _ _ _ => Or.inr rfl, by decide, by decide,
    by decide, by decide,
    erode_with_borders (ones 2 2) (ones 3 3) (fun _ _ _ _ _ _ => Or.inr rfl)
      (fun _ _ _ _ _ _ => Or.inr rfl) (by decide) (by decide) (by decide) (by decide)⟩


/-! ## Opening and closing -/

theorem fits_of_extents {a b mask : Matrix} (h : Fits a mask) (hr : b.rows = a.rows)
    (hc : b.cols = a.cols) : Fits b mask := by
  unfold Fits at *
  rw [hr, hc]
  exact h

theorem covered_of_extents {a b mask : Matrix} (hr : b.rows = a.rows) (hc : b.cols = a.cols)
    (i j : Int) : Covered b mask i j ↔ Covered a mask i j := by
  unfold Covered
  rw [hr, hc]

/-- Dilation depends on the image only through its extents and its set of
nonzero pixels. -/
theorem dilate_congr {a b mask : Matrix} (hfit : Fits a mask) (hr : b.rows = a.rows)
    (hc : b.cols = a.cols)
    (h : ∀ i j : Int, 0 ≤ i → i < a.rows → 0 ≤ j → j < a.cols →
      (a.cell i j ≠ 0 ↔ b.cell i j ≠ 0)) (i j : Int) :
    (dilate a mask).value.cell i j = (dilate b mask).value.cell i j := by
  have ha := (dilate_bits a mask hfit).2.2.2.2
  have hb := (dilate_bits b mask (fits_of_extents hfit hr hc)).2.2.2.2
  apply int_eq_of_testBit
  intro k
  have e : ((dilate a mask).value.cell i j).testBit k = true ↔
      ((dilate b mask).value.cell i j).testBit k = true := by
    rw [ha, hb]
    constructor
    · rintro ⟨sr, sc, mr, mc, g1, g2, g3, g4, g5, g6, g7, g8, g9, g10, g11, g12, g13, g14,
        him, hbit⟩
      exact ⟨sr, sc, mr, mc, g1, by rw [hr]; exact g2, g3, by rw [hc]; exact g4, g5, g6, g7, g8,
        g9, g10, g11, by rw [hr]; exact g12, g13, by rw [hc]; exact g14,
        (h sr sc g1 g2 g3 g4).mp him, hbit⟩
    · rintro ⟨sr, sc, mr, mc, g1, g2, g3, g4, g5, g6, g7, g8, g9, g10, g11, g12, g13, g14,
        him, hbit⟩
      rw [hr] at g2 g12
      rw [hc] at g4 g14
      exact ⟨sr, sc, mr, mc, g1, g2, g3, g4, g5, g6, g7, g8, g9, g10, g11, g12, g13, g14,
        (h sr sc g1 g2 g3 g4).mpr him, hbit⟩
  cases h1 : ((dilate a mask).value.cell i j).testBit k
  · cases h2 : ((dilate b mask).value.cell i j).testBit k
    · rfl
    · rw [e.mpr h2] at h1
      exact Bool.noConfusion h1
  · exact (e.mp h1).symm

/-- Every bit of a cell of `dilate(erode(image, mask), mask)` is a bit of the
same cell of the image. -/
theorem open_bits_sub (image mask : Matrix) (hfit : Fits image mask) (i j : Int) (b : Nat)
    (h : ((dilate (erode image mask false).value mask).value.cell i j).testBit b = true) :
    (image.cell i j).testBit b = true := by
  obtain ⟨_, _, er, ec, _, eone⟩ := erode_false_spec image mask hfit
  have hfe : Fits (erode image mask false).value mask := fits_of_extents hfit er ec
  obtain ⟨sr, sc, mr, mc, g1, g2, g3, g4, g5, g6, g7, g8, g9, g10, g11, g12, g13, g14, him,
    hbit⟩ := ((dilate_bits _ mask hfe).2.2.2.2 i j b).mp h
  simp only at g9 g10
  have h1 : (erode image mask false).value.cell sr sc = 1 := by
    rcases (erode_false_spec image mask hfit).2.2.2.2.1 sr sc with h0 | h1
    · exact absurd h0 him
    · exact h1
  have hcov := ((eone sr sc).mp h1).2 mr mc g5 g6 g7 g8
  rw [bitsIn_iff] at hcov
  exact cell_bit_congr (hcov b hbit) (by omega) (by omega)

/-- Around a foreground pixel of the full-coverage region, every mask cell finds
its bits in the dilated image. -/
theorem dilate_covers (image mask : Matrix) (hfit : Fits image mask) (i j : Int)
    (hcov : Covered image mask i j) (him : image.cell i j ≠ 0) :
    BitCovers (dilate image mask).value mask i j := by
  obtain ⟨c1, c2, c3, c4⟩ := hcov
  obtain ⟨f1, f2, f3, f4⟩ := hfit
  intro mr mc m1 m2 m3 m4
  rw [bitsIn_iff]
  intro b hb
  exact ((dilate_bits image mask ⟨f1, f2, f3, f4⟩).2.2.2.2 _ _ b).mpr
    ⟨i, j, mr, mc, by omega, by omega, by omega, by omega, m1, m2, m3, m4, rfl, rfl,
      by simp only; omega, by simp only; omega, by simp only; omega, by simp only; omega,
      him, hb⟩

/-- Eroding the opening gives the erosion again: `erode(dilate(erode(y))) = erode(y)`. -/
theorem erode_dilate_erode (y mask : Matrix) (hfit : Fits y mask) (i j : Int) :
    (erode (dilate (erode y mask false).value mask).value mask false).value.cell i j =
      (erode y mask false).value.cell i j := by
  obtain ⟨_, _, er, ec, ebin, eone⟩ := erode_false_spec y mask hfit
  have hfe : Fits (erode y mask false).value mask := fits_of_extents hfit er ec
  obtain ⟨_, dr, dc, _, _⟩ := dilate_bits (erode y mask false).value mask hfe
  have hfd : Fits (dilate (erode y mask false).value mask).value mask :=
    fits_of_extents hfe dr dc
  obtain ⟨_, _, _, _, e2bin, e2one⟩ :=
    erode_false_spec (dilate (erode y mask false).value mask).value mask hfd
  have key : (erode (dilate (erode y mask false).value mask).value mask false).value.cell i j
      = 1 ↔ (erode y mask false).value.cell i j = 1 := by
    rw [e2one, eone]
    constructor
    · rintro ⟨hc, hb⟩
      have hcy : Covered y mask i j :=
        (covered_of_extents er ec i j).mp ((covered_of_extents dr dc i j).mp hc)
      refine ⟨hcy, fun mr mc m1 m2 m3 m4 => ?_⟩
      rw [bitsIn_iff]
      intro b hbit
      have h1 := hb mr mc m1 m2 m3 m4
      rw [bitsIn_iff] at h1
      exact open_bits_sub y mask hfit _ _ b (h1 b hbit)
    · rintro ⟨hc, hb⟩
      have h1 : (erode y mask false).value.cell i j = 1 := (eone i j).mpr ⟨hc, hb⟩
      have hce : Covered (erode y mask false).value mask i j :=
        (covered_of_extents er ec i j).mpr hc
      exact ⟨(covered_of_extents dr dc i j).mpr hce,
        dilate_covers _ mask hfe i j hce (by rw [h1]; decide)⟩
  rcases e2bin i j with h0 | h1
  · rcases ebin i j with g0 | g1
    · rw [h0, g0]
    · rw [key.mpr g1] at h0
      exact absurd h0 (by decide)
  · rw [h1, key.mp h1]

theorem openOp_value (image mask : Matrix) :
    (openOp image mask).value = (dilate (erode image mask false).value mask).value := rfl

theorem close_value (image mask : Matrix) :
    (close image mask).value = (erode (dilate image mask).value mask false).value := rfl

theorem openOp_fits (image mask : Matrix) (hfit : Fits image mask) :
    (openOp image mask).ok = true ∧ (openOp image mask).warned = false ∧
      (openOp image mask).value.rows = image.rows ∧
      (openOp image mask).value.cols = image.cols := by
  obtain ⟨e1, e2, er, ec, _, _⟩ := erode_false_spec image mask hfit
  have hfe : Fits (erode image mask false).value mask := fits_of_extents hfit er ec
  obtain ⟨d1, dr, dc, d2, _⟩ := dilate_bits (erode image mask false).value mask hfe
  refine ⟨?_, ?_, by rw [openOp_value, dr, er], by rw [openOp_value, dc, ec]⟩
  · simp [openOp, Outcome.andThen, e1, d1]
  · simp [openOp, Outcome.andThen, e2, d2]

theorem close_fits (image mask : Matrix) (hfit : Fits image mask) :
    (close image mask).ok = true ∧ (close image mask).warned = false ∧
      (close image mask).value.rows = image.rows ∧
      (close image mask).value.cols = image.cols := by
  obtain ⟨d1, dr, dc, d2, _⟩ := dilate_bits image mask hfit
  have hfd : Fits (dilate image mask).value mask := fits_of_extents hfit dr dc
  obtain ⟨e1, e2, er, ec, _, _⟩ := erode_false_spec (dilate image mask).value mask hfd
  refine ⟨?_, ?_, by rw [close_value, er, dr], by rw [close_value, ec, dc]⟩
  · simp [close, Outcome.andThen, e1, d1]
  · simp [close, Outcome.andThen, e2, d2]

theorem open_sub_image (image mask : Matrix) (hfit : Fits image mask) (i j : Int)
    (h : (openOp image mask).value.cell i j ≠ 0) : image.cell i j ≠ 0 := by
  rw [openOp_value] at h
  obtain ⟨b, hb⟩ := (int_ne_zero_iff _).mp h
  exact (int_ne_zero_iff _).mpr ⟨b, open_bits_sub image mask hfit i j b hb⟩

/-- Inside the full-coverage region the closing is 1 on every foreground pixel
of the image. -/
theorem close_covers (image mask : Matrix) (hfit : Fits image mask) (i j : Int)
    (hcov : Covered image mask i j) (him : image.cell i j ≠ 0) :
    (close image mask).value.cell i j = 1 := by
  obtain ⟨_, dr, dc, _, _⟩ := dilate_bits image mask hfit
  have hfd : Fits (dilate image mask).value mask := fits_of_extents hfit dr dc
  rw [close_value]
  exact ((erode_false_spec _ mask hfd).2.2.2.2.2 i j).mpr
    ⟨(covered_of_extents dr dc i j).mpr hcov, dilate_covers image mask hfit i j hcov him⟩

/-- The closing is 0 or 1 everywhere and 0 outside the full-coverage region. -/
theorem close_cases (image mask : Matrix) (hfit : Fits image mask) (i j : Int) :
    ((close image mask).value.cell i j = 0 ∨ (close image mask).value.cell i j = 1) ∧
      (¬Covered image mask i j → (close image mask).value.cell i j = 0) := by
  obtain ⟨_, dr, dc, _, _⟩ := dilate_bits image mask hfit
  have hfd : Fits (dilate image mask).value mask := fits_of_extents hfit dr dc
  obtain ⟨_, _, _, _, ebin, eone⟩ := erode_false_spec (dilate image mask).value mask hfd
  rw [close_value]
  refine ⟨ebin i j, fun hn => ?_⟩
  rcases ebin i j with h0 | h1
  · exact h0
  · exact absurd ((covered_of_extents dr dc i j).mp ((eone i j).mp h1).1) hn


/-- C4, as stated, fails: for the 2x1 image `[[1],[0]]` and the 3x1 mask of ones
(larger than the image) `erode` returns the image itself and `dilate` then
smears its pixel over the column, all in bounds; pixel `(1, 0)` of the opening
is nonzero although the image is zero there. -/
theorem open_antiextensive_counterexample :
    1 ≤ (ones 3 1).rows ∧ 1 ≤ (ones 3 1).cols ∧
      (openOp (Matrix.ofRows 2 1 [[1], [0]]) (ones 3 1)).ok = true ∧
      (openOp (Matrix.ofRows 2 1 [[1], [0]]) (ones 3 1)).value.cell 1 0 ≠ 0 ∧
      (Matrix.ofRows 2 1 [[1], [0]]).cell 1 0 = 0 := by
  refine ⟨by decide, by decide, by decide, by decide, by decide⟩

/-- C4, amended: for every image and every mask with `1 <= maskRows <= rows` and
`1 <= maskCols <= cols`, `open(image, mask) = dilate(erode(image, mask, false),
mask)` stays in bounds, keeps the extents, and every pixel that is nonzero in
it is nonzero in the image. -/
theorem open_antiextensive (image mask : Matrix) (hfit : Fits image mask) :
    (openOp image mask).ok = true ∧ (openOp image mask).value.rows = image.rows ∧
      (openOp image mask).value.cols = image.cols ∧
      ∀ i j : Int, 0 ≤ i → i < image.rows → 0 ≤ j → j < image.cols →
        (openOp image mask).value.cell i j ≠ 0 → image.cell i j ≠ 0 :=
  ⟨(openOp_fits image mask hfit).1, (openOp_fits image mask hfit).2.2.1,
    (openOp_fits image mask hfit).2.2.2,
    fun i j _ _ _ _ h => open_sub_image image mask hfit i j h⟩

theorem open_antiextensive_witness :
    Fits (Matrix.ofRows 3 3 [[1, 1, 0], [1, 1, 0], [0, 0, 1]]) (ones 2 2) ∧
      ((openOp (Matrix.ofRows 3 3 [[1, 1, 0], [1, 1, 0], [0, 0, 1]]) (ones 2 2)).ok = true ∧
        (openOp (Matrix.ofRows 3 3 [[1, 1, 0], [1, 1, 0], [0, 0, 1]]) (ones 2 2)).value.rows
          = 3 ∧
        (openOp (Matrix.ofRows 3 3 [[1, 1, 0], [1, 1, 0], [0, 0, 1]]) (ones 2 2)).value.cols
          = 3 ∧
        ∀ i j : Int, 0 ≤ i → i < (3 : Nat) → 0 ≤ j → j < (3 : Nat) →
          (openOp (Matrix.ofRows 3 3 [[1, 1, 0], [1, 1, 0], [0, 0, 1]])
            (ones 2 2)).value.cell i j ≠ 0 →
          (Matrix.ofRows 3 3 [[1, 1, 0], [1, 1, 0], [0, 0, 1]]).cell i j ≠ 0) :=
  ⟨⟨by decide, by decide, by decide, by decide⟩,
    open_antiextensive _ _ ⟨by decide, by decide, by decide, by decide⟩⟩

/-- C5, as stated, fails: the all-foreground 3x3 image closed with the
all-foreground 3x3 mask is background at the border pixel `(0, 0)`, where the
image is foreground: `erode` without border handling leaves the border strip
at 0. -/
theorem close_extensive_counterexample :
    1 ≤ (ones 3 3).rows ∧ 1 ≤ (ones 3 3).cols ∧ (close (ones 3 3) (ones 3 3)).ok = true ∧
      (ones 3 3).cell 0 0 ≠ 0 ∧ (close (ones 3 3) (ones 3 3)).value.cell 0 0 = 0 := by
  have hfit : Fits (ones 3 3) (ones 3 3) := ⟨by decide, by decide, by decide, by decide⟩
  refine ⟨by decide, by decide, (close_fits _ _ hfit).1, by decide, ?_⟩
  refine (close_cases _ _ hfit 0 0).2 (fun h => ?_)
  have h1 := h.1
  simp only [ones] at h1
  omega

/-- C5, amended: for every image and every mask with positive extents, every
pixel of the full-coverage region `rOrig <= i <= rows-maskRows+rOrig`,
`cOrig <= j <= cols-maskCols+cOrig` (empty unless the mask fits the image) that
is nonzero in the image is nonzero (it is 1) in
`close(image, mask) = erode(dilate(image, mask), mask, false)`, computed in
bounds. -/
theorem close_extensive_covered (image mask : Matrix) (hmr : 1 ≤ mask.rows)
    (hmc : 1 ≤ mask.cols) (i j : Int) (hcov : Covered image mask i j)
    (him : image.cell i j ≠ 0) :
    (close image mask).ok = true ∧ (close image mask).value.cell i j = 1 ∧
      (close image mask).value.cell i j ≠ 0 := by
  have hfit : Fits image mask := by
    obtain ⟨c1, c2, c3, c4⟩ := hcov
    exact ⟨hmr, by omega, hmc, by omega⟩
  have h := close_covers image mask hfit i j hcov him
  exact ⟨(close_fits image mask hfit).1, h, by rw [h]; decide⟩

theorem close_extensive_covered_witness :
    1 ≤ (ones 3 3).rows ∧ 1 ≤ (ones 3 3).cols ∧ Covered (ones 4 4) (ones 3 3) 1 2 ∧
      (ones 4 4).cell 1 2 ≠ 0 ∧
      ((close (ones 4 4) (ones 3 3)).ok = true ∧
        (close (ones 4 4) (ones 3 3)).value.cell 1 2 = 1 ∧
        (close (ones 4 4) (ones 3 3)).value.cell 1 2 ≠ 0) :=
  ⟨by decide, by decide, by simp only [Covered, ones]; omega, by decide,
    close_extensive_covered (ones 4 4) (ones 3 3) (by decide) (by decide) 1 2
      (by simp only [Covered, ones]; omega) (by decide)⟩

/-- C6: for every image and every mask with `1 <= maskRows <= rows` and
`1 <= maskCols <= cols`, opening twice equals opening once, cell for cell, with
`open(image, mask) = dilate(erode(image, mask, false), mask)`; both runs stay in
bounds. -/
theorem open_idempotent (image mask : Matrix) (hfit : Fits image mask) :
    (openOp image mask).ok = true ∧ (openOp (openOp image mask).value mask).ok = true ∧
      Matrix.Same (openOp (openOp image mask).value mask).value (openOp image mask).value := by
  obtain ⟨o1, _, orr, oc⟩ := openOp_fits image mask hfit
  have hfo : Fits (openOp image mask).value mask := fits_of_extents hfit orr oc
  obtain ⟨p1, _, pr, pc⟩ := openOp_fits (openOp image mask).value mask hfo
  obtain ⟨_, _, er, ec, _, _⟩ := erode_false_spec image mask hfit
  obtain ⟨_, _, er2, ec2, _, _⟩ := erode_false_spec (openOp image mask).value mask hfo
  refine ⟨o1, p1, pr, pc, fun i j _ _ _ _ => ?_⟩
  rw [openOp_value (openOp image mask).value mask, openOp_value image mask]
  refine dilate_congr (fits_of_extents hfo er2 ec2) ?_ ?_ (fun r c _ _ _ _ => ?_) i j
  · rw [er, er2, orr]
  · rw [ec, ec2, oc]
  · rw [openOp_value image mask, erode_dilate_erode image mask hfit r c]

theorem open_idempotent_witness :
    Fits (Matrix.ofRows 3 3 [[1, 1, 0], [1, 1, 0], [0, 0, 1]]) (ones 2 2) ∧
      ((openOp (Matrix.ofRows 3 3 [[1, 1, 0], [1, 1, 0], [0, 0, 1]]) (ones 2 2)).ok = true ∧
        (openOp (openOp (Matrix.ofRows 3 3 [[1, 1, 0], [1, 1, 0], [0, 0, 1]])
          (ones 2 2)).value (ones 2 2)).ok = true ∧
        Matrix.Same
          (openOp (openOp (Matrix.ofRows 3 3 [[1, 1, 0], [1, 1, 0], [0, 0, 1]])
            (ones 2 2)).value (ones 2 2)).value
          (openOp (Matrix.ofRows 3 3 [[1, 1, 0], [1, 1, 0], [0, 0, 1]]) (ones 2 2)).value) :=
  ⟨⟨by decide, by decide, by decide, by decide⟩,
    open_idempotent _ _ ⟨by decide, by decide, by decide, by decide⟩⟩

/-- C7: for every image and every mask with `1 <= maskRows <= rows` and
`1 <= maskCols <= cols`, closing twice equals closing once, cell for cell, with
`close(image, mask) = erode(dilate(image, mask), mask, false)`; both runs stay
in bounds. -/
theorem close_idempotent (image mask : Matrix) (hfit : Fits image mask) :
    (close image mask).ok = true ∧ (close (close image mask).value mask).ok = true ∧
      Matrix.Same (close (close image mask).value mask).value (close image mask).value := by
  obtain ⟨c1, _, cr, cc⟩ := close_fits image mask hfit
  have hfc : Fits (close image mask).value mask := fits_of_extents hfit cr cc
  obtain ⟨p1, _, pr, pc⟩ := close_fits (close image mask).value mask hfc
  obtain ⟨_, dr, dc, _, _⟩ := dilate_bits image mask hfit
  refine ⟨c1, p1, pr, pc, fun i j _ _ _ _ => ?_⟩
  rw [close_value (close image mask).value mask, close_value image mask]
  exact erode_dilate_erode (dilate image mask).value mask (fits_of_extents hfit dr dc) i j

theorem close_idempotent_witness :
    Fits (Matrix.ofRows 3 3 [[1, 0, 0], [0, 0, 0], [0, 0, 1]]) (ones 2 2) ∧
      ((close (Matrix.ofRows 3 3 [[1, 0, 0], [0, 0, 0], [0, 0, 1]]) (ones 2 2)).ok = true ∧
        (close (close (Matrix.ofRows 3 3 [[1, 0, 0], [0, 0, 0], [0, 0, 1]])
          (ones 2 2)).value (ones 2 2)).ok = true ∧
        Matrix.Same
          (close (close (Matrix.ofRows 3 3 [[1, 0, 0], [0, 0, 0], [0, 0, 1]])
            (ones 2 2)).value (ones 2 2)).value
          (close (Matrix.ofRows 3 3 [[1, 0, 0], [0, 0, 0], [0, 0, 1]]) (ones 2 2)).value) :=
  ⟨⟨by decide, by decide, by decide, by decide⟩,
    close_idempotent _ _ ⟨by decide, by decide, by decide, by decide⟩⟩


/-! ## Duality -/

theorem complement_binary (image : Matrix) : (complement image).Binary := by
  intro i j _ _ _ _
  simp only [complement]
  split
  · exact Or.inr rfl
  · exact Or.inl rfl

theorem complement_ne_zero (image : Matrix) (i j : Int) :
    (complement image).cell i j ≠ 0 ↔ image.cell i j = 0 := by
  simp only [complement]
  split <;> simp_all

/-- C8, as stated, fails for a mask of even width: the 1x2 mask of ones is
symmetric and fits the 1x3 image `[[1, 0, 0]]`, pixel `(0, 1)` lies in the
full-coverage region, and there both `erode(complement(image), mask, false)` and
`dilate(image, mask)` are background. -/
theorem duality_counterexample :
    (Matrix.ofRows 1 3 [[1, 0, 0]]).Binary ∧ (ones 1 2).Binary ∧ Symmetric (ones 1 2) ∧
      Fits (Matrix.ofRows 1 3 [[1, 0, 0]]) (ones 1 2) ∧
      Covered (Matrix.ofRows 1 3 [[1, 0, 0]]) (ones 1 2) 0 1 ∧
      (erode (complement (Matrix.ofRows 1 3 [[1, 0, 0]])) (ones 1 2) false).ok = true ∧
      (erode (complement (Matrix.ofRows 1 3 [[1, 0, 0]])) (ones 1 2) false).value.cell 0 1 = 0 ∧
      (dilate (Matrix.ofRows 1 3 [[1, 0, 0]]) (ones 1 2)).ok = true ∧
      (dilate (Matrix.ofRows 1 3 [[1, 0, 0]]) (ones 1 2)).value.cell 0 1 = 0 := by
  have hfit : Fits (complement (Matrix.ofRows 1 3 [[1, 0, 0]])) (ones 1 2) :=
    ⟨by decide, by decide, by decide, by decide⟩
  obtain ⟨e1, _, _, _, ebin, eone⟩ := erode_false_spec _ _ hfit
  refine ⟨?_, fun _ _ _ _ _ _ => Or.inr rfl, fun _ _ _ _ _ _ => rfl,
    ⟨by decide, by decide, by decide, by decide⟩, ?_, e1, ?_, by decide, by decide⟩
  · intro i j h1 h2 h3 h4
    have hi : i = 0 := by
      simp only [Matrix.ofRows] at h2
      omega
    have hj : j = 0 ∨ j = 1 ∨ j = 2 := by
      simp only [Matrix.ofRows] at h4
      omega
    subst hi
    rcases hj with rfl | rfl | rfl <;> decide
  · simp only [Covered, ones, Matrix.ofRows]
    omega
  · rcases ebin 0 1 with h0 | h1
    · exact h0
    · have hb := ((eone 0 1).mp h1).2 0 0 (by decide) (by decide) (by decide) (by decide)
      exact absurd (ne_zero_of_bitsIn hb (by decide)) (by decide)

/-- C8, amended: for every 0/1 image and every 0/1 symmetric mask with odd
`maskRows` and odd `maskCols`, `1 <= maskRows <= rows` and
`1 <= maskCols <= cols`, at every pixel `(i, j)` of the full-coverage region
`erode(complement(image), mask, false)(i, j)` is foreground exactly when
`dilate(image, mask)(i, j)` is background; both run in bounds. -/
theorem erode_dilate_duality (image mask : Matrix) (_hi : image.Binary) (hm : mask.Binary)
    (hs : Symmetric mask) (hfit : Fits image mask) (hor : mask.rows % 2 = 1)
    (hoc : mask.cols % 2 = 1) (i j : Int) (hcov : Covered image mask i j) :
    (erode (complement image) mask false).ok = true ∧ (dilate image mask).ok = true ∧
      ((erode (complement image) mask false).value.cell i j ≠ 0 ↔
        (dilate image mask).value.cell i j = 0) := by
  have hfc : Fits (complement image) mask := hfit
  obtain ⟨e1, _, _, _, ebin, eone⟩ := erode_false_spec _ _ hfc
  obtain ⟨d1, _, _, _, _⟩ := dilate_bits image mask hfit
  have hcc : Covered (complement image) mask i j := hcov
  obtain ⟨c1, c2, c3, c4⟩ := hcov
  obtain ⟨f1, f2, f3, f4⟩ := hfit
  have hd := dilate_ne_zero_iff image mask ⟨f1, f2, f3, f4⟩ i j (by omega) (by omega)
    (by omega) (by omega)
  refine ⟨e1, d1, ?_⟩
  have h1 : (erode (complement image) mask false).value.cell i j ≠ 0 ↔
      Covers (complement image) mask i j := by
    constructor
    · intro h
      rcases ebin i j with h0 | h1
      · exact absurd h0 h
      · exact (binary_bitCovers_iff (complement_binary image) hm hcc).mp ((eone i j).mp h1).2
    · intro h
      rw [(eone i j).mpr ⟨hcc, (binary_bitCovers_iff (complement_binary image) hm hcc).mpr h⟩]
      decide
  rw [h1]
  constructor
  · intro hall
    by_contra hne
    obtain ⟨mr, mc, m1, m2, m3, m4, hmask, s1, s2, s3, s4, him⟩ := hd.mp hne
    have hsym := hs mr mc m1 m2 m3 m4
    have := hall ((mask.rows : Int) - 1 - mr) ((mask.cols : Int) - 1 - mc) (by omega) (by omega)
      (by omega) (by omega) (by rw [← hsym]; exact hmask)
    rw [complement_ne_zero] at this
    exact him (by
      rw [← this]
      congr 1 <;> omega)
  · intro hz mr mc m1 m2 m3 m4 hmask
    rw [complement_ne_zero]
    by_contra hne
    apply hd.mpr _ hz
    have hsym := hs ((mask.rows : Int) - 1 - mr) ((mask.cols : Int) - 1 - mc) (by omega)
      (by omega) (by omega) (by omega)
    rw [show (mask.rows : Int) - 1 - ((mask.rows : Int) - 1 - mr) = mr by omega,
      show (mask.cols : Int) - 1 - ((mask.cols : Int) - 1 - mc) = mc by omega] at hsym
    exact ⟨(mask.rows : Int) - 1 - mr, (mask.cols : Int) - 1 - mc, by omega, by omega, by omega,
      by omega, by rw [hsym]; exact hmask, by omega, by omega, by omega, by omega,
      cell_ne_congr hne (by omega) (by omega)⟩

theorem erode_dilate_duality_witness :
    (ones 4 4).Binary ∧ (ones 3 3).Binary ∧ Symmetric (ones 3 3) ∧ Fits (ones 4 4) (ones 3 3) ∧
      (ones 3 3).rows % 2 = 1 ∧ (ones 3 3).cols % 2 = 1 ∧ Covered (ones 4 4) (ones 3 3) 1 2 ∧
      ((erode (complement (ones 4 4)) (ones 3 3) false).ok = true ∧
        (dilate (ones 4 4) (ones 3 3)).ok = true ∧
        ((erode (complement (ones 4 4)) (ones 3 3) false).value.cell 1 2 ≠ 0 ↔
          (dilate (ones 4 4) (ones 3 3)).value.cell 1 2 = 0)) :=
  ⟨fun _ _ _ _ _ _ => Or.inr rfl, fun _ _ _ _ _ _ => Or.inr rfl, fun _ _ _ _ _ _ => rfl,
    ⟨by decide, by decide, by decide, by decide⟩, by decide, by decide,
    by simp only [Covered, ones]; omega,
    erode_dilate_duality (ones 4 4) (ones 3 3) (fun _ _ _ _ _ _ => Or.inr rfl)
      (fun _ _ _ _ _ _ => Or.inr rfl) (fun _ _ _ _ _ _ => rfl)
      ⟨by decide, by decide, by decide, by decide⟩ (by decide) (by decide) 1 2
      (by simp only [Covered, ones]; omega)⟩


/-! ## Top-hat and bottom-hat -/

theorem toBool_of_ne {x : Int} (h : x ≠ 0) : toBool x = 1 := by
  simp [toBool, h]

theorem toBool_zero : toBool 0 = 0 := rfl

/-- C9: for every image and every mask with `1 <= maskRows <= rows` and
`1 <= maskCols <= cols`, `topHat` stays in bounds, keeps the extents, and every
cell of `topHat(image, mask)` is 1 where the image is nonzero and
`open(image, mask)` is zero, and 0 everywhere else; it is never -1, and its
foreground is a subset of the image's foreground. -/
theorem topHat_set_difference (image mask : Matrix) (hfit : Fits image mask) :
    (topHat image mask).ok = true ∧ (topHat image mask).value.rows = image.rows ∧
      (topHat image mask).value.cols = image.cols ∧
      ∀ i j : Int, 0 ≤ i → i < image.rows → 0 ≤ j → j < image.cols →
        ((topHat image mask).value.cell i j =
            (if image.cell i j ≠ 0 ∧ (openOp image mask).value.cell i j = 0 then 1 else 0) ∧
          (topHat image mask).value.cell i j ≠ -1 ∧
          ((topHat image mask).value.cell i j ≠ 0 → image.cell i j ≠ 0)) := by
  obtain ⟨o1, _, orr, oc⟩ := openOp_fits image mask hfit
  have hcell : ∀ i j : Int, (topHat image mask).value.cell i j =
      (if image.cell i j ≠ 0 ∧ (openOp image mask).value.cell i j = 0 then 1 else 0) := by
    intro i j
    show TophatFunction ((openOp image mask).value.cell i j) (image.cell i j) = _
    unfold TophatFunction
    by_cases ho : (openOp image mask).value.cell i j = 0
    · by_cases hi : image.cell i j = 0
      · rw [ho, hi, toBool_zero, if_neg (fun h => h.1 rfl)]
        rfl
      · rw [ho, toBool_zero, toBool_of_ne hi, if_pos ⟨hi, rfl⟩]
        rfl
    · have hi := open_sub_image image mask hfit i j ho
      rw [toBool_of_ne ho, toBool_of_ne hi, if_neg (fun h => ho h.2)]
      rfl
  refine ⟨?_, orr, oc, fun i j _ _ _ _ => ⟨hcell i j, ?_, ?_⟩⟩
  · simp [topHat, o1, orr, oc]
  · rw [hcell]
    split <;> decide
  · rw [hcell]
    intro h
    by_contra hz
    exact h (if_neg (fun hh => hh.1 hz))

theorem topHat_set_difference_witness :
    Fits (Matrix.ofRows 3 3 [[1, 1, 0], [1, 1, 0], [0, 0, 1]]) (ones 2 2) ∧
      ((topHat (Matrix.ofRows 3 3 [[1, 1, 0], [1, 1, 0], [0, 0, 1]]) (ones 2 2)).ok = true ∧
        (topHat (Matrix.ofRows 3 3 [[1, 1, 0], [1, 1, 0], [0, 0, 1]]) (ones 2 2)).value.rows
          = 3 ∧
        (topHat (Matrix.ofRows 3 3 [[1, 1, 0], [1, 1, 0], [0, 0, 1]]) (ones 2 2)).value.cols
          = 3 ∧
        ∀ i j : Int, 0 ≤ i → i < (3 : Nat) → 0 ≤ j → j < (3 : Nat) →
          ((topHat (Matrix.ofRows 3 3 [[1, 1, 0], [1, 1, 0], [0, 0, 1]])
              (ones 2 2)).value.cell i j =
              (if (Matrix.ofRows 3 3 [[1, 1, 0], [1, 1, 0], [0, 0, 1]]).cell i j ≠ 0 ∧
                  (openOp (Matrix.ofRows 3 3 [[1, 1, 0], [1, 1, 0], [0, 0, 1]])
                    (ones 2 2)).value.cell i j = 0 then 1 else 0) ∧
            (topHat (Matrix.ofRows 3 3 [[1, 1, 0], [1, 1, 0], [0, 0, 1]])
              (ones 2 2)).value.cell i j ≠ -1 ∧
            ((topHat (Matrix.ofRows 3 3 [[1, 1, 0], [1, 1, 0], [0, 0, 1]])
              (ones 2 2)).value.cell i j ≠ 0 →
              (Matrix.ofRows 3 3 [[1, 1, 0], [1, 1, 0], [0, 0, 1]]).cell i j ≠ 0))) :=
  ⟨⟨by decide, by decide, by decide, by decide⟩,
    topHat_set_difference _ _ ⟨by decide, by decide, by decide, by decide⟩⟩

/-- C10: for every image and every mask with `1 <= maskRows <= rows` and
`1 <= maskCols <= cols`, with `closed = erode(dilate(image, mask), mask, false)`:
`bottomHat` stays in bounds and keeps the extents; at every pixel of the central
sub-region `[rOrig, rows-(maskRows-rOrig)) x [cOrig, cols-(maskCols-cOrig))` the
result is 1 where `closed` is nonzero and the image is zero and 0 otherwise,
never -1, so it is not foreground where the image is; at every pixel outside the
sub-region the result is the cell of `closed`. -/
theorem bottomHat_central (image mask : Matrix) (hfit : Fits image mask) :
    (bottomHat image mask).ok = true ∧ (bottomHat image mask).value.rows = image.rows ∧
      (bottomHat image mask).value.cols = image.cols ∧
      ∀ i j : Int, 0 ≤ i → i < image.rows → 0 ≤ j → j < image.cols →
        ((Central image mask i j →
            ((bottomHat image mask).value.cell i j =
                (if (close image mask).value.cell i j ≠ 0 ∧ image.cell i j = 0 then 1 else 0) ∧
              (bottomHat image mask).value.cell i j ≠ -1 ∧
              ¬((bottomHat image mask).value.cell i j ≠ 0 ∧ image.cell i j ≠ 0))) ∧
          (¬Central image mask i j →
            (bottomHat image mask).value.cell i j = (close image mask).value.cell i j)) := by
  obtain ⟨c1, _, cr, cc⟩ := close_fits image mask hfit
  have hf := hfit
  obtain ⟨f1, f2, f3, f4⟩ := hf
  have hre : viewEnd (image.rows : Int) ((mask.rows : Int) / 2)
      (-((mask.rows : Int) - (mask.rows : Int) / 2)) =
      (image.rows : Int) - ((mask.rows : Int) - (mask.rows : Int) / 2) := by
    unfold viewEnd
    rw [if_pos (by omega)]
    omega
  have hce : viewEnd (image.cols : Int) ((mask.cols : Int) / 2)
      (-((mask.cols : Int) - (mask.cols : Int) / 2)) =
      (image.cols : Int) - ((mask.cols : Int) - (mask.cols : Int) / 2) := by
    unfold viewEnd
    rw [if_pos (by omega)]
    omega
  have hin : ∀ i j : Int, Central image mask i j → (bottomHat image mask).value.cell i j =
      BottomhatFunction ((close image mask).value.cell i j) (image.cell i j) := by
    intro i j h
    simp only [bottomHat, Matrix.mapView, cr, cc, hre, hce]
    exact if_pos h
  have hout : ∀ i j : Int, ¬Central image mask i j → (bottomHat image mask).value.cell i j =
      (close image mask).value.cell i j := by
    intro i j h
    simp only [bottomHat, Matrix.mapView, cr, cc, hre, hce]
    exact if_neg h
  refine ⟨?_, cr, cc, fun i j _ _ _ _ => ⟨fun hcen => ?_, fun hcen => ?_⟩⟩
  · simp only [bottomHat, Matrix.viewOk, cr, cc, hre, hce, c1, Bool.true_and,
      Bool.and_eq_true, decide_eq_true_eq]
    omega
  · have hcov : Covered image mask i j := by
      obtain ⟨h1, h2, h3, h4⟩ := hcen
      exact ⟨h1, by omega, h3, by omega⟩
    have hval : (bottomHat image mask).value.cell i j =
        (if (close image mask).value.cell i j ≠ 0 ∧ image.cell i j = 0 then 1 else 0) := by
      rw [hin i j hcen]
      unfold BottomhatFunction
      by_cases hi : image.cell i j = 0
      · by_cases hc : (close image mask).value.cell i j = 0
        · rw [hi, hc, toBool_zero, if_neg (fun h => h.1 rfl)]
          rfl
        · rw [hi, toBool_zero, toBool_of_ne hc, if_pos ⟨hc, rfl⟩]
          rfl
      · have hc := close_covers image mask hfit i j hcov hi
        rw [hc, toBool_of_ne hi, if_neg (fun h => hi h.2)]
        rfl
    refine ⟨hval, ?_, ?_⟩
    · rw [hval]
      split <;> decide
    · rintro ⟨h1, h2⟩
      rw [hval, if_neg (fun h => h2 h.2)] at h1
      exact h1 rfl
  · exact hout i j hcen

theorem bottomHat_central_witness :
    Fits (Matrix.ofRows 4 4 [[1, 0, 1, 0], [0, 0, 0, 0], [1, 0, 1, 0], [0, 0, 0, 0]])
        (ones 3 3) ∧
      ((bottomHat (Matrix.ofRows 4 4 [[1, 0, 1, 0], [0, 0, 0, 0], [1, 0, 1, 0], [0, 0, 0, 0]])
          (ones 3 3)).ok = true ∧
        (bottomHat (Matrix.ofRows 4 4 [[1, 0, 1, 0], [0, 0, 0, 0], [1, 0, 1, 0], [0, 0, 0, 0]])
          (ones 3 3)).value.rows = 4 ∧
        (bottomHat (Matrix.ofRows 4 4 [[1, 0, 1, 0], [0, 0, 0, 0], [1, 0, 1, 0], [0, 0, 0, 0]])
          (ones 3 3)).value.cols = 4 ∧
        ∀ i j : Int, 0 ≤ i → i < (4 : Nat) → 0 ≤ j → j < (4 : Nat) →
          ((Central (Matrix.ofRows 4 4 [[1, 0, 1, 0], [0, 0, 0, 0], [1, 0, 1, 0], [0, 0, 0, 0]])
              (ones 3 3) i j →
              ((bottomHat
                  (Matrix.ofRows 4 4 [[1, 0, 1, 0], [0, 0, 0, 0], [1, 0, 1, 0], [0, 0, 0, 0]])
                  (ones 3 3)).value.cell i j =
                  (if (close
                      (Matrix.ofRows 4 4
                        [[1, 0, 1, 0], [0, 0, 0, 0], [1, 0, 1, 0], [0, 0, 0, 0]])
                      (ones 3 3)).value.cell i j ≠ 0 ∧
                    (Matrix.ofRows 4 4
                      [[1, 0, 1, 0], [0, 0, 0, 0], [1, 0, 1, 0], [0, 0, 0, 0]]).cell i j = 0
                    then 1 else 0) ∧
                (bottomHat
                  (Matrix.ofRows 4 4 [[1, 0, 1, 0], [0, 0, 0, 0], [1, 0, 1, 0], [0, 0, 0, 0]])
                  (ones 3 3)).value.cell i j ≠ -1 ∧
                ¬((bottomHat
                  (Matrix.ofRows 4 4 [[1, 0, 1, 0], [0, 0, 0, 0], [1, 0, 1, 0], [0, 0, 0, 0]])
                  (ones 3 3)).value.cell i j ≠ 0 ∧
                  (Matrix.ofRows 4 4
                    [[1, 0, 1, 0], [0, 0, 0, 0], [1, 0, 1, 0], [0, 0, 0, 0]]).cell i j ≠ 0))) ∧
            (¬Central (Matrix.ofRows 4 4 [[1, 0, 1, 0], [0, 0, 0, 0], [1, 0, 1, 0], [0, 0, 0, 0]])
              (ones 3 3) i j →
              (bottomHat
                (Matrix.ofRows 4 4 [[1, 0, 1, 0], [0, 0, 0, 0], [1, 0, 1, 0], [0, 0, 0, 0]])
                (ones 3 3)).value.cell i j =
                (close
                  (Matrix.ofRows 4 4 [[1, 0, 1, 0], [0, 0, 0, 0], [1, 0, 1, 0], [0, 0, 0, 0]])
                  (ones 3 3)).value.cell i j))) :=
  ⟨⟨by decide, by decide, by decide, by decide⟩,
    bottomHat_central _ _ ⟨by decide, by decide, by decide, by decide⟩⟩


/-! ## Hit-and-miss -/

theorem hitAndMissTest_step (image mask significance : Matrix) (r c mr mc : Int)
    (h1 : 0 ≤ mr) (h2 : mr < mask.rows) (h3 : 0 ≤ mc) (h4 : mc < mask.cols)
    (hs1 : mr < significance.rows) (hs2 : mc < significance.cols)
    (h5 : 0 ≤ r + mr) (h6 : r + mr < image.rows) (h7 : 0 ≤ c + mc) (h8 : c + mc < image.cols) :
    Accum SGood SOut (hitAndMissTest image mask significance r c mr mc)
      (fun _ => ¬Int.land (significance.cell mr mc)
        (Int.xor (mask.cell mr mc) (image.cell (r + mr) (c + mc))) = 0) := by
  intro s hs
  have e1 : mask.inb mr mc = true := (inb_iff _ _ _).mpr ⟨h1, h2, h3, h4⟩
  have e2 : image.inb (r + mr) (c + mc) = true := (inb_iff _ _ _).mpr ⟨h5, h6, h7, h8⟩
  have e3 : significance.inb mr mc = true := (inb_iff _ _ _).mpr ⟨h1, hs1, h3, hs2⟩
  unfold hitAndMissTest
  by_cases ho : s.out = true
  · rw [if_pos ho]
    exact ⟨hs, fun _ => by simp [SOut, ho]⟩
  · rw [if_neg ho]
    refine ⟨?_, fun _ => ?_⟩
    · have : s.ok = true := hs
      simp [SGood, this, e1, e2, e3]
    · simp only [SOut, decide_eq_true_eq]
      constructor
      · exact fun h => Or.inr h
      · rintro (h | h)
        · exact absurd h ho
        · exact h

theorem hitAndMissScan_spec (image mask significance : Matrix) (r c : Int)
    (hsr : mask.rows ≤ significance.rows) (hsc : mask.cols ≤ significance.cols)
    (h1 : 0 ≤ r) (h2 : r + mask.rows ≤ image.rows) (h3 : 0 ≤ c)
    (h4 : c + mask.cols ≤ image.cols) :
    (hitAndMissScan image mask significance r c).ok = true ∧
      ((hitAndMissScan image mask significance r c).out = true ↔
        ¬∀ mr mc : Int, 0 ≤ mr → mr < mask.rows → 0 ≤ mc → mc < mask.cols →
          Int.land (significance.cell mr mc)
            (Int.xor (mask.cell mr mc) (image.cell (r + mr) (c + mc))) = 0) := by
  have h : Accum SGood SOut
      (loopDown
        (fun mr s => loopDown (fun mc s => hitAndMissTest image mask significance r c mr mc s)
          mask.cols s) mask.rows) _ :=
    accum_loopDown mask.rows
      (fun mr hm1 hm2 => accum_loopDown mask.cols (fun mc hc1 hc2 =>
        hitAndMissTest_step image mask significance r c mr mc hm1 hm2 hc1 hc2 (by omega)
          (by omega) (by omega) (by omega) (by omega) (by omega)))
  have := h ⟨false, true⟩ rfl
  refine ⟨this.1, ?_⟩
  have h2 := this.2 ()
  simp only [SOut, Bool.false_eq_true, false_or] at h2
  unfold hitAndMissScan
  rw [h2]
  constructor
  · rintro ⟨mr, hm1, hm2, mc, hc1, hc2, hb⟩ hall
    exact hb (hall mr mc hm1 hm2 hc1 hc2)
  · intro hn
    by_contra hc
    apply hn
    intro mr mc hm1 hm2 hc1 hc2
    by_contra hb
    exact hc ⟨mr, hm1, hm2, mc, hc1, hc2, hb⟩

theorem hitAndMissCell_step (R C : Nat) (image mask significance : Matrix)
    (rOrig cOrig r c : Int)
    (hsr : mask.rows ≤ significance.rows) (hsc : mask.cols ≤ significance.cols)
    (h1 : 0 ≤ r) (h2 : r + mask.rows ≤ image.rows) (h3 : 0 ≤ c)
    (h4 : c + mask.cols ≤ image.cols)
    (h5 : 0 ≤ r + rOrig) (h6 : r + rOrig < R) (h7 : 0 ≤ c + cOrig) (h8 : c + cOrig < C) :
    Accum (EGood R C) EOne (hitAndMissCell image mask significance rOrig cOrig r c)
      (fun a => a.1 = r + rOrig ∧ a.2 = c + cOrig ∧
        ∀ mr mc : Int, 0 ≤ mr → mr < mask.rows → 0 ≤ mc → mc < mask.cols →
          Int.land (significance.cell mr mc)
            (Int.xor (mask.cell mr mc) (image.cell (r + mr) (c + mc))) = 0) := by
  rintro w ⟨hok, hr, hc, hbin⟩
  obtain ⟨hsok, hsout⟩ := hitAndMissScan_spec image mask significance r c hsr hsc h1 h2 h3 h4
  unfold hitAndMissCell
  dsimp only
  by_cases ho : (hitAndMissScan image mask significance r c).out = true
  · rw [if_pos ho]
    refine ⟨⟨by simp [hok, hsok], hr, hc, hbin⟩, fun a => ?_⟩
    have := hsout.mp ho
    simp only [EOne]
    constructor
    · exact fun h => Or.inl h
    · rintro (h | ⟨_, _, h⟩)
      · exact h
      · exact absurd h this
  · rw [if_neg ho]
    have hall := not_not.mp (fun hn => ho (hsout.mpr hn))
    have e1 : w.result.inb (r + rOrig) (c + cOrig) = true :=
      (inb_iff _ _ _).mpr ⟨h5, by rw [hr]; exact h6, h7, by rw [hc]; exact h8⟩
    refine ⟨⟨by simp [hok, hsok, e1], hr, hc, fun i j => ?_⟩, fun a => ?_⟩
    · simp only [Matrix.set]
      split
      · exact Or.inr rfl
      · exact hbin i j
    · obtain ⟨i, j⟩ := a
      simp only [EOne, Matrix.set]
      by_cases hij : i = r + rOrig ∧ j = c + cOrig
      · rw [if_pos hij]
        exact ⟨fun _ => Or.inr ⟨hij.1, hij.2, hall⟩, fun _ => rfl⟩
      · rw [if_neg hij]
        constructor
        · exact fun h => Or.inl h
        · rintro (h | ⟨g1, g2, _⟩)
          · exact h
          · exact absurd ⟨g1, g2⟩ hij

/-- The window loops of `hitAndMiss` for a mask that fits and a significance grid
that covers the mask: all accesses are in bounds, the result has the extents of
the image, every cell is 0 or 1, and cell `(i, j)` is 1 exactly in the
full-coverage region where the window matches bit for bit. -/
theorem hitAndMissLoops_spec (image mask significance : Matrix) (hfit : Fits image mask)
    (hsr : mask.rows ≤ significance.rows) (hsc : mask.cols ≤ significance.cols) :
    (hitAndMissLoops image mask significance).ok = true ∧
      (hitAndMissLoops image mask significance).result.rows = image.rows ∧
      (hitAndMissLoops image mask significance).result.cols = image.cols ∧
      (∀ i j : Int, (hitAndMissLoops image mask significance).result.cell i j = 0 ∨
        (hitAndMissLoops image mask significance).result.cell i j = 1) ∧
      ∀ i j : Int, (hitAndMissLoops image mask significance).result.cell i j = 1 ↔
        (Covered image mask i j ∧ BitMatches image mask significance i j) := by
  obtain ⟨f1, f2, f3, f4⟩ := hfit
  have h : Accum (EGood image.rows image.cols) EOne
      (forUp 0 ((image.rows : Int) - mask.rows + 1)
        (fun r w => forUp 0 ((image.cols : Int) - mask.cols + 1)
          (fun c w => hitAndMissCell image mask significance ((mask.rows : Int) / 2)
            ((mask.cols : Int) / 2) r c w) w)) _ :=
    accum_forUp 0 ((image.rows : Int) - mask.rows + 1)
      (fun r hr1 hr2 => accum_forUp 0 _ (fun c hc1 hc2 =>
        hitAndMissCell_step image.rows image.cols image mask significance
          ((mask.rows : Int) / 2) ((mask.cols : Int) / 2) r c hsr hsc hr1 (by omega) hc1
          (by omega) (by omega) (by omega) (by omega) (by omega)))
  have := h ⟨Matrix.zero image.rows image.cols, true⟩ ⟨rfl, rfl, rfl, fun _ _ => Or.inl rfl⟩
  obtain ⟨⟨g1, g2, g3, g4⟩, g5⟩ := this
  refine ⟨g1, g2, g3, g4, fun i j => ?_⟩
  have := g5 (i, j)
  simp only [EOne, Matrix.zero] at this
  refine Iff.trans this ?_
  simp only [Covered, BitMatches]
  constructor
  · rintro (h | ⟨r, hr1, hr2, c, hc1, hc2, hi, hj, hall⟩)
    · exact absurd h (by decide)
    · refine ⟨⟨by omega, by omega, by omega, by omega⟩, fun mr mc m1 m2 m3 m4 => ?_⟩
      have := hall mr mc m1 m2 m3 m4
      rwa [show i + mr - (mask.rows : Int) / 2 = r + mr by omega,
        show j + mc - (mask.cols : Int) / 2 = c + mc by omega]
  · rintro ⟨⟨c1, c2, c3, c4⟩, hall⟩
    refine Or.inr ⟨i - (mask.rows : Int) / 2, by omega, by omega, j - (mask.cols : Int) / 2,
      by omega, by omega, by omega, by omega, fun mr mc m1 m2 m3 m4 => ?_⟩
    have := hall mr mc m1 m2 m3 m4
    rwa [show i + mr - (mask.rows : Int) / 2 = i - (mask.rows : Int) / 2 + mr by omega,
      show j + mc - (mask.cols : Int) / 2 = j - (mask.cols : Int) / 2 + mc by omega] at this

theorem hitAndMiss_fits_eq (image mask significance : Matrix) (hfit : Fits image mask) :
    hitAndMiss image mask significance =
      ⟨(hitAndMissLoops image mask significance).result,
        (hitAndMissLoops image mask significance).ok, false⟩ := by
  obtain ⟨f1, f2, f3, f4⟩ := hfit
  have hg : ¬((mask.rows : Int) > image.rows ∨ (mask.cols : Int) > image.cols) := by omega
  unfold hitAndMiss
  simp only
  rw [if_neg hg]

theorem hitAndMiss_oversized_eq (image mask significance : Matrix) (h : Oversized image mask) :
    hitAndMiss image mask significance = ⟨image, true, true⟩ := by
  have h' : (mask.rows : Int) > image.rows ∨ (mask.cols : Int) > image.cols := h
  unfold hitAndMiss
  simp only
  rw [if_pos h']

theorem erode_oversized_eq (image mask : Matrix) (h : Oversized image mask) :
    erode image mask false = ⟨image, true, true⟩ := by
  have h' : (mask.rows : Int) > image.rows ∨ (mask.cols : Int) > image.cols := h
  unfold erode
  simp only [Bool.false_eq_true, if_false]
  rw [if_pos h']

/-- The contract of `hitAndMiss` for a mask that fits. -/
theorem hitAndMiss_spec (image mask significance : Matrix) (hfit : Fits image mask)
    (hsr : mask.rows ≤ significance.rows) (hsc : mask.cols ≤ significance.cols) :
    (hitAndMiss image mask significance).ok = true ∧
      (hitAndMiss image mask significance).warned = false ∧
      (hitAndMiss image mask significance).value.rows = image.rows ∧
      (hitAndMiss image mask significance).value.cols = image.cols ∧
      (∀ i j : Int, (hitAndMiss image mask significance).value.cell i j = 0 ∨
        (hitAndMiss image mask significance).value.cell i j = 1) ∧
      ∀ i j : Int, (hitAndMiss image mask significance).value.cell i j = 1 ↔
        (Covered image mask i j ∧ BitMatches image mask significance i j) := by
  have h := hitAndMissLoops_spec image mask significance hfit hsr hsc
  rw [hitAndMiss_fits_eq image mask significance hfit]
  exact ⟨h.1, rfl, h.2.1, h.2.2.1, h.2.2.2.1, h.2.2.2.2⟩

theorem land_xor_binary {s m x : Int} (hs : s = 0 ∨ s = 1) (hm : m = 0 ∨ m = 1)
    (hx : x = 0 ∨ x = 1) : Int.land s (Int.xor m x) = 0 ↔ (s ≠ 0 → m = x) := by
  rcases hs with rfl | rfl <;> rcases hm with rfl | rfl <;> rcases hx with rfl | rfl <;> decide

theorem binary_bitMatches_iff {image mask significance : Matrix} (hi : image.Binary)
    (hm : mask.Binary) (hs : ∀ mr mc : Int, 0 ≤ mr → mr < mask.rows → 0 ≤ mc → mc < mask.cols →
      significance.cell mr mc = 0 ∨ significance.cell mr mc = 1)
    {i j : Int} (hc : Covered image mask i j) :
    BitMatches image mask significance i j ↔ Matches image mask significance i j := by
  obtain ⟨c1, c2, c3, c4⟩ := hc
  constructor
  · intro h mr mc m1 m2 m3 m4 hne
    exact (land_xor_binary (hs mr mc m1 m2 m3 m4) (hm mr mc m1 m2 m3 m4)
      (hi _ _ (by omega) (by omega) (by omega) (by omega))).mp (h mr mc m1 m2 m3 m4) hne
  · intro h mr mc m1 m2 m3 m4
    exact (land_xor_binary (hs mr mc m1 m2 m3 m4) (hm mr mc m1 m2 m3 m4)
      (hi _ _ (by omega) (by omega) (by omega) (by omega))).mpr (h mr mc m1 m2 m3 m4)

/-- C11: for every 0/1 image, 0/1 mask and 0/1 significance grid of the mask's
extents, with `1 <= maskRows <= rows` and `1 <= maskCols <= cols`, `hitAndMiss`
stays in bounds, gives no warning, keeps the extents, and its pixel `(i, j)` is 1
iff `(i, j)` lies in the full-coverage region and at every significant cell
`(mr, mc)` the mask equals `image(i+mr-rOrig, j+mc-cOrig)`; every other pixel,
in particular every pixel outside the full-coverage region, is 0. -/
theorem hitAndMiss_matches (image mask significance : Matrix) (hi : image.Binary)
    (hm : mask.Binary) (hs : significance.Binary) (hsr : significance.rows = mask.rows)
    (hsc : significance.cols = mask.cols) (hfit : Fits image mask) :
    (hitAndMiss image mask significance).ok = true ∧
      (hitAndMiss image mask significance).warned = false ∧
      (hitAndMiss image mask significance).value.rows = image.rows ∧
      (hitAndMiss image mask significance).value.cols = image.cols ∧
      ∀ i j : Int, 0 ≤ i → i < image.rows → 0 ≤ j → j < image.cols →
        (((hitAndMiss image mask significance).value.cell i j = 1 ↔
            (Covered image mask i j ∧ Matches image mask significance i j)) ∧
          (¬(Covered image mask i j ∧ Matches image mask significance i j) →
            (hitAndMiss image mask significance).value.cell i j = 0) ∧
          (¬Covered image mask i j →
            (hitAndMiss image mask significance).value.cell i j = 0)) := by
  obtain ⟨g1, g2, g3, g4, hbin, hone⟩ :=
    hitAndMiss_spec image mask significance hfit (by omega) (by omega)
  have hs' : ∀ mr mc : Int, 0 ≤ mr → mr < mask.rows → 0 ≤ mc → mc < mask.cols →
      significance.cell mr mc = 0 ∨ significance.cell mr mc = 1 := by
    intro mr mc m1 m2 m3 m4
    exact hs mr mc m1 (by rw [hsr]; exact m2) m3 (by rw [hsc]; exact m4)
  refine ⟨g1, g2, g3, g4, fun i j _ _ _ _ => ?_⟩
  have e : (hitAndMiss image mask significance).value.cell i j = 1 ↔
      (Covered image mask i j ∧ Matches image mask significance i j) := by
    rw [hone i j]
    constructor
    · exact fun h => ⟨h.1, (binary_bitMatches_iff hi hm hs' h.1).mp h.2⟩
    · exact fun h => ⟨h.1, (binary_bitMatches_iff hi hm hs' h.1).mpr h.2⟩
  have hz : ¬(Covered image mask i j ∧ Matches image mask significance i j) →
      (hitAndMiss image mask significance).value.cell i j = 0 := by
    intro hn
    rcases hbin i j with h0 | h1
    · exact h0
    · exact absurd (e.mp h1) hn
  exact ⟨e, hz, fun hn => hz (fun h => hn h.1)⟩

theorem hitAndMiss_matches_witness :
    (ones 3 3).Binary ∧ (ones 2 2).Binary ∧ (ones 2 2).Binary ∧
      (ones 2 2).rows = (ones 2 2).rows ∧ (ones 2 2).cols = (ones 2 2).cols ∧
      Fits (ones 3 3) (ones 2 2) ∧
      ((hitAndMiss (ones 3 3) (ones 2 2) (ones 2 2)).ok = true ∧
        (hitAndMiss (ones 3 3) (ones 2 2) (ones 2 2)).warned = false ∧
        (hitAndMiss (ones 3 3) (ones 2 2) (ones 2 2)).value.rows = (ones 3 3).rows ∧
        (hitAndMiss (ones 3 3) (ones 2 2) (ones 2 2)).value.cols = (ones 3 3).cols ∧
        ∀ i j : Int, 0 ≤ i → i < (ones 3 3).rows → 0 ≤ j → j < (ones 3 3).cols →
          (((hitAndMiss (ones 3 3) (ones 2 2) (ones 2 2)).value.cell i j = 1 ↔
              (Covered (ones 3 3) (ones 2 2) i j ∧
                Matches (ones 3 3) (ones 2 2) (ones 2 2) i j)) ∧
            (¬(Covered (ones 3 3) (ones 2 2) i j ∧
                Matches (ones 3 3) (ones 2 2) (ones 2 2) i j) →
              (hitAndMiss (ones 3 3) (ones 2 2) (ones 2 2)).value.cell i j = 0) ∧
            (¬Covered (ones 3 3) (ones 2 2) i j →
              (hitAndMiss (ones 3 3) (ones 2 2) (ones 2 2)).value.cell i j = 0))) :=
  ⟨fun _ _ _ _ _ _ => Or.inr rfl, fun _ _ _ _ _ _ => Or.inr rfl,
    fun _ _ _ _ _ _ => Or.inr rfl, rfl, rfl, ⟨by decide, by decide, by decide, by decide⟩,
    hitAndMiss_matches (ones 3 3) (ones 2 2) (ones 2 2) (fun _ _ _ _ _ _ => Or.inr rfl)
      (fun _ _ _ _ _ _ => Or.inr rfl) (fun _ _ _ _ _ _ => Or.inr rfl) rfl rfl
      ⟨by decide, by decide, by decide, by decide⟩⟩


/-! ## The nonzero-is-foreground rule -/

/-- Dilation returns the same grid on two images with the same set of nonzero
pixels: it reads the image only through the test `!image(r, c)`. -/
theorem dilate_same_foreground (a b mask : Matrix) (hfit : Fits a mask)
    (h : SameForeground a b) (i j : Int) :
    (dilate a mask).value.cell i j = (dilate b mask).value.cell i j :=
  dilate_congr hfit h.1.symm h.2.1.symm h.2.2 i j

theorem same_foreground_two_one : SameForeground (Matrix.ofRows 1 1 [[2]]) (ones 1 1) := by
  refine ⟨rfl, rfl, fun i j h1 h2 h3 h4 => ?_⟩
  have hi : i = 0 := by
    simp only [Matrix.ofRows] at h2
    omega
  have hj : j = 0 := by
    simp only [Matrix.ofRows] at h4
    omega
  subst hi hj
  decide

/-- C12, evaluated at the failing input: the 1x1 images `[[2]]` and `[[1]]` have
the same set of nonzero pixels, yet with the 1x1 mask (and significance) of ones
`erode` and `hitAndMiss` return background for `[[2]]` and foreground for
`[[1]]`: they test the pixel value bit by bit (`mask & ~image`,
`significance & (mask ^ image)`), not through `bool`. -/
theorem nonzero_rule_failing_input :
    SameForeground (Matrix.ofRows 1 1 [[2]]) (ones 1 1) ∧ Fits (ones 1 1) (ones 1 1) ∧
      (erode (Matrix.ofRows 1 1 [[2]]) (ones 1 1) false).ok = true ∧
      (erode (Matrix.ofRows 1 1 [[2]]) (ones 1 1) false).value.cell 0 0 = 0 ∧
      (erode (ones 1 1) (ones 1 1) false).value.cell 0 0 = 1 ∧
      (hitAndMiss (Matrix.ofRows 1 1 [[2]]) (ones 1 1) (ones 1 1)).ok = true ∧
      (hitAndMiss (Matrix.ofRows 1 1 [[2]]) (ones 1 1) (ones 1 1)).value.cell 0 0 = 0 ∧
      (hitAndMiss (ones 1 1) (ones 1 1) (ones 1 1)).value.cell 0 0 = 1 := by
  have hfit : Fits (Matrix.ofRows 1 1 [[2]]) (ones 1 1) :=
    ⟨by decide, by decide, by decide, by decide⟩
  have hfit1 : Fits (ones 1 1) (ones 1 1) := ⟨by decide, by decide, by decide, by decide⟩
  obtain ⟨e1, _, _, _, ebin, eone⟩ := erode_false_spec _ _ hfit
  obtain ⟨_, _, _, _, _, fone⟩ := erode_false_spec _ _ hfit1
  refine ⟨same_foreground_two_one, hfit1, e1, ?_, ?_, by decide, by decide, by decide⟩
  · rcases ebin 0 0 with h0 | h1
    · exact h0
    · have hb := ((eone 0 0).mp h1).2 0 0 (by decide) (by decide) (by decide) (by decide)
      rw [bitsIn_iff] at hb
      exact absurd (hb 0 (by decide)) (by decide)
  · refine (fone 0 0).mpr ⟨?_, fun mr mc _ _ _ _ => bitsIn_self 1⟩
    simp only [Covered, ones]
    omega

/-! ## Extents -/

theorem loopUp_keeps {σ β : Type} (f : σ → β) (body : Int → σ → σ)
    (h : ∀ k s, f (body k s) = f s) (n : Nat) (i : Int) (s : σ) :
    f (loopUp body n i s) = f s := by
  induction n generalizing i s with
  | zero => rfl
  | succ n ih =>
    simp only [loopUp]
    rw [ih, h]

theorem forUp_keeps {σ β : Type} (f : σ → β) (body : Int → σ → σ)
    (h : ∀ k s, f (body k s) = f s) (lo hi : Int) (s : σ) :
    f (forUp lo hi body s) = f s :=
  loopUp_keeps f body h _ lo s

theorem loopDown_keeps {σ β : Type} (f : σ → β) (body : Int → σ → σ)
    (h : ∀ k s, f (body k s) = f s) (n : Nat) (s : σ) :
    f (loopDown body n s) = f s := by
  induction n generalizing s with
  | zero => rfl
  | succ n ih =>
    simp only [loopDown]
    rw [ih, h]

theorem loopUp2_keeps {σ β : Type} (f : σ → β) (body : Int → Int → σ → σ)
    (h : ∀ k l s, f (body k l s) = f s) (n : Nat) (i k : Int) (s : σ) :
    f (loopUp2 body n i k s) = f s := by
  induction n generalizing i k s with
  | zero => rfl
  | succ n ih =>
    simp only [loopUp2]
    rw [ih, h]

theorem forUp2_keeps {σ β : Type} (f : σ → β) (body : Int → Int → σ → σ)
    (h : ∀ k l s, f (body k l s) = f s) (lo lo2 hi : Int) (s : σ) :
    f (forUp2 lo lo2 hi body s) = f s :=
  loopUp2_keeps f body h _ lo lo2 s

theorem loopUpBrk_keeps {σ β : Type} (f : σ → β) (body : Int → σ → σ × Bool)
    (h : ∀ k s, f (body k s).1 = f s) (n : Nat) (i : Int) (s : σ) :
    f (loopUpBrk body n i s) = f s := by
  induction n generalizing i s with
  | zero => rfl
  | succ n ih =>
    simp only [loopUpBrk]
    split
    · exact h i s
    · rw [ih, h]

theorem forUpBrk_keeps {σ β : Type} (f : σ → β) (body : Int → σ → σ × Bool)
    (h : ∀ k s, f (body k s).1 = f s) (lo hi : Int) (s : σ) :
    f (forUpBrk lo hi body s) = f s :=
  loopUpBrk_keeps f body h _ lo s

theorem orRow_extents (mask : Matrix) (mr mo rr cc n : Int) (w : Work) :
    extentsOf (orRow mask mr mo rr cc n w) = extentsOf w := by
  unfold orRow
  rw [loopDown_keeps extentsOf (fun mc w => orCell mask mr mo rr cc mc w) (fun _ _ => rfl)]
  rfl

theorem ifSet_extents (image : Matrix) (r c : Int) (rest : Work → Work)
    (h : ∀ w, extentsOf (rest w) = extentsOf w) (w : Work) :
    extentsOf (ifSet image r c rest w) = extentsOf w := by
  unfold ifSet
  split
  · rfl
  · rw [h]
    rfl

theorem dilateInterior_extents (image mask : Matrix) (w : Work) :
    extentsOf (dilateInterior image mask w) = extentsOf w := by
  unfold dilateInterior
  dsimp only
  refine forUp_keeps extentsOf _ (fun r w => ?_) _ _ _
  refine forUp_keeps extentsOf _ (fun c w => ?_) _ _ _
  refine ifSet_extents image _ _ _ (fun w => ?_) w
  refine forUp_keeps extentsOf _ (fun mr w => ?_) _ _ _
  exact orRow_extents _ _ _ _ _ _ w

theorem dilateLeft_extents (image mask : Matrix) (w : Work) :
    extentsOf (dilateLeft image mask w) = extentsOf w := by
  unfold dilateLeft
  dsimp only
  refine forUp_keeps (fun p : Work × Int => extentsOf p.1) _ (fun c p => ?_) _ _ _
  dsimp only
  refine forUp_keeps extentsOf _ (fun r w => ?_) _ _ _
  refine ifSet_extents image _ _ _ (fun w => ?_) w
  refine forUp_keeps extentsOf _ (fun mr w => ?_) _ _ _
  exact orRow_extents _ _ _ _ _ _ w

theorem dilateRight_extents (image mask : Matrix) (w : Work) :
    extentsOf (dilateRight image mask w) = extentsOf w := by
  unfold dilateRight
  dsimp only
  refine forUpBrk_keeps (fun p : Work × Int => extentsOf p.1) _ (fun c p => ?_) _ _ _
  dsimp only
  split
  · rfl
  · dsimp only
    refine forUp_keeps extentsOf _ (fun r w => ?_) _ _ _
    refine ifSet_extents image _ _ _ (fun w => ?_) w
    refine forUp_keeps extentsOf _ (fun mr w => ?_) _ _ _
    exact orRow_extents _ _ _ _ _ _ w

theorem dilateTop_extents (image mask : Matrix) (w : Work) :
    extentsOf (dilateTop image mask w) = extentsOf w := by
  unfold dilateTop
  dsimp only
  refine forUp_keeps (fun p : Work × Int => extentsOf p.1) _ (fun r p => ?_) _ _ _
  dsimp only
  refine forUp_keeps extentsOf _ (fun c w => ?_) _ _ _
  refine ifSet_extents image _ _ _ (fun w => ?_) w
  refine forUp2_keeps extentsOf _ (fun mr ir w => ?_) _ _ _ _
  exact orRow_extents _ _ _ _ _ _ w

theorem dilateBottom_extents (image mask : Matrix) (w : Work) :
    extentsOf (dilateBottom image mask w) = extentsOf w := by
  unfold dilateBottom
  dsimp only
  refine forUpBrk_keeps (fun p : Work × Int => extentsOf p.1) _ (fun r p => ?_) _ _ _
  dsimp only
  split
  · rfl
  · dsimp only
    refine forUp_keeps extentsOf _ (fun c w => ?_) _ _ _
    refine ifSet_extents image _ _ _ (fun w => ?_) w
    refine forUp_keeps extentsOf _ (fun mr w => ?_) _ _ _
    exact orRow_extents _ _ _ _ _ _ w

theorem dilateLeftTop_extents (image mask : Matrix) (w : Work) :
    extentsOf (dilateLeftTop image mask w) = extentsOf w := by
  unfold dilateLeftTop
  dsimp only
  refine forUp_keeps (fun p : Work × Int => extentsOf p.1) _ (fun r p => ?_) _ _ _
  dsimp only
  refine forUp_keeps (fun p : Work × Int => extentsOf p.1) _ (fun c t => ?_) _ _ _
  dsimp only
  refine ifSet_extents image _ _ _ (fun w => ?_) _
  refine forUp2_keeps extentsOf _ (fun mr ir w => ?_) _ _ _ _
  exact orRow_extents _ _ _ _ _ _ w

theorem dilateRightTop_extents (image mask : Matrix) (w : Work) :
    extentsOf (dilateRightTop image mask w) = extentsOf w := by
  unfold dilateRightTop
  dsimp only
  refine forUp_keeps (fun p : Work × Int => extentsOf p.1) _ (fun r p => ?_) _ _ _
  dsimp only
  refine forUp_keeps (fun p : Work × Int => extentsOf p.1) _ (fun c t => ?_) _ _ _
  dsimp only
  refine ifSet_extents image _ _ _ (fun w => ?_) _
  refine forUp2_keeps extentsOf _ (fun mr ir w => ?_) _ _ _ _
  exact orRow_extents _ _ _ _ _ _ w

theorem dilateLeftBottom_extents (image mask : Matrix) (w : Work) :
    extentsOf (dilateLeftBottom image mask w) = extentsOf w := by
  unfold dilateLeftBottom
  dsimp only
  refine forUp_keeps (fun p : Work × Int => extentsOf p.1) _ (fun r p => ?_) _ _ _
  dsimp only
  refine forUp_keeps (fun p : Work × Int => extentsOf p.1) _ (fun c t => ?_) _ _ _
  dsimp only
  refine ifSet_extents image _ _ _ (fun w => ?_) _
  refine forUp_keeps extentsOf _ (fun mr w => ?_) _ _ _
  exact orRow_extents _ _ _ _ _ _ w

theorem dilateRightBottom_extents (image mask : Matrix) (w : Work) :
    extentsOf (dilateRightBottom image mask w) = extentsOf w := by
  unfold dilateRightBottom
  dsimp only
  refine forUp_keeps (fun p : Work × Int => extentsOf p.1) _ (fun r p => ?_) _ _ _
  dsimp only
  refine forUp_keeps (fun p : Work × Int => extentsOf p.1) _ (fun c t => ?_) _ _ _
  dsimp only
  refine ifSet_extents image _ _ _ (fun w => ?_) _
  refine forUp_keeps extentsOf _ (fun mr w => ?_) _ _ _
  exact orRow_extents _ _ _ _ _ _ w

/-- The result of `dilate` has the extents of the image, whatever the mask. -/
theorem dilate_extents (image mask : Matrix) :
    (dilate image mask).value.rows = image.rows ∧ (dilate image mask).value.cols = image.cols := by
  have key : extentsOf (dilateRightBottom image mask (dilateLeftBottom image mask
      (dilateRightTop image mask (dilateLeftTop image mask (dilateBottom image mask
        (dilateTop image mask (dilateRight image mask (dilateLeft image mask
          (dilateInterior image mask ⟨Matrix.zero image.rows image.cols, true⟩))))))))) =
      (image.rows, image.cols) := by
    rw [dilateRightBottom_extents, dilateLeftBottom_extents, dilateRightTop_extents,
      dilateLeftTop_extents, dilateBottom_extents, dilateTop_extents, dilateRight_extents,
      dilateLeft_extents, dilateInterior_extents]
    rfl
  exact ⟨congrArg Prod.fst key, congrArg Prod.snd key⟩


theorem fits_or_oversized (image mask : Matrix) (hmr : 1 ≤ mask.rows) (hmc : 1 ≤ mask.cols) :
    Fits image mask ∨ Oversized image mask := by
  by_cases h : Oversized image mask
  · exact Or.inr h
  · refine Or.inl ⟨hmr, ?_, hmc, ?_⟩
    · by_contra hn
      exact h (Or.inl (by omega))
    · by_contra hn
      exact h (Or.inr (by omega))

/-- With border handling the size guard of `erode` looks at the extended image,
which every mask of positive extents fits: no warning, all accesses in bounds,
and the crop has the extents of the image. -/
theorem erode_true_general (image mask : Matrix) (hr : 1 ≤ image.rows) (hc : 1 ≤ image.cols)
    (hmr : 1 ≤ mask.rows) (hmc : 1 ≤ mask.cols) :
    (erode image mask true).ok = true ∧ (erode image mask true).warned = false ∧
      (erode image mask true).value.rows = image.rows ∧
      (erode image mask true).value.cols = image.cols := by
  have hrows : ((extend image ((mask.rows : Int) / 2)
      ((mask.rows : Int) - (mask.rows : Int) / 2 - 1) ((mask.cols : Int) / 2)
      ((mask.cols : Int) - (mask.cols : Int) / 2 - 1)).rows : Int) =
      (image.rows : Int) + mask.rows - 1 := by
    simp only [extend]
    omega
  have hcols : ((extend image ((mask.rows : Int) / 2)
      ((mask.rows : Int) - (mask.rows : Int) / 2 - 1) ((mask.cols : Int) / 2)
      ((mask.cols : Int) - (mask.cols : Int) / 2 - 1)).cols : Int) =
      (image.cols : Int) + mask.cols - 1 := by
    simp only [extend]
    omega
  generalize hE : extend image ((mask.rows : Int) / 2)
      ((mask.rows : Int) - (mask.rows : Int) / 2 - 1) ((mask.cols : Int) / 2)
      ((mask.cols : Int) - (mask.cols : Int) / 2 - 1) = ext at hrows hcols
  have hfit : Fits ext mask := ⟨hmr, by omega, hmc, by omega⟩
  have hg : ¬((mask.rows : Int) > ext.rows ∨ (mask.cols : Int) > ext.cols) := by omega
  have e : erode image mask true =
      ⟨subMatrix (erodeLoops ext mask).result ((mask.rows : Int) / 2) ((mask.cols : Int) / 2)
        image.rows image.cols, (erodeLoops ext mask).ok, false⟩ := by
    unfold erode
    simp only [if_true]
    rw [hE, if_neg hg]
  rw [e]
  exact ⟨(erodeLoops_spec ext mask hfit).1, rfl, rfl, rfl⟩

/-- The extents of the results, with the accesses in bounds: for every image with
`rows >= 1` and `cols >= 1` and every mask with positive extents, whether or not
it fits the image, `erode(image, mask, false)`, `erode(image, mask, true)` and
`hitAndMiss(image, mask, significance)` (the significance grid covering the
mask) run in bounds and return a grid with the image's row and column counts;
`dilate(image, mask)` does so when the mask fits the image. -/
theorem extents_in_bounds (image mask significance : Matrix) (hr : 1 ≤ image.rows)
    (hc : 1 ≤ image.cols) (hmr : 1 ≤ mask.rows) (hmc : 1 ≤ mask.cols)
    (hsr : mask.rows ≤ significance.rows) (hsc : mask.cols ≤ significance.cols) :
    ((erode image mask false).ok = true ∧ (erode image mask false).value.rows = image.rows ∧
        (erode image mask false).value.cols = image.cols) ∧
      ((erode image mask true).ok = true ∧ (erode image mask true).value.rows = image.rows ∧
        (erode image mask true).value.cols = image.cols) ∧
      ((hitAndMiss image mask significance).ok = true ∧
        (hitAndMiss image mask significance).value.rows = image.rows ∧
        (hitAndMiss image mask significance).value.cols = image.cols) ∧
      (Fits image mask →
        (dilate image mask).ok = true ∧ (dilate image mask).value.rows = image.rows ∧
          (dilate image mask).value.cols = image.cols) := by
  refine ⟨?_, ?_, ?_, fun hfit => ?_⟩
  · rcases fits_or_oversized image mask hmr hmc with hfit | hov
    · obtain ⟨g1, _, g3, g4, _⟩ := erode_false_spec image mask hfit
      exact ⟨g1, g3, g4⟩
    · rw [erode_oversized_eq image mask hov]
      exact ⟨rfl, rfl, rfl⟩
  · obtain ⟨g1, _, g3, g4⟩ := erode_true_general image mask hr hc hmr hmc
    exact ⟨g1, g3, g4⟩
  · rcases fits_or_oversized image mask hmr hmc with hfit | hov
    · obtain ⟨g1, _, g3, g4, _⟩ := hitAndMiss_spec image mask significance hfit hsr hsc
      exact ⟨g1, g3, g4⟩
    · rw [hitAndMiss_oversized_eq image mask significance hov]
      exact ⟨rfl, rfl, rfl⟩
  · obtain ⟨g1, g2, g3, _⟩ := dilate_bits image mask hfit
    exact ⟨g1, g2, g3⟩

/-- C13, failing input: the 1x1 image `[[1]]` and the 3x1 mask of ones have
positive extents.  `erode` (with either flag) and `hitAndMiss` run in bounds and
return a 1x1 grid, but `dilate` does not: its top edge pass writes row 1 of the
1-row result, so the run leaves the grid and delivers no result of the image's
extents. -/
theorem output_extents_failing_input :
    (1 ≤ (ones 1 1).rows ∧ 1 ≤ (ones 1 1).cols ∧ 1 ≤ (ones 3 1).rows ∧ 1 ≤ (ones 3 1).cols) ∧
      (dilate (ones 1 1) (ones 3 1)).ok = false ∧
      ((erode (ones 1 1) (ones 3 1) false).ok = true ∧
        (erode (ones 1 1) (ones 3 1) false).value.rows = 1 ∧
        (erode (ones 1 1) (ones 3 1) false).value.cols = 1) ∧
      ((erode (ones 1 1) (ones 3 1) true).ok = true ∧
        (erode (ones 1 1) (ones 3 1) true).value.rows = 1 ∧
        (erode (ones 1 1) (ones 3 1) true).value.cols = 1) ∧
      ((hitAndMiss (ones 1 1) (ones 3 1) (ones 3 1)).ok = true ∧
        (hitAndMiss (ones 1 1) (ones 3 1) (ones 3 1)).value.rows = 1 ∧
        (hitAndMiss (ones 1 1) (ones 3 1) (ones 3 1)).value.cols = 1) := by
  obtain ⟨h1, h2, h3, _⟩ := extents_in_bounds (ones 1 1) (ones 3 1) (ones 3 1) (by decide)
    (by decide) (by decide) (by decide) (le_refl _) (le_refl _)
  exact ⟨⟨by decide, by decide, by decide, by decide⟩, by decide, h1, h2, h3⟩

/-! ## Masks larger than the image -/

theorem erode_warned_iff (image mask : Matrix) :
    (erode image mask false).warned = true ↔ Oversized image mask := by
  by_cases h : Oversized image mask
  · rw [erode_oversized_eq image mask h]
    exact ⟨fun _ => h, fun _ => rfl⟩
  · have h' : ¬((mask.rows : Int) > image.rows ∨ (mask.cols : Int) > image.cols) := h
    unfold erode
    simp only [Bool.false_eq_true, if_false]
    rw [if_neg h']
    exact ⟨fun hw => Bool.noConfusion hw, fun ho => absurd ho h⟩

theorem hitAndMiss_warned_iff (image mask significance : Matrix) :
    (hitAndMiss image mask significance).warned = true ↔ Oversized image mask := by
  by_cases h : Oversized image mask
  · rw [hitAndMiss_oversized_eq image mask significance h]
    exact ⟨fun _ => h, fun _ => rfl⟩
  · have h' : ¬((mask.rows : Int) > image.rows ∨ (mask.cols : Int) > image.cols) := h
    unfold hitAndMiss
    simp only
    rw [if_neg h']
    exact ⟨fun hw => Bool.noConfusion hw, fun ho => absurd ho h⟩

/-- C14: for every image and mask with `maskRows > rows` or `maskCols > cols`,
`erode(image, mask, false)` and `hitAndMiss(image, mask, significance)` warn and
return the image itself, cell for cell, with its pixel values unchanged, reading
and writing nothing; and for any mask and significance grid they take this
branch (warn) only under that condition. -/
theorem oversized_returns_input (image mask significance : Matrix)
    (h : Oversized image mask) :
    ((erode image mask false).value = image ∧
        Matrix.Same (erode image mask false).value image ∧
        (erode image mask false).ok = true ∧ (erode image mask false).warned = true) ∧
      ((hitAndMiss image mask significance).value = image ∧
        Matrix.Same (hitAndMiss image mask significance).value image ∧
        (hitAndMiss image mask significance).ok = true ∧
        (hitAndMiss image mask significance).warned = true) ∧
      (∀ m : Matrix, (erode image m false).warned = true ↔ Oversized image m) ∧
      (∀ m s : Matrix, (hitAndMiss image m s).warned = true ↔ Oversized image m) := by
  refine ⟨?_, ?_, fun m => erode_warned_iff image m,
    fun m s => hitAndMiss_warned_iff image m s⟩
  · rw [erode_oversized_eq image mask h]
    exact ⟨rfl, ⟨rfl, rfl, fun _ _ _ _ _ _ => rfl⟩, rfl, rfl⟩
  · rw [hitAndMiss_oversized_eq image mask significance h]
    exact ⟨rfl, ⟨rfl, rfl, fun _ _ _ _ _ _ => rfl⟩, rfl, rfl⟩

theorem oversized_returns_input_witness :
    Oversized (Matrix.ofRows 2 2 [[5, 0], [0, 7]]) (ones 3 3) ∧
      (((erode (Matrix.ofRows 2 2 [[5, 0], [0, 7]]) (ones 3 3) false).value =
          Matrix.ofRows 2 2 [[5, 0], [0, 7]] ∧
          Matrix.Same (erode (Matrix.ofRows 2 2 [[5, 0], [0, 7]]) (ones 3 3) false).value
            (Matrix.ofRows 2 2 [[5, 0], [0, 7]]) ∧
          (erode (Matrix.ofRows 2 2 [[5, 0], [0, 7]]) (ones 3 3) false).ok = true ∧
          (erode (Matrix.ofRows 2 2 [[5, 0], [0, 7]]) (ones 3 3) false).warned = true) ∧
        ((hitAndMiss (Matrix.ofRows 2 2 [[5, 0], [0, 7]]) (ones 3 3) (ones 3 3)).value =
          Matrix.ofRows 2 2 [[5, 0], [0, 7]] ∧
          Matrix.Same
            (hitAndMiss (Matrix.ofRows 2 2 [[5, 0], [0, 7]]) (ones 3 3) (ones 3 3)).value
            (Matrix.ofRows 2 2 [[5, 0], [0, 7]]) ∧
          (hitAndMiss (Matrix.ofRows 2 2 [[5, 0], [0, 7]]) (ones 3 3) (ones 3 3)).ok = true ∧
          (hitAndMiss (Matrix.ofRows 2 2 [[5, 0], [0, 7]]) (ones 3 3) (ones 3 3)).warned
            = true) ∧
        (∀ m : Matrix, (erode (Matrix.ofRows 2 2 [[5, 0], [0, 7]]) m false).warned = true ↔
          Oversized (Matrix.ofRows 2 2 [[5, 0], [0, 7]]) m) ∧
        (∀ m s : Matrix, (hitAndMiss (Matrix.ofRows 2 2 [[5, 0], [0, 7]]) m s).warned = true ↔
          Oversized (Matrix.ofRows 2 2 [[5, 0], [0, 7]]) m)) :=
  ⟨Or.inl (by decide),
    oversized_returns_input (Matrix.ofRows 2 2 [[5, 0], [0, 7]]) (ones 3 3) (ones 3 3)
      (Or.inl (by decide))⟩

/-- C15, evaluated at failing inputs: the 1x2 mask of ones is larger than the 1x1
image `[[1]]`; `dilate` warns, runs its left edge pass in bounds and returns
`[[1]]`, not an all-background grid.  For the 1x1 image `[[1]]` and the 3x1 mask
of ones the top and bottom edge passes write rows 1 and -1 of the 1-row result:
the run is not in bounds. -/
theorem degenerate_dilate_failing_input :
    Oversized (ones 1 1) (ones 1 2) ∧ (dilate (ones 1 1) (ones 1 2)).warned = true ∧
      (dilate (ones 1 1) (ones 1 2)).ok = true ∧
      (dilate (ones 1 1) (ones 1 2)).value.cell 0 0 = 1 ∧
      Oversized (ones 1 1) (ones 3 1) ∧ (dilate (ones 1 1) (ones 3 1)).ok = false := by
  refine ⟨Or.inr (by decide), by decide, by decide, by decide, Or.inl (by decide), by decide⟩

/-- C16, as stated, fails: for the 2x2 all-foreground image and the 3x3
all-foreground mask `erode(image, mask, true)` gives no warning: the size guard
looks at the image extended to 4x4, which the mask fits. -/
theorem erode_borders_2x2_counterexample :
    (ones 2 2).rows = 2 ∧ (ones 2 2).cols = 2 ∧ (ones 3 3).rows = 3 ∧ (ones 3 3).cols = 3 ∧
      (erode (ones 2 2) (ones 3 3) true).warned = false := by
  refine ⟨rfl, rfl, rfl, rfl, ?_⟩
  exact (erode_true_general (ones 2 2) (ones 3 3) (by decide) (by decide) (by decide)
    (by decide)).2.1

/-- C16, amended: for every 2x2 image and every 3x3 mask,
`erode(image, mask, true)` does not take the mask-larger-than-image path: the
image is first extended to 4x4, no warning is given, the window loops run in
bounds, and the result is a 2x2 grid. -/
theorem erode_borders_2x2 (image mask : Matrix) (h1 : image.rows = 2) (h2 : image.cols = 2)
    (h3 : mask.rows = 3) (h4 : mask.cols = 3) :
    (erode image mask true).warned = false ∧ (erode image mask true).ok = true ∧
      (erode image mask true).value.rows = 2 ∧ (erode image mask true).value.cols = 2 := by
  obtain ⟨g1, g2, g3, g4⟩ :=
    erode_true_general image mask (by omega) (by omega) (by omega) (by omega)
  exact ⟨g2, g1, by rw [g3, h1], by rw [g4, h2]⟩

theorem erode_borders_2x2_witness :
    (Matrix.ofRows 2 2 [[1, 0], [1, 1]]).rows = 2 ∧ (Matrix.ofRows 2 2 [[1, 0], [1, 1]]).cols = 2 ∧
      (ones 3 3).rows = 3 ∧ (ones 3 3).cols = 3 ∧
      ((erode (Matrix.ofRows 2 2 [[1, 0], [1, 1]]) (ones 3 3) true).warned = false ∧
        (erode (Matrix.ofRows 2 2 [[1, 0], [1, 1]]) (ones 3 3) true).ok = true ∧
        (erode (Matrix.ofRows 2 2 [[1, 0], [1, 1]]) (ones 3 3) true).value.rows = 2 ∧
        (erode (Matrix.ofRows 2 2 [[1, 0], [1, 1]]) (ones 3 3) true).value.cols = 2) :=
  ⟨rfl, rfl, rfl, rfl,
    erode_borders_2x2 (Matrix.ofRows 2 2 [[1, 0], [1, 1]]) (ones 3 3) rfl rfl rfl rfl⟩

/-- C17, evaluated at the failing input: on the image with zero rows and zero
columns and the 3x3 mask of ones, `erode(image, mask, false)` and `hitAndMiss`
return the zero-sized image without touching a cell, but `dilate`, although its
result is zero-sized, is not in bounds: its corner passes read `image(0, 0)`. -/
theorem zero_sized_failing_input :
    ((erode (Matrix.zero 0 0) (ones 3 3) false).ok = true ∧
        (erode (Matrix.zero 0 0) (ones 3 3) false).value.rows = 0 ∧
        (erode (Matrix.zero 0 0) (ones 3 3) false).value.cols = 0) ∧
      ((hitAndMiss (Matrix.zero 0 0) (ones 3 3) (ones 3 3)).ok = true ∧
        (hitAndMiss (Matrix.zero 0 0) (ones 3 3) (ones 3 3)).value.rows = 0 ∧
        (hitAndMiss (Matrix.zero 0 0) (ones 3 3) (ones 3 3)).value.cols = 0) ∧
      ((dilate (Matrix.zero 0 0) (ones 3 3)).value.rows = 0 ∧
        (dilate (Matrix.zero 0 0) (ones 3 3)).value.cols = 0 ∧
        (dilate (Matrix.zero 0 0) (ones 3 3)).ok = false ∧
        (dilateLeftTop (Matrix.zero 0 0) (ones 3 3) ⟨Matrix.zero 0 0, true⟩).ok = false) := by
  refine ⟨⟨by decide, by decide, by decide⟩, ⟨by decide, by decide, by decide⟩,
    (dilate_extents _ _).1, (dilate_extents _ _).2, by decide, by decide⟩


/-! ## Border, shrink and thin -/

/-- The hypothesis `OriginSet` on the table cannot be dropped: with eight pairs
of the 1x1 mask `[[0]]` and the 1x1 significance grid `[[1]]`, `hitAndMiss`
answers 1 at the background pixel of the 1x1 image `[[0]]`, `border` is 1 there,
and `shrink(image, 1)` is `bool(0) - bool(1) = -1`, nonzero where the image is
zero. -/
theorem shrink_origin_needed :
    (shrink (fun _ k => if k = 0 then Matrix.ofRows 1 1 [[0]] else ones 1 1)
        (Matrix.ofRows 1 1 [[0]]) 1).ok = true ∧
      (shrink (fun _ k => if k = 0 then Matrix.ofRows 1 1 [[0]] else ones 1 1)
        (Matrix.ofRows 1 1 [[0]]) 1).value.cell 0 0 = -1 ∧
      (Matrix.ofRows 1 1 [[0]]).cell 0 0 = 0 := by
  refine ⟨by decide, by decide, by decide⟩

theorem subtractFrom_value (acc other : Outcome) :
    (subtractFrom acc other).value = acc.value.map BottomhatFunction other.value := rfl

theorem shrink_loop_value (borderMasks : Int → Int → Matrix) (n : Nat) (acc : Outcome) :
    (loopDown (fun _ result => subtractFrom result (border borderMasks result.value)) n
      acc).value = (subtractBorder borderMasks)^[n] acc.value := by
  induction n generalizing acc with
  | zero => rfl
  | succ n ih =>
    simp only [loopDown]
    rw [ih, Function.iterate_succ_apply]
    rfl

/-- C19: for every image, every table and every amount `n >= 0`,
`shrink(image, n)` is the border subtraction `F` applied `n` times to the image,
`F(x)` being `x` mapped cell-wise with `BottomhatFunction` against `border(x)`;
`shrink(image, 0)` is the image, and the dedicated `amount == 1` path returns
exactly what the general loop returns when it runs once. -/
theorem shrink_iterates (borderMasks : Int → Int → Matrix) (image : Matrix) (n : Nat) :
    (shrink borderMasks image (n : Int)).value = (subtractBorder borderMasks)^[n] image ∧
      (shrink borderMasks image 0).value = image ∧
      shrink borderMasks image 1 =
        loopDown (fun _ result => subtractFrom result (border borderMasks result.value)) 1
          ⟨image, true, false⟩ := by
  refine ⟨?_, ?_, ?_⟩
  · unfold shrink
    by_cases h1 : (n : Int) = 1
    · rw [if_pos h1]
      have hn : n = 1 := by omega
      subst hn
      rfl
    · rw [if_neg h1, shrink_loop_value, Int.toNat_ofNat]
  · unfold shrink
    rw [if_neg (by decide)]
    rfl
  · unfold shrink
    rw [if_pos rfl]
    rfl

theorem thinSweep_value (borderMasks : Int → Int → Matrix) (acc : Outcome) :
    (thinSweep borderMasks acc).value = sweep borderMasks acc.value := rfl

theorem thin_loop_value (borderMasks : Int → Int → Matrix) (n : Nat) (acc : Outcome) :
    (loopDown (fun _ result => thinSweep borderMasks result) n acc).value =
      (sweep borderMasks)^[n] acc.value := by
  induction n generalizing acc with
  | zero => rfl
  | succ n ih =>
    simp only [loopDown]
    rw [ih, Function.iterate_succ_apply, thinSweep_value]

/-- C20: for every image, every table and every `n >= 0`, `thin(image, n)`
returns (whatever the fuel of the other branch) the sweep `S` applied `n` times
to the image, where `S` takes the eight pairs in the order `m = 7` down to `0`
and for each replaces the working copy `w` by `w` mapped cell-wise with
`BottomhatFunction` against `hitAndMiss(w, mask_m, significance_m)`, computed on
the copy the earlier directions have modified; `thin(image, 0)` is the image. -/
theorem thin_iterates (borderMasks : Int → Int → Matrix) (image : Matrix) (n fuel : Nat) :
    (thin borderMasks image (n : Int) fuel).map Outcome.value =
        some ((sweep borderMasks)^[n] image) ∧
      (thin borderMasks image 0 fuel).map Outcome.value = some image := by
  refine ⟨?_, ?_⟩
  · unfold thin
    rw [if_pos (by omega)]
    simp only [Option.map_some', Int.toNat_ofNat, thin_loop_value]
  · unfold thin
    rw [if_pos (by decide)]
    rfl

/-! ## The fixpoint of `thin`, the dispatcher and the rectangular mask -/

/-- C25: for every image, mask and flag `hb`, `morphology` with `Erode` is
`erode(image, mask, hb)`; with `Dilate`, `Open`, `Close`, `TopHat`, `BottomHat`
it is the matching two-argument routine, the same for `hb = true` and
`hb = false`; with any selector value outside the six it returns the image
unchanged. -/
theorem morphology_dispatch (image mask : Matrix) (hb : Bool) :
    morphology image mask MorphologyOperation.Erode hb = erode image mask hb ∧
      (morphology image mask MorphologyOperation.Dilate hb = dilate image mask ∧
        morphology image mask MorphologyOperation.Open hb = openOp image mask ∧
        morphology image mask MorphologyOperation.Close hb = close image mask ∧
        morphology image mask MorphologyOperation.TopHat hb = topHat image mask ∧
        morphology image mask MorphologyOperation.BottomHat hb = bottomHat image mask) ∧
      (morphology image mask MorphologyOperation.Dilate true =
          morphology image mask MorphologyOperation.Dilate false ∧
        morphology image mask MorphologyOperation.Open true =
          morphology image mask MorphologyOperation.Open false ∧
        morphology image mask MorphologyOperation.Close true =
          morphology image mask MorphologyOperation.Close false ∧
        morphology image mask MorphologyOperation.TopHat true =
          morphology image mask MorphologyOperation.TopHat false ∧
        morphology image mask MorphologyOperation.BottomHat true =
          morphology image mask MorphologyOperation.BottomHat false) ∧
      ∀ value : Int,
        morphology image mask (MorphologyOperation.unrecognised value) hb =
          ⟨image, true, false⟩ :=
  ⟨rfl, ⟨rfl, rfl, rfl, rfl, rfl⟩, ⟨rfl, rfl, rfl, rfl, rfl⟩, fun _ => rfl⟩

/-- C22: for every `rows >= 1` and `cols >= 0`, `createMask` with the rectangular
shape or with an unrecognised shape value returns, writing nothing out of
bounds, a grid with `rows` rows and (`cols` if `cols != 0`, else `rows`) columns
whose every cell is 1; and for `rows == 0` it returns the empty 0x0 grid for
every shape and every `cols`. -/
theorem createMask_rectangular (type : MaskType) (rows cols : Int)
    (ht : type = MaskType.RectangularMask ∨ ∃ value, type = MaskType.unrecognised value)
    (hr : 1 ≤ rows) (hc : 0 ≤ cols) :
    ((createMask type rows cols).result.rows : Int) = rows ∧
      ((createMask type rows cols).result.cols : Int) = (if cols ≠ 0 then cols else rows) ∧
      (∀ i j : Int, 0 ≤ i → i < rows → 0 ≤ j →
        j < ((createMask type rows cols).result.cols : Int) →
        (createMask type rows cols).result.cell i j = 1) ∧
      (createMask type rows cols).ok = true ∧
      ∀ (shape : MaskType) (anyCols : Int),
        createMask shape 0 anyCols = ⟨Matrix.zero 0 0, true⟩ := by
  have h0 : rows ≠ 0 := by omega
  have hfill : createMask type rows cols =
      ⟨⟨rows.toNat, (if cols = 0 then rows else cols).toNat, fun _ _ => 1⟩, true⟩ := by
    unfold createMask
    rw [if_neg h0]
    rcases ht with ht | ⟨v, ht⟩ <;> subst ht <;> rfl
  rw [hfill]
  refine ⟨?_, ?_, fun _ _ _ _ _ _ => rfl, rfl, fun shape anyCols => ?_⟩
  · show ((rows.toNat : Nat) : Int) = rows
    omega
  · show (((if cols = 0 then rows else cols).toNat : Nat) : Int) = _
    by_cases hz : cols = 0
    · rw [if_pos hz, if_neg (not_not.mpr hz)]
      omega
    · rw [if_neg hz, if_pos hz]
      omega
  · unfold createMask
    rw [if_pos rfl]

theorem createMask_rectangular_witness :
    ((createMask MaskType.RectangularMask 2 0).result.rows : Int) = 2 ∧
      ((createMask MaskType.RectangularMask 2 0).result.cols : Int) =
        (if (0 : Int) ≠ 0 then 0 else 2) ∧
      (∀ i j : Int, 0 ≤ i → i < 2 → 0 ≤ j →
        j < ((createMask MaskType.RectangularMask 2 0).result.cols : Int) →
        (createMask MaskType.RectangularMask 2 0).result.cell i j = 1) ∧
      (createMask MaskType.RectangularMask 2 0).ok = true ∧
      ∀ (shape : MaskType) (anyCols : Int),
        createMask shape 0 anyCols = ⟨Matrix.zero 0 0, true⟩ :=
  createMask_rectangular MaskType.RectangularMask 2 0 (Or.inl rfl) (by decide) (by decide)

theorem thinConverge_spec (borderMasks : Int → Int → Matrix) (k : Nat) :
    ∀ (fuel : Nat) (acc : Outcome),
      equals (sweeps borderMasks (k + 1) acc.value) (sweeps borderMasks k acc.value) = true →
      (∀ j, j < k →
        equals (sweeps borderMasks (j + 1) acc.value) (sweeps borderMasks j acc.value) =
          false) →
      (k + 1 ≤ fuel →
        (thinConverge borderMasks fuel acc acc).map Outcome.value =
          some (sweeps borderMasks k acc.value)) ∧
      (fuel ≤ k → thinConverge borderMasks fuel acc acc = none) := by
  induction k with
  | zero =>
    intro fuel acc hk _
    cases fuel with
    | zero => exact ⟨fun h => absurd h (by omega), fun _ => rfl⟩
    | succ f =>
      refine ⟨fun _ => ?_, fun h => absurd h (by omega)⟩
      have hk' : equals (thinSweep borderMasks acc).value acc.value = true := hk
      simp only [thinConverge]
      rw [if_pos hk']
      rfl
  | succ k ih =>
    intro fuel acc hk hmin
    cases fuel with
    | zero => exact ⟨fun h => absurd h (by omega), fun _ => rfl⟩
    | succ f =>
      have h0 : equals (thinSweep borderMasks acc).value acc.value = false :=
        hmin 0 (by omega)
      have hrec := ih f (thinSweep borderMasks acc) hk
        (fun j hj => hmin (j + 1) (by omega))
      simp only [thinConverge]
      rw [if_neg (by rw [h0]; decide)]
      exact ⟨fun h => hrec.1 (by omega), fun h => hrec.2 (by omega)⟩

/-- C21: for every image, table and `amount < 0`, if `k` is the least natural
number with `S^(k+1)(image) == S^k(image)` (`S` the full eight-direction sweep),
then `thin(image, amount)` returns `S^k(image)` as soon as it is allowed `k+1`
sweeps and has not returned within `k` sweeps; the returned grid `R` satisfies
`thin(R, 1) == R`; and the result is the same for every negative amount. -/
theorem thin_negative_fixpoint (borderMasks : Int → Int → Matrix) (image : Matrix)
    (amount : Int) (k : Nat) (ha : amount < 0)
    (hk : equals (sweeps borderMasks (k + 1) image) (sweeps borderMasks k image) = true)
    (hmin : ∀ j, j < k →
      equals (sweeps borderMasks (j + 1) image) (sweeps borderMasks j image) = false) :
    (∀ fuel, k + 1 ≤ fuel →
        (thin borderMasks image amount fuel).map Outcome.value =
          some (sweeps borderMasks k image)) ∧
      (∀ fuel, fuel ≤ k → thin borderMasks image amount fuel = none) ∧
      (∀ fuel, ∃ out, thin borderMasks (sweeps borderMasks k image) 1 fuel = some out ∧
        equals out.value (sweeps borderMasks k image) = true) ∧
      ∀ (other : Int) (fuel : Nat), other < 0 →
        thin borderMasks image other fuel = thin borderMasks image amount fuel := by
  have hneg : ∀ (a : Int) (fuel : Nat), a < 0 →
      thin borderMasks image a fuel =
        thinConverge borderMasks fuel ⟨image, true, false⟩ ⟨image, true, false⟩ := by
    intro a fuel h
    unfold thin
    rw [if_neg (by omega)]
  have hspec := fun fuel =>
    thinConverge_spec borderMasks k fuel ⟨image, true, false⟩ hk hmin
  refine ⟨fun fuel h => ?_, fun fuel h => ?_, fun fuel => ?_, fun other fuel h => ?_⟩
  · rw [hneg amount fuel ha]
    exact (hspec fuel).1 h
  · rw [hneg amount fuel ha]
    exact (hspec fuel).2 h
  · refine ⟨thinSweep borderMasks ⟨sweeps borderMasks k image, true, false⟩, ?_, ?_⟩
    · unfold thin
      rw [if_pos (by decide)]
      rfl
    · rw [thinSweep_value]
      have : sweep borderMasks (sweeps borderMasks k image) =
          sweeps borderMasks (k + 1) image := by
        unfold sweeps
        rw [Function.iterate_succ_apply']
      rw [this]
      exact hk
  · rw [hneg other fuel h, hneg amount fuel ha]

theorem thin_negative_fixpoint_witness :
    (∀ fuel, 1 + 1 ≤ fuel →
        (thin (fun _ _ => ones 1 1) (ones 1 1) (-1) fuel).map Outcome.value =
          some (sweeps (fun _ _ => ones 1 1) 1 (ones 1 1))) ∧
      (∀ fuel, fuel ≤ 1 → thin (fun _ _ => ones 1 1) (ones 1 1) (-1) fuel = none) ∧
      (∀ fuel, ∃ out,
        thin (fun _ _ => ones 1 1) (sweeps (fun _ _ => ones 1 1) 1 (ones 1 1)) 1 fuel =
          some out ∧
        equals out.value (sweeps (fun _ _ => ones 1 1) 1 (ones 1 1)) = true) ∧
      ∀ (other : Int) (fuel : Nat), other < 0 →
        thin (fun _ _ => ones 1 1) (ones 1 1) other fuel =
          thin (fun _ _ => ones 1 1) (ones 1 1) (-1) fuel :=
  thin_negative_fixpoint (fun _ _ => ones 1 1) (ones 1 1) (-1) 1 (by decide) (by decide)
    (fun j hj => by
      have hj0 : j = 0 := by omega
      subst hj0
      decide)

/-! ## The elliptical mask -/

theorem toInt_half (i : Int) (h : 0 ≤ i) : toInt ((i : ℚ) + 1 / 2) = i := by
  have h0 : (0 : ℚ) ≤ (i : ℚ) + 1 / 2 := by
    have : (0 : ℚ) ≤ (i : ℚ) := by exact_mod_cast h
    linarith
  unfold toInt
  rw [if_pos h0]
  show ⌊(i : ℚ) + 1 / 2⌋ = i
  rw [Int.floor_eq_iff]
  constructor <;> linarith

/-- Over the reals, without rounding, the test of the source,
`c > a - x && c < a + x` with `x = a*sqrt(1-(r-b)*(r-b)/(b*b))`, is the
square-root-free inequality `(c-a)^2 < a^2 * (1-(r-b)*(r-b)/(b*b))`. -/
theorem ellipse_test_iff_sqrt (a b r c : ℚ) (ha : 0 < a) :
    (c - a) ^ 2 < a ^ 2 * (1 - (r - b) * (r - b) / (b * b)) ↔
      (c : ℝ) > (a : ℝ) - (a : ℝ) * Real.sqrt (1 - ((r : ℝ) - b) * ((r : ℝ) - b) / ((b : ℝ) * b)) ∧
        (c : ℝ) < (a : ℝ) + (a : ℝ) * Real.sqrt (1 - ((r : ℝ) - b) * ((r : ℝ) - b) / ((b : ℝ) * b)) := by
  have ha' : (0 : ℝ) < (a : ℝ) := by exact_mod_cast ha
  have hq : (c - a) ^ 2 < a ^ 2 * (1 - (r - b) * (r - b) / (b * b)) ↔
      ((c : ℝ) - a) ^ 2 < (a : ℝ) ^ 2 * (1 - ((r : ℝ) - b) * ((r : ℝ) - b) / ((b : ℝ) * b)) := by
    constructor
    · intro h
      have : (((c - a) ^ 2 : ℚ) : ℝ) < ((a ^ 2 * (1 - (r - b) * (r - b) / (b * b)) : ℚ) : ℝ) :=
        Rat.cast_lt.mpr h
      push_cast at this
      exact this
    · intro h
      have : (((c - a) ^ 2 : ℚ) : ℝ) < ((a ^ 2 * (1 - (r - b) * (r - b) / (b * b)) : ℚ) : ℝ) := by
        push_cast
        exact h
      exact Rat.cast_lt.mp this
  rw [hq]
  generalize (1 - ((r : ℝ) - b) * ((r : ℝ) - b) / ((b : ℝ) * b)) = q
  have hx : 0 ≤ (a : ℝ) * Real.sqrt q := mul_nonneg ha'.le (Real.sqrt_nonneg q)
  have hsq : ((a : ℝ) * Real.sqrt q) ^ 2 = (a : ℝ) ^ 2 * max q 0 := by
    rw [mul_pow]
    congr 1
    rcases le_total 0 q with h | h
    · rw [Real.sq_sqrt h, max_eq_left h]
    · rw [Real.sqrt_eq_zero_of_nonpos h, max_eq_right h]
      norm_num
  constructor
  · intro h
    have hqpos : 0 < q := by
      by_contra hn
      have : (a : ℝ) ^ 2 * q ≤ 0 := mul_nonpos_of_nonneg_of_nonpos (sq_nonneg _) (le_of_not_lt hn)
      nlinarith [sq_nonneg ((c : ℝ) - a)]
    have h2 : ((c : ℝ) - a) ^ 2 < ((a : ℝ) * Real.sqrt q) ^ 2 := by
      rw [hsq, max_eq_left hqpos.le]
      exact h
    have h3 := abs_lt_of_sq_lt_sq h2 hx
    rw [abs_lt] at h3
    constructor <;> linarith [h3.1, h3.2]
  · rintro ⟨h1, h2⟩
    have h4 : ((c : ℝ) - a) ^ 2 < ((a : ℝ) * Real.sqrt q) ^ 2 :=
      sq_lt_sq' (by linarith) (by linarith)
    rw [hsq] at h4
    have hqpos : 0 < q := by
      by_contra hn
      rw [max_eq_right (le_of_not_lt hn)] at h4
      nlinarith [sq_nonneg ((c : ℝ) - a)]
    rw [max_eq_left hqpos.le] at h4
    exact h4

theorem ellipse_test_iff (rows cols r c : Int) (hr : 1 ≤ rows) (hc : 1 ≤ cols) :
    ((c : ℚ) + 1 / 2 - (cols : ℚ) / 2) ^ 2 <
        ((cols : ℚ) / 2) ^ 2 * (1 - ((r : ℚ) + 1 / 2 - (rows : ℚ) / 2) *
          ((r : ℚ) + 1 / 2 - (rows : ℚ) / 2) / ((rows : ℚ) / 2 * ((rows : ℚ) / 2))) ↔
      InEllipse rows cols r c := by
  have ha : (0 : ℚ) < (cols : ℚ) / 2 := by
    have : (1 : ℚ) ≤ (cols : ℚ) := by exact_mod_cast hc
    linarith
  have hb : (0 : ℚ) < (rows : ℚ) / 2 := by
    have : (1 : ℚ) ≤ (rows : ℚ) := by exact_mod_cast hr
    linarith
  unfold InEllipse
  generalize (cols : ℚ) / 2 = a at ha ⊢
  generalize (rows : ℚ) / 2 = b at hb ⊢
  generalize (c : ℚ) + 1 / 2 = x
  generalize (r : ℚ) + 1 / 2 = y
  have ha2 : 0 < a ^ 2 := by positivity
  have e1 : ((x - a) / a) ^ 2 + ((y - b) / b) ^ 2 < 1 ↔
      (x - a) ^ 2 / a ^ 2 < 1 - (y - b) * (y - b) / (b * b) := by
    rw [div_pow, div_pow, sq (y - b), sq b]
    constructor <;> intro h <;> linarith
  rw [e1, div_lt_iff₀ ha2, mul_comm]

theorem inEllipse_flip_rows (rows cols r c : Int) :
    InEllipse rows cols (rows - 1 - r) c ↔ InEllipse rows cols r c := by
  unfold InEllipse
  have : (((rows - 1 - r : Int) : ℚ) + 1 / 2 - (rows : ℚ) / 2) =
      -((r : ℚ) + 1 / 2 - (rows : ℚ) / 2) := by
    push_cast
    ring
  rw [this, neg_div, neg_sq]

theorem inEllipse_flip_cols (rows cols r c : Int) :
    InEllipse rows cols r (cols - 1 - c) ↔ InEllipse rows cols r c := by
  unfold InEllipse
  have : (((cols - 1 - c : Int) : ℚ) + 1 / 2 - (cols : ℚ) / 2) =
      -((c : ℚ) + 1 / 2 - (cols : ℚ) / 2) := by
    push_cast
    ring
  rw [this, neg_div, neg_sq]

/-- In exact arithmetic the test of the source at the centre of a cell is the
ellipse of the spec: without rounding, `c > a - x && c < a + x` with
`x = a*sqrt(1-(r-b)*(r-b)/(b*b))`, `a = cols/2`, `b = rows/2`, at `r + 1/2` and
`c + 1/2`, holds exactly when the centre of cell `(r, c)` lies strictly inside
the ellipse; and the ellipse is symmetric about its centre row and column. -/
theorem inEllipse_iff_sqrt (rows cols r c : Int) (hr : 1 ≤ rows) (hc : 1 ≤ cols) :
    (InEllipse rows cols r c ↔
        ((((c : ℚ) + 1 / 2 : ℚ) : ℝ) > (((cols : ℚ) / 2 : ℚ) : ℝ) -
            (((cols : ℚ) / 2 : ℚ) : ℝ) * Real.sqrt (1 -
              ((((r : ℚ) + 1 / 2 : ℚ) : ℝ) - (((rows : ℚ) / 2 : ℚ) : ℝ)) *
                ((((r : ℚ) + 1 / 2 : ℚ) : ℝ) - (((rows : ℚ) / 2 : ℚ) : ℝ)) /
                  ((((rows : ℚ) / 2 : ℚ) : ℝ) * (((rows : ℚ) / 2 : ℚ) : ℝ))) ∧
          (((c : ℚ) + 1 / 2 : ℚ) : ℝ) < (((cols : ℚ) / 2 : ℚ) : ℝ) +
            (((cols : ℚ) / 2 : ℚ) : ℝ) * Real.sqrt (1 -
              ((((r : ℚ) + 1 / 2 : ℚ) : ℝ) - (((rows : ℚ) / 2 : ℚ) : ℝ)) *
                ((((r : ℚ) + 1 / 2 : ℚ) : ℝ) - (((rows : ℚ) / 2 : ℚ) : ℝ)) /
                  ((((rows : ℚ) / 2 : ℚ) : ℝ) * (((rows : ℚ) / 2 : ℚ) : ℝ))))) ∧
      (InEllipse rows cols (rows - 1 - r) c ↔ InEllipse rows cols r c) ∧
      (InEllipse rows cols r (cols - 1 - c) ↔ InEllipse rows cols r c) := by
  have ha : (0 : ℚ) < (cols : ℚ) / 2 := by
    have : (1 : ℚ) ≤ (cols : ℚ) := by exact_mod_cast hc
    linarith
  refine ⟨?_, inEllipse_flip_rows rows cols r c, inEllipse_flip_cols rows cols r c⟩
  rw [← ellipse_test_iff rows cols r c hr hc]
  exact ellipse_test_iff_sqrt _ _ _ _ ha

theorem setOne_step (R C : Nat) (r c : Int) (h1 : 0 ≤ r) (h2 : r < R) (h3 : 0 ≤ c)
    (h4 : c < C) :
    Accum (EGood R C) EOne (setOne r c) (fun a => a = (r, c)) := by
  rintro w ⟨hok, hR, hC, hbin⟩
  have hin : w.result.inb r c = true := by
    rw [inb_iff, hR, hC]
    exact ⟨h1, h2, h3, h4⟩
  refine ⟨⟨?_, hR, hC, fun i j => ?_⟩, fun a => ?_⟩
  · show (w.ok && w.result.inb r c) = true
    rw [hok, hin]
    rfl
  · show (if i = r ∧ j = c then (1 : Int) else w.result.cell i j) = 0 ∨
      (if i = r ∧ j = c then (1 : Int) else w.result.cell i j) = 1
    by_cases h : i = r ∧ j = c
    · rw [if_pos h]
      exact Or.inr rfl
    · rw [if_neg h]
      exact hbin i j
  · show (if a.1 = r ∧ a.2 = c then (1 : Int) else w.result.cell a.1 a.2) = 1 ↔
      (w.result.cell a.1 a.2 = 1 ∨ a = (r, c))
    by_cases h : a.1 = r ∧ a.2 = c
    · rw [if_pos h]
      exact ⟨fun _ => Or.inr (Prod.ext h.1 h.2), fun _ => rfl⟩
    · rw [if_neg h]
      constructor
      · exact fun h => Or.inl h
      · rintro (h' | h')
        · exact h'
        · exact absurd ⟨congrArg Prod.fst h', congrArg Prod.snd h'⟩ h

theorem ellipseRow_step (R C : Nat) (a b : ℚ) (i : Int) (hi0 : 0 ≤ i) (hi1 : i < R) :
    Accum (EGood R C) EOne
      (fun w =>
        match ellipseBounds a b ((i : ℚ) + 1 / 2) with
        | none => w
        | some bounds =>
          forUp 0 (C : Int)
            (fun j w =>
              if (j : ℚ) + 1 / 2 > bounds.1 ∧ (j : ℚ) + 1 / 2 < bounds.2 then
                setOne (toInt ((i : ℚ) + 1 / 2)) (toInt ((j : ℚ) + 1 / 2)) w
              else w) w)
      (fun p => ∃ bounds, ellipseBounds a b ((i : ℚ) + 1 / 2) = some bounds ∧
        ∃ j : Int, 0 ≤ j ∧ j < C ∧
          ((j : ℚ) + 1 / 2 > bounds.1 ∧ (j : ℚ) + 1 / 2 < bounds.2) ∧ p = (i, j)) := by
  cases h : ellipseBounds a b ((i : ℚ) + 1 / 2) with
  | none =>
    exact accum_congr (accum_skip _ _) (fun p => by simp)
  | some bounds =>
    have hcell : ∀ j : Int, 0 ≤ j → j < C →
        Accum (EGood R C) EOne
          (fun w =>
            if (j : ℚ) + 1 / 2 > bounds.1 ∧ (j : ℚ) + 1 / 2 < bounds.2 then
              setOne (toInt ((i : ℚ) + 1 / 2)) (toInt ((j : ℚ) + 1 / 2)) w
            else w)
          (fun p => ((j : ℚ) + 1 / 2 > bounds.1 ∧ (j : ℚ) + 1 / 2 < bounds.2) ∧ p = (i, j)) := by
      intro j hj0 hj1
      rw [toInt_half i hi0, toInt_half j hj0]
      by_cases ht : (j : ℚ) + 1 / 2 > bounds.1 ∧ (j : ℚ) + 1 / 2 < bounds.2
      · simp only [ht, and_self, if_true]
        exact accum_congr (setOne_step R C i j hi0 hi1 hj0 hj1) (fun p => by simp)
      · simp only [ht, if_false]
        exact accum_congr (accum_skip _ _) (fun p => by simp)
    have hloop : Accum (EGood R C) EOne
        (forUp 0 (C : Int)
          (fun j w =>
            if (j : ℚ) + 1 / 2 > bounds.1 ∧ (j : ℚ) + 1 / 2 < bounds.2 then
              setOne (toInt ((i : ℚ) + 1 / 2)) (toInt ((j : ℚ) + 1 / 2)) w
            else w))
        (fun p => ∃ j : Int, 0 ≤ j ∧ j < C ∧
          ((j : ℚ) + 1 / 2 > bounds.1 ∧ (j : ℚ) + 1 / 2 < bounds.2) ∧ p = (i, j)) :=
      accum_forUp 0 (C : Int) (fun j hj0 hj1 => hcell j hj0 hj1)
    refine accum_congr hloop (fun p => ?_)
    constructor
    · intro hp
      exact ⟨bounds, rfl, hp⟩
    · rintro ⟨bt, hbt, hp⟩
      have : bt = bounds := (Option.some.inj hbt).symm
      subst this
      exact hp

/-- The cells the elliptical generator sets on a zero-filled mask: it writes in
bounds, and cell `(r, c)` is 1 exactly when the test `c > bottom && c < top` of
its row holds at `c + 1/2`. -/
theorem ellipticalMask_spec (mask : Matrix) (hz : ∀ i j : Int, mask.cell i j = 0) :
    EGood mask.rows mask.cols (ellipticalMask mask) ∧
      ∀ r c : Int, (ellipticalMask mask).result.cell r c = 1 ↔
        (0 ≤ r ∧ r < mask.rows ∧ 0 ≤ c ∧ c < mask.cols ∧
          ∃ bounds,
            ellipseBounds (binary64 (((mask.cols : Int) : ℚ) / 2))
              (binary64 (((mask.rows : Int) : ℚ) / 2)) ((r : ℚ) + 1 / 2) = some bounds ∧
            (c : ℚ) + 1 / 2 > bounds.1 ∧ (c : ℚ) + 1 / 2 < bounds.2) := by
  have hloops : Accum (EGood mask.rows mask.cols) EOne
      (forUp 0 (mask.rows : Int)
        (fun i w =>
          match ellipseBounds (binary64 (((mask.cols : Int) : ℚ) / 2))
              (binary64 (((mask.rows : Int) : ℚ) / 2)) ((i : ℚ) + 1 / 2) with
          | none => w
          | some bounds =>
            forUp 0 (mask.cols : Int)
              (fun j w =>
                if (j : ℚ) + 1 / 2 > bounds.1 ∧ (j : ℚ) + 1 / 2 < bounds.2 then
                  setOne (toInt ((i : ℚ) + 1 / 2)) (toInt ((j : ℚ) + 1 / 2)) w
                else w) w))
      (fun p => ∃ i : Int, 0 ≤ i ∧ i < mask.rows ∧
        ∃ bounds, ellipseBounds (binary64 (((mask.cols : Int) : ℚ) / 2))
            (binary64 (((mask.rows : Int) : ℚ) / 2)) ((i : ℚ) + 1 / 2) = some bounds ∧
          ∃ j : Int, 0 ≤ j ∧ j < mask.cols ∧
            ((j : ℚ) + 1 / 2 > bounds.1 ∧ (j : ℚ) + 1 / 2 < bounds.2) ∧ p = (i, j)) :=
    accum_forUp 0 (mask.rows : Int) (fun i hi0 hi1 =>
      ellipseRow_step mask.rows mask.cols _ _ i hi0 hi1)
  have hstart : EGood mask.rows mask.cols ⟨mask, true⟩ :=
    ⟨rfl, rfl, rfl, fun i j => Or.inl (hz i j)⟩
  have hres := hloops ⟨mask, true⟩ hstart
  refine ⟨hres.1, fun r c => ?_⟩
  refine Iff.trans (hres.2 (r, c)) ?_
  constructor
  · rintro (h | ⟨i, hi0, hi1, bounds, hb, j, hj0, hj1, ht, heq⟩)
    · exact absurd h (by show ¬ (mask.cell r c = 1); rw [hz]; decide)
    · have e1 : r = i := congrArg Prod.fst heq
      have e2 : c = j := congrArg Prod.snd heq
      subst e1 e2
      exact ⟨hi0, hi1, hj0, hj1, bounds, hb, ht.1, ht.2⟩
  · rintro ⟨h1, h2, h3, h4, bounds, hb, ht1, ht2⟩
    exact Or.inr ⟨r, h1, h2, bounds, hb, c, h3, h4, ⟨ht1, ht2⟩, rfl⟩

theorem ellipse_bounds_values :
    ellipseBounds (binary64 ((((50843527 : Nat) : Int) : ℚ) / 2))
        (binary64 ((((2 : Nat) : Int) : ℚ) / 2)) (((0 : Int) : ℚ) + 1 / 2) =
      some (914256400744447 / 268435456, 94875313 / 2) := by
  decide!


/-- C23, failing input: `createMask(Elliptical, 2, 50843527)` in IEEE 754 double
precision.  In row 0 the generator computes `bottom = a-x = 3405870.4999999963`
and `top = a+x = 47437656.5`, the exact sum `47437656.50000000372...` being
rounded down; it writes in bounds, sets cell `(0, 3405870)` and leaves its
mirror image `(0, cols-1-3405870) = (0, 47437656)` unset, although the centres
of both cells lie strictly inside the ellipse.  The 5 by 5 mask of the spec's
concrete case is symmetric. -/
theorem elliptical_failing_input :
    (createMask MaskType.EllipticalMask 2 50843527).ok = true ∧
      (createMask MaskType.EllipticalMask 2 50843527).result.cell 0 3405870 = 1 ∧
      (createMask MaskType.EllipticalMask 2 50843527).result.cell 0
        (50843527 - 1 - 3405870) = 0 ∧
      InEllipse 2 50843527 0 3405870 ∧ InEllipse 2 50843527 0 (50843527 - 1 - 3405870) ∧
      ([0, 1, 2, 3, 4] : List Int).map (fun r => ([0, 1, 2, 3, 4] : List Int).map (fun c =>
          (createMask MaskType.EllipticalMask 5 5).result.cell r c)) =
        [[0, 1, 1, 1, 0], [1, 1, 1, 1, 1], [1, 1, 1, 1, 1], [1, 1, 1, 1, 1],
          [0, 1, 1, 1, 0]] := by
  have hdef : createMask MaskType.EllipticalMask 2 50843527 =
      ellipticalMask (Matrix.zero 2 50843527) := by
    unfold createMask
    rw [if_neg (by decide), if_neg (by decide)]
    rfl
  obtain ⟨⟨hok, _, _, hbin⟩, hcell⟩ :=
    ellipticalMask_spec (Matrix.zero 2 50843527) (fun _ _ => rfl)
  have hb : ellipseBounds (binary64 ((((Matrix.zero 2 50843527).cols : Int) : ℚ) / 2))
      (binary64 ((((Matrix.zero 2 50843527).rows : Int) : ℚ) / 2)) (((0 : Int) : ℚ) + 1 / 2) =
      some (914256400744447 / 268435456, 94875313 / 2) := ellipse_bounds_values
  refine ⟨by rw [hdef]; exact hok, ?_, ?_, by decide!, by decide!, by decide!⟩
  · rw [hdef]
    refine (hcell 0 3405870).mpr ⟨le_refl 0, by decide, by decide, by decide,
      _, hb, ?_, ?_⟩
    · norm_num
    · norm_num
  · rw [hdef]
    rcases hbin 0 (50843527 - 1 - 3405870) with h | h
    · exact h
    · exfalso
      obtain ⟨_, _, _, _, bounds, hbd, _, ht2⟩ := (hcell 0 (50843527 - 1 - 3405870)).mp h
      rw [hb] at hbd
      have e : bounds = (914256400744447 / 268435456, 94875313 / 2) :=
        (Option.some.inj hbd).symm
      rw [e] at ht2
      norm_num at ht2

/-! ## The diamond mask without rounding -/

theorem toInt_nonneg (x : ℚ) (h : 0 ≤ x) : toInt x = ⌊x⌋ := by
  unfold toInt
  rw [if_pos h]
  rfl

theorem toInt_nonpos (x : ℚ) (h : x ≤ 0) : toInt x = -⌊-x⌋ := by
  unfold toInt
  by_cases h0 : 0 ≤ x
  · have : x = 0 := le_antisymm h h0
    subst this
    simp
    rfl
  · rw [if_neg h0]
    rfl

theorem toInt_intCast (z : Int) : toInt (z : ℚ) = z := by
  by_cases h : (0 : ℚ) ≤ (z : ℚ)
  · rw [toInt_nonneg _ h, Int.floor_intCast]
  · rw [toInt_nonpos _ (le_of_lt (not_le.mp h)), ← Int.cast_neg, Int.floor_intCast, neg_neg]

theorem loopDown_accumulator {σ : Type} (f : Int → ℚ → σ → σ) (step : ℚ) (n : Nat) :
    ∀ (t : ℚ) (s : σ),
      loopDown (fun r (p : σ × ℚ) => (f r p.2 p.1, p.2 + step)) n (s, t) =
        (loopDown (fun r s => f r (t + ((n : ℚ) - 1 - (r : ℚ)) * step) s) n s,
          t + (n : ℚ) * step) := by
  induction n with
  | zero =>
    intro t s
    simp [loopDown]
  | succ n ih =>
    intro t s
    simp only [loopDown]
    rw [ih]
    have e1 : t + (((n + 1 : Nat) : ℚ) - 1 - ((n : Int) : ℚ)) * step = t := by
      push_cast
      ring
    have e2 : (fun (r : Int) (s : σ) => f r (t + step + ((n : ℚ) - 1 - (r : ℚ)) * step) s) =
        (fun (r : Int) (s : σ) => f r (t + (((n + 1 : Nat) : ℚ) - 1 - (r : ℚ)) * step) s) := by
      funext r s
      congr 1
      push_cast
      ring
    rw [e1, e2]
    congr 1
    push_cast
    ring

theorem loopUp_accumulator {σ : Type} (f : Int → ℚ → σ → σ) (step : ℚ) (n : Nat) :
    ∀ (i : Int) (t : ℚ) (s : σ),
      loopUp (fun r (p : σ × ℚ) => (f r p.2 p.1, p.2 + step)) n i (s, t) =
        (loopUp (fun r s => f r (t + ((r : ℚ) - (i : ℚ)) * step) s) n i s,
          t + (n : ℚ) * step) := by
  induction n with
  | zero =>
    intro i t s
    simp [loopUp]
  | succ n ih =>
    intro i t s
    simp only [loopUp]
    rw [ih]
    have e1 : t + ((i : ℚ) - (i : ℚ)) * step = t := by ring
    have e2 : (fun (r : Int) (s : σ) =>
        f r (t + step + ((r : ℚ) - ((i + 1 : Int) : ℚ)) * step) s) =
        (fun (r : Int) (s : σ) => f r (t + ((r : ℚ) - (i : ℚ)) * step) s) := by
      funext r s
      congr 1
      push_cast
      ring
    rw [e1, e2]
    congr 1
    push_cast
    ring

theorem diamondRow_step (R C : Nat) (r : Int) (t : ℚ) (hr0 : 0 ≤ r) (hr1 : r < R)
    (ht0 : 0 ≤ t) (ht1 : t ≤ ((C : Int) : ℚ) / 2) :
    Accum (EGood R C) EOne
      (diamondRow (fun x => x) (C : Int) (((C : Int) / 2 : Int) : ℚ) t r)
      (fun a => a.1 = r ∧
        (C : Int) / 2 - ⌊((((C : Int) / 2 : Int) : ℚ)) + 1 / 2 - t⌋ ≤ a.2 ∧
        a.2 < (C : Int) - (C : Int) / 2 + ⌊((((C : Int) / 2 : Int) : ℚ)) + 1 / 2 - t⌋) := by
  have hK1 : (2 : Int) * ((C : Int) / 2) ≤ (C : Int) := by omega
  have hK2 : (C : Int) ≤ 2 * ((C : Int) / 2) + 1 := by omega
  generalize (C : Int) / 2 = K at *
  have hK1q : (2 : ℚ) * (K : ℚ) ≤ ((C : Int) : ℚ) := by exact_mod_cast hK1
  have hK2q : ((C : Int) : ℚ) ≤ 2 * (K : ℚ) + 1 := by exact_mod_cast hK2
  generalize hm : ⌊(K : ℚ) + 1 / 2 - t⌋ = m
  have hm0 : 0 ≤ m := by
    rw [← hm]
    exact Int.floor_nonneg.mpr (by linarith)
  have hm1 : m ≤ K := by
    rw [← hm]
    have : ⌊(K : ℚ) + 1 / 2 - t⌋ < K + 1 := by
      rw [Int.floor_lt]
      push_cast
      linarith
    omega
  have hlo : toInt (t - (K : ℚ) - 1 / 2) = -m := by
    rw [toInt_nonpos _ (by linarith), ← hm]
    congr 2
    ring
  have hhi : toInt ((((C : Int) : ℚ)) - t - (K : ℚ) + 1 / 2) = (C : Int) - 2 * K + m := by
    rw [toInt_nonneg _ (by linarith), ← hm]
    have : (((C : Int) : ℚ)) - t - (K : ℚ) + 1 / 2 =
        (((C : Int) - 2 * K : Int) : ℚ) + ((K : ℚ) + 1 / 2 - t) := by
      push_cast
      ring
    rw [this, Int.floor_int_add]
  unfold diamondRow
  dsimp only
  rw [hlo, hhi]
  have hloop : Accum (EGood R C) EOne
      (forUp (-m) ((C : Int) - 2 * K + m) (fun c w => setOne r (toInt ((c : ℚ) + (K : ℚ))) w))
      (fun a => ∃ c, -m ≤ c ∧ c < (C : Int) - 2 * K + m ∧ a = (r, c + K)) :=
    accum_forUp _ _ (fun c hc1 hc2 => by
      have e : (c : ℚ) + (K : ℚ) = ((c + K : Int) : ℚ) := by push_cast; rfl
      rw [e, toInt_intCast]
      exact setOne_step R C r (c + K) hr0 hr1 (by omega) (by omega))
  refine accum_congr hloop (fun a => ?_)
  constructor
  · rintro ⟨c, hc1, hc2, rfl⟩
    exact ⟨rfl, by show K - m ≤ c + K; omega, by show c + K < (C : Int) - K + m; omega⟩
  · rintro ⟨h1, h2, h3⟩
    exact ⟨a.2 - K, by omega, by omega, Prod.ext h1 (by show a.2 = a.2 - K + K; omega)⟩

theorem diamondMask_exact_eq (mask : Matrix) (hR : 1 ≤ mask.rows) :
    diamondMask (fun x => x) mask =
      forUp ((mask.rows : Int) / 2) (mask.rows : Int)
        (fun r w => diamondRow (fun x => x) (mask.cols : Int) (((mask.cols : Int) / 2 : Int) : ℚ)
          (0 + ((r : ℚ) - (((mask.rows : Int) / 2 : Int) : ℚ)) *
            ((((mask.cols : Int) : ℚ) / 2) / (((mask.rows : Int) : ℚ) / 2))) r w)
        (loopDown
          (fun r w => diamondRow (fun x => x) (mask.cols : Int) (((mask.cols : Int) / 2 : Int) : ℚ)
            (0 + ((((((mask.rows : Int) - 1) / 2 + 1).toNat : Nat) : ℚ) - 1 - (r : ℚ)) *
              ((((mask.cols : Int) : ℚ) / 2) / (((mask.rows : Int) : ℚ) / 2))) r w)
          (((mask.rows : Int) - 1) / 2 + 1).toNat ⟨mask, true⟩) := by
  have hR' : (1 : Int) ≤ (mask.rows : Int) := by exact_mod_cast hR
  unfold diamondMask
  dsimp only
  have eU : (if (mask.rows : Int) % 2 = 0 then (mask.rows : Int) / 2 - 1
      else (mask.rows : Int) / 2) = ((mask.rows : Int) - 1) / 2 := by
    split_ifs <;> omega
  rw [eU]
  have eD : (if (mask.rows : Int) % 2 = 0 then ((mask.rows : Int) - 1) / 2 + 1
      else ((mask.rows : Int) - 1) / 2) = (mask.rows : Int) / 2 := by
    split_ifs <;> omega
  rw [eD]
  have h1 := loopDown_accumulator
    (fun r t w => diamondRow (fun x => x) (mask.cols : Int) (((mask.cols : Int) / 2 : Int) : ℚ)
      t r w)
    ((((mask.cols : Int) : ℚ) / 2) / (((mask.rows : Int) : ℚ) / 2))
    (((mask.rows : Int) - 1) / 2 + 1).toNat 0 ⟨mask, true⟩
  rw [h1]
  unfold forUp
  have h2 := loopUp_accumulator
    (fun r t w => diamondRow (fun x => x) (mask.cols : Int) (((mask.cols : Int) / 2 : Int) : ℚ)
      t r w)
    ((((mask.cols : Int) : ℚ) / 2) / (((mask.rows : Int) : ℚ) / 2))
    ((mask.rows : Int) - (mask.rows : Int) / 2).toNat ((mask.rows : Int) / 2) 0
  rw [h2]

theorem diamondRow_halfWidth (R C : Nat) (hR : 1 ≤ R) (r k : Int) (t : ℚ) (hr0 : 0 ≤ r)
    (hr1 : r < R) (hk0 : 0 ≤ k) (hk1 : 2 * k ≤ R)
    (ht : t = (k : ℚ) * ((((C : Int) : ℚ) / 2) / (((R : Int) : ℚ) / 2))) :
    Accum (EGood R C) EOne
      (diamondRow (fun x => x) (C : Int) (((C : Int) / 2 : Int) : ℚ) t r)
      (fun a => a.1 = r ∧ (C : Int) / 2 - halfWidth R C k ≤ a.2 ∧
        a.2 < (C : Int) - (C : Int) / 2 + halfWidth R C k) := by
  have hRq : (0 : ℚ) < ((R : Int) : ℚ) := by
    have : (1 : ℚ) ≤ ((R : Int) : ℚ) := by exact_mod_cast hR
    linarith
  have hCq : (0 : ℚ) ≤ ((C : Int) : ℚ) := by
    have : (0 : Int) ≤ (C : Int) := by omega
    exact_mod_cast this
  have hkq : (0 : ℚ) ≤ (k : ℚ) := by exact_mod_cast hk0
  have hk1q : 2 * (k : ℚ) ≤ ((R : Int) : ℚ) := by exact_mod_cast hk1
  have hstep : (((C : Int) : ℚ) / 2) / (((R : Int) : ℚ) / 2) = ((C : Int) : ℚ) / ((R : Int) : ℚ) := by
    field_simp
  have ht0 : 0 ≤ t := by
    rw [ht, hstep]
    positivity
  have ht1 : t ≤ ((C : Int) : ℚ) / 2 := by
    rw [ht, hstep, ← mul_div_assoc, div_le_div_iff₀ hRq (by norm_num)]
    nlinarith
  have h := diamondRow_step R C r t hr0 hr1 ht0 ht1
  have e : ⌊((((C : Int) / 2 : Int) : ℚ)) + 1 / 2 - t⌋ = halfWidth R C k := by
    rw [ht]
    rfl
  rw [e] at h
  exact h

theorem diamondMask_exact_spec (mask : Matrix) (hR : 1 ≤ mask.rows)
    (hz : ∀ i j : Int, mask.cell i j = 0) :
    EGood mask.rows mask.cols (diamondMask (fun x => x) mask) ∧
      ∀ r c : Int, (diamondMask (fun x => x) mask).result.cell r c = 1 ↔
        (0 ≤ r ∧ r < mask.rows ∧ InDiamond mask.rows mask.cols r c) := by
  have hR' : (1 : Int) ≤ (mask.rows : Int) := by exact_mod_cast hR
  rw [diamondMask_exact_eq mask hR]
  have hn : ((((mask.rows : Int) - 1) / 2 + 1).toNat : Int) = ((mask.rows : Int) - 1) / 2 + 1 := by
    omega
  have hnq : (((((mask.rows : Int) - 1) / 2 + 1).toNat : Nat) : ℚ) =
      ((((mask.rows : Int) - 1) / 2 + 1 : Int) : ℚ) := by
    have e : (((((mask.rows : Int) - 1) / 2 + 1).toNat : Nat) : ℚ) =
        ((((((mask.rows : Int) - 1) / 2 + 1).toNat : Nat) : Int) : ℚ) :=
      (Int.cast_natCast _).symm
    rw [e, hn]
  have hup : Accum (EGood mask.rows mask.cols) EOne
      (loopDown
        (fun r w => diamondRow (fun x => x) (mask.cols : Int) (((mask.cols : Int) / 2 : Int) : ℚ)
          (0 + ((((((mask.rows : Int) - 1) / 2 + 1).toNat : Nat) : ℚ) - 1 - (r : ℚ)) *
            ((((mask.cols : Int) : ℚ) / 2) / (((mask.rows : Int) : ℚ) / 2))) r w)
        (((mask.rows : Int) - 1) / 2 + 1).toNat)
      (fun a => ∃ k : Int, 0 ≤ k ∧ k < ((((mask.rows : Int) - 1) / 2 + 1).toNat : Nat) ∧
        (a.1 = k ∧
          (mask.cols : Int) / 2 -
              halfWidth mask.rows mask.cols (((mask.rows : Int) - 1) / 2 - k) ≤ a.2 ∧
          a.2 < (mask.cols : Int) - (mask.cols : Int) / 2 +
              halfWidth mask.rows mask.cols (((mask.rows : Int) - 1) / 2 - k))) :=
    accum_loopDown _ (fun k hk0 hk1 =>
      diamondRow_halfWidth mask.rows mask.cols hR k (((mask.rows : Int) - 1) / 2 - k) _
        hk0 (by omega) (by omega) (by omega) (by
          rw [hnq]
          push_cast
          ring))
  have hdown : Accum (EGood mask.rows mask.cols) EOne
      (forUp ((mask.rows : Int) / 2) (mask.rows : Int)
        (fun r w => diamondRow (fun x => x) (mask.cols : Int) (((mask.cols : Int) / 2 : Int) : ℚ)
          (0 + ((r : ℚ) - (((mask.rows : Int) / 2 : Int) : ℚ)) *
            ((((mask.cols : Int) : ℚ) / 2) / (((mask.rows : Int) : ℚ) / 2))) r w))
      (fun a => ∃ r : Int, (mask.rows : Int) / 2 ≤ r ∧ r < (mask.rows : Int) ∧
        (a.1 = r ∧
          (mask.cols : Int) / 2 -
              halfWidth mask.rows mask.cols (r - (mask.rows : Int) / 2) ≤ a.2 ∧
          a.2 < (mask.cols : Int) - (mask.cols : Int) / 2 +
              halfWidth mask.rows mask.cols (r - (mask.rows : Int) / 2))) :=
    accum_forUp _ _ (fun r hr0 hr1 =>
      diamondRow_halfWidth mask.rows mask.cols hR r (r - (mask.rows : Int) / 2) _
        (by omega) hr1 (by omega) (by omega) (by
          push_cast
          ring))
  have hstart : EGood mask.rows mask.cols ⟨mask, true⟩ :=
    ⟨rfl, rfl, rfl, fun i j => Or.inl (hz i j)⟩
  have h1 := hup ⟨mask, true⟩ hstart
  have h2 := hdown _ h1.1
  refine ⟨h2.1, fun r c => ?_⟩
  have h3 := h2.2 (r, c)
  have h4 := h1.2 (r, c)
  refine Iff.trans h3 ?_
  rw [h4]
  have h0 : ¬ EOne ⟨mask, true⟩ (r, c) := by
    show ¬ (mask.cell r c = 1)
    rw [hz]
    decide
  unfold InDiamond midDistance
  constructor
  · rintro ((h | ⟨k, hk0, hk1, hrk, hc1, hc2⟩) | ⟨k, hk0, hk1, hrk, hc1, hc2⟩)
    · exact absurd h h0
    · have hrk' : r = k := hrk
      subst hrk'
      refine ⟨hk0, by omega, ?_⟩
      rw [if_pos (by omega)]
      exact ⟨hc1, hc2⟩
    · have hrk' : r = k := hrk
      subst hrk'
      refine ⟨by omega, hk1, ?_⟩
      by_cases hle : r ≤ ((mask.rows : Int) - 1) / 2
      · rw [if_pos hle]
        have e : ((mask.rows : Int) - 1) / 2 - r = r - (mask.rows : Int) / 2 := by omega
        rw [e]
        exact ⟨hc1, hc2⟩
      · rw [if_neg hle]
        exact ⟨hc1, hc2⟩
  · rintro ⟨hr0, hr1, hin⟩
    by_cases hle : r ≤ ((mask.rows : Int) - 1) / 2
    · rw [if_pos hle] at hin
      exact Or.inl (Or.inr ⟨r, hr0, by omega, rfl, hin.1, hin.2⟩)
    · rw [if_neg hle] at hin
      exact Or.inr ⟨r, by omega, hr1, rfl, hin.1, hin.2⟩

theorem midDistance_flip (rows r : Int) :
    midDistance rows (rows - 1 - r) = midDistance rows r := by
  unfold midDistance
  split_ifs <;> omega

theorem inDiamond_flip_rows (rows cols r c : Int) :
    InDiamond rows cols (rows - 1 - r) c ↔ InDiamond rows cols r c := by
  unfold InDiamond
  rw [midDistance_flip rows r]

theorem inDiamond_flip_cols (rows cols r c : Int) :
    InDiamond rows cols r (cols - 1 - c) ↔ InDiamond rows cols r c := by
  unfold InDiamond
  constructor <;> rintro ⟨h1, h2⟩ <;> constructor <;> omega

/-- Run without rounding on the zero-filled `rows` by `cols` mask, the diamond
generator writes in bounds and its mask `M` is the rhombus: for every
`rows >= 1` and `cols >= 1` it is a `rows` by `cols` grid with
`M(r, c) = M(rows-1-r, c) = M(r, cols-1-c)` for every cell, cell `(r, c)` being
set exactly when `c` is within the half-width of row `r` around the centre
column. -/
theorem diamond_exact_symmetric (rows cols : Int) (hr : 1 ≤ rows) (hc : 1 ≤ cols) :
    (diamondMask (fun x => x) (Matrix.zero rows.toNat cols.toNat)).ok = true ∧
      ((diamondMask (fun x => x) (Matrix.zero rows.toNat cols.toNat)).result.rows : Int) = rows ∧
      ((diamondMask (fun x => x) (Matrix.zero rows.toNat cols.toNat)).result.cols : Int) = cols ∧
      ∀ r c : Int, 0 ≤ r → r < rows → 0 ≤ c → c < cols →
        (diamondMask (fun x => x) (Matrix.zero rows.toNat cols.toNat)).result.cell r c =
            (diamondMask (fun x => x) (Matrix.zero rows.toNat cols.toNat)).result.cell (rows - 1 - r) c ∧
          (diamondMask (fun x => x) (Matrix.zero rows.toNat cols.toNat)).result.cell r c =
            (diamondMask (fun x => x) (Matrix.zero rows.toNat cols.toNat)).result.cell r (cols - 1 - c) ∧
          ((diamondMask (fun x => x) (Matrix.zero rows.toNat cols.toNat)).result.cell r c =
              if InDiamond rows cols r c then 1 else 0) := by
  have hR : ((rows.toNat : Nat) : Int) = rows := by omega
  have hC : ((cols.toNat : Nat) : Int) = cols := by omega
  obtain ⟨⟨hok, hrows, hcols, hbin⟩, hcell⟩ :=
    diamondMask_exact_spec (Matrix.zero rows.toNat cols.toNat)
      (by show 1 ≤ rows.toNat; omega) (fun _ _ => rfl)
  have hcell' : ∀ r c : Int,
      (diamondMask (fun x => x) (Matrix.zero rows.toNat cols.toNat)).result.cell r c = 1 ↔
        (0 ≤ r ∧ r < rows ∧ InDiamond rows cols r c) := by
    intro r c
    have := hcell r c
    simp only [Matrix.zero] at this
    rw [hR, hC] at this
    exact this
  have hval : ∀ r c : Int, 0 ≤ r → r < rows →
      (diamondMask (fun x => x) (Matrix.zero rows.toNat cols.toNat)).result.cell r c =
        if InDiamond rows cols r c then 1 else 0 := by
    intro r c h1 h2
    by_cases hin : InDiamond rows cols r c
    · rw [if_pos hin]
      exact (hcell' r c).mpr ⟨h1, h2, hin⟩
    · rw [if_neg hin]
      rcases hbin r c with h | h
      · exact h
      · exact absurd ((hcell' r c).mp h).2.2 hin
  refine ⟨hok, by rw [hrows]; exact hR, by rw [hcols]; exact hC, fun r c h1 h2 h3 h4 => ?_⟩
  refine ⟨?_, ?_, hval r c h1 h2⟩
  · rw [hval r c h1 h2, hval (rows - 1 - r) c (by omega) (by omega)]
    simp only [inDiamond_flip_rows]
  · rw [hval r c h1 h2, hval r (cols - 1 - c) h1 h2]
    simp only [inDiamond_flip_cols]

/-! ## The diamond mask in double precision -/

/-- The rounding `binary64` on well-known values: `0.1` and `1.0/3.0` in double
precision, numbers that need no rounding, and two ties. -/
theorem binary64_known_values :
    binary64 (1 / 10) = 3602879701896397 / 36028797018963968 ∧
      binary64 (-1 / 10) = -3602879701896397 / 36028797018963968 ∧
      binary64 (1 / 3) = 6004799503160661 / 18014398509481984 ∧
      binary64 (1 / 2) = 1 / 2 ∧
      binary64 3 = 3 ∧
      binary64 (2 ^ 53 + 1) = 2 ^ 53 ∧
      binary64 (2 ^ 53 + 3) = 2 ^ 53 + 4 := by
  decide!

/-- The values of the failing run in double precision: `step = 1.0/18.0`, the
sum `temp` of nine of them, which is one unit in the last place above `0.5`, and
the two loop bounds of the row it reaches. -/
theorem binary64_values :
    binary64 (binary64 (2 / 2) / binary64 (36 / 2)) =
        2001599834386887 / 36028797018963968 ∧
      (fun t => binary64 (t + 2001599834386887 / 36028797018963968))^[9] 0 =
        4503599627370497 / 9007199254740992 ∧
      toInt (binary64 (binary64 (4503599627370497 / 9007199254740992 - 1) - 1 / 2)) = 0 ∧
      toInt (binary64 (binary64 (binary64 (2 - 4503599627370497 / 9007199254740992) - 1) +
        1 / 2)) = 1 ∧
      toInt ((1 : ℚ) / 2 - 1 - 1 / 2) = -1 ∧
      toInt ((2 : ℚ) - 1 / 2 - 1 + 1 / 2) = 1 := by
  decide!

/-- C24, failing input: `createMask(Diamond, 36, 2)` runs the diamond generator
in IEEE 754 double precision on the zero-filled 36 by 2 mask.  The generator
writes (in bounds) column 1 of row 8 and leaves column 0 of that row unset, and
likewise in row 27, so the mask is not symmetric about its centre column:
`M(8, 0) = 0` and `M(8, 1) = 1`.  Run without rounding, the same generator sets
both cells. -/
theorem diamond_failing_input :
    createMask MaskType.DiamondMask 36 2 = diamondMask binary64 (Matrix.zero 36 2) ∧
      (diamondMask binary64 (Matrix.zero 36 2)).ok = true ∧
      (diamondMask binary64 (Matrix.zero 36 2)).result.cell 8 0 = 0 ∧
      (diamondMask binary64 (Matrix.zero 36 2)).result.cell 8 (2 - 1 - 0) = 1 ∧
      (diamondMask binary64 (Matrix.zero 36 2)).result.cell 27 0 = 0 ∧
      (diamondMask binary64 (Matrix.zero 36 2)).result.cell 27 (2 - 1 - 0) = 1 ∧
      (diamondMask (fun x => x) (Matrix.zero 36 2)).result.cell 8 0 = 1 ∧
      (diamondMask (fun x => x) (Matrix.zero 36 2)).result.cell 8 (2 - 1 - 0) = 1 := by
  refine ⟨rfl, ?_⟩
  decide!

/-! ## The sources `dilate` visits -/

theorem count_loopUp (body : Int → List (Int × Int) → List (Int × Int))
    (F : Int → Int × Int → Nat) (n : Nat) :
    ∀ (lo : Int),
      (∀ k, lo ≤ k → k < lo + n → ∀ s a, (body k s).count a + F k a = s.count a + F (k + 1) a) →
      ∀ s a, (loopUp body n lo s).count a + F lo a = s.count a + F (lo + n) a := by
  induction n with
  | zero =>
    intro lo _ s a
    simp [loopUp]
  | succ n ih =>
    intro lo h s a
    have h1 := h lo (le_refl lo) (by push_cast; omega) s a
    have h2 := ih (lo + 1) (fun k hk1 hk2 => h k (by omega) (by push_cast; omega)) (body lo s) a
    have e : lo + ((n + 1 : Nat) : Int) = lo + 1 + (n : Int) := by push_cast; omega
    rw [e]
    simp only [loopUp]
    omega

theorem tally_forUp (body : Int → List (Int × Int) → List (Int × Int))
    (F : Int → Int × Int → Nat) (Q : Int → Int × Int → Nat) (lo hi : Int) (hle : lo ≤ hi)
    (h0 : ∀ a, F lo a = 0)
    (hF : ∀ k, lo ≤ k → k < hi → ∀ a, F k a + Q k a = F (k + 1) a)
    (hbody : ∀ k, lo ≤ k → k < hi → Tally (body k) (Q k)) :
    Tally (forUp lo hi body) (F hi) := by
  intro s a
  have h := count_loopUp body F (hi - lo).toNat lo
    (fun k hk1 hk2 s a => by
      have h1 := hbody k hk1 (by omega) s a
      have h2 := hF k hk1 (by omega) a
      omega) s a
  have e : lo + (((hi - lo).toNat : Nat) : Int) = hi := by omega
  rw [e, h0 a] at h
  unfold forUp
  omega

theorem tally_congr {f : List (Int × Int) → List (Int × Int)} {q q' : Int × Int → Nat}
    (h : Tally f q) (hq : ∀ a, q a = q' a) : Tally f q' := by
  intro s a
  rw [h s a, hq a]

theorem tally_comp {f g : List (Int × Int) → List (Int × Int)} {q q' : Int × Int → Nat}
    (hf : Tally f q) (hg : Tally g q') : Tally (fun s => g (f s)) (fun a => q a + q' a) := by
  intro s a
  rw [hg (f s) a, hf s a, Nat.add_assoc]

theorem tally_visit (r c : Int) : Tally (visit r c) (inRect r (r + 1) c (c + 1)) := by
  rintro s ⟨i, j⟩
  simp only [visit, List.count_append, List.count_singleton, inRect, beq_iff_eq, Prod.mk.injEq]
  congr 1
  by_cases h : r = i ∧ c = j
  · rw [if_pos h, if_pos (by omega)]
  · rw [if_neg h, if_neg (by omega)]

/-- A loop whose step `k` visits the column `k + off` of the rows `[rLo, rHi)`
once, unless `k + off` has reached `cap`, visits the columns
`[lo + off, cap)` of those rows once. -/
theorem tally_cols (g : Int → List (Int × Int) → List (Int × Int))
    (rLo rHi off cap lo hi : Int) (hle : lo ≤ hi) (hcap : cap ≤ hi + off)
    (hg : ∀ k, lo ≤ k → k < hi → k + off < cap →
      Tally (g k) (inRect rLo rHi (k + off) (k + off + 1))) :
    Tally (forUp lo hi (fun k s => if k + off > cap - 1 then s else g k s))
      (inRect rLo rHi (lo + off) cap) := by
  refine tally_congr
    (tally_forUp _
      (fun k a => if rLo ≤ a.1 ∧ a.1 < rHi ∧ lo + off ≤ a.2 ∧ a.2 < k + off ∧ a.2 < cap
        then 1 else 0)
      (fun k a => if k + off > cap - 1 then 0 else inRect rLo rHi (k + off) (k + off + 1) a)
      lo hi hle (fun a => ?_) (fun k hk1 hk2 a => ?_) (fun k hk1 hk2 => ?_)) (fun a => ?_)
  · dsimp only
    rw [if_neg (by omega)]
  · simp only [inRect]
    split_ifs <;> omega
  · by_cases hb : k + off > cap - 1
    · simp only [hb, if_true]
      intro s a
      rfl
    · simp only [hb, if_false]
      exact hg k hk1 hk2 (by omega)
  · simp only [inRect]
    split_ifs <;> omega

/-- The same for a loop over rows. -/
theorem tally_rows (g : Int → List (Int × Int) → List (Int × Int))
    (cLo cHi off cap lo hi : Int) (hle : lo ≤ hi) (hcap : cap ≤ hi + off)
    (hg : ∀ k, lo ≤ k → k < hi → k + off < cap →
      Tally (g k) (inRect (k + off) (k + off + 1) cLo cHi)) :
    Tally (forUp lo hi (fun k s => if k + off > cap - 1 then s else g k s))
      (inRect (lo + off) cap cLo cHi) := by
  refine tally_congr
    (tally_forUp _
      (fun k a => if lo + off ≤ a.1 ∧ a.1 < k + off ∧ a.1 < cap ∧ cLo ≤ a.2 ∧ a.2 < cHi
        then 1 else 0)
      (fun k a => if k + off > cap - 1 then 0 else inRect (k + off) (k + off + 1) cLo cHi a)
      lo hi hle (fun a => ?_) (fun k hk1 hk2 a => ?_) (fun k hk1 hk2 => ?_)) (fun a => ?_)
  · dsimp only
    rw [if_neg (by omega)]
  · simp only [inRect]
    split_ifs <;> omega
  · by_cases hb : k + off > cap - 1
    · simp only [hb, if_true]
      intro s a
      rfl
    · simp only [hb, if_false]
      exact hg k hk1 hk2 (by omega)
  · simp only [inRect]
    split_ifs <;> omega

theorem loopUp_ext {σ : Type} (f g : Int → σ → σ) (n : Nat) :
    ∀ (lo : Int), (∀ k, lo ≤ k → k < lo + n → ∀ s, f k s = g k s) →
      ∀ s, loopUp f n lo s = loopUp g n lo s := by
  induction n with
  | zero =>
    intro lo _ s
    rfl
  | succ n ih =>
    intro lo h s
    simp only [loopUp]
    rw [h lo (le_refl lo) (by push_cast; omega) s]
    exact ih (lo + 1) (fun k h1 h2 => h k (by omega) (by push_cast; omega)) _

theorem tally_cols_plain (g : Int → List (Int × Int) → List (Int × Int))
    (rLo rHi off lo hi : Int) (hle : lo ≤ hi)
    (hg : ∀ k, lo ≤ k → k < hi → Tally (g k) (inRect rLo rHi (k + off) (k + off + 1))) :
    Tally (forUp lo hi g) (inRect rLo rHi (lo + off) (hi + off)) := by
  have h := tally_cols g rLo rHi off (hi + off) lo hi hle (le_refl _)
    (fun k h1 h2 _ => hg k h1 h2)
  have e : forUp lo hi (fun k s => if k + off > hi + off - 1 then s else g k s) =
      forUp lo hi g := by
    funext s
    unfold forUp
    exact loopUp_ext _ _ _ lo (fun k h1 h2 s => by
      rw [if_neg (by omega)]) s
  rw [e] at h
  exact h

theorem tally_rows_plain (g : Int → List (Int × Int) → List (Int × Int))
    (cLo cHi off lo hi : Int) (hle : lo ≤ hi)
    (hg : ∀ k, lo ≤ k → k < hi → Tally (g k) (inRect (k + off) (k + off + 1) cLo cHi)) :
    Tally (forUp lo hi g) (inRect (lo + off) (hi + off) cLo cHi) := by
  have h := tally_rows g cLo cHi off (hi + off) lo hi hle (le_refl _)
    (fun k h1 h2 _ => hg k h1 h2)
  have e : forUp lo hi (fun k s => if k + off > hi + off - 1 then s else g k s) =
      forUp lo hi g := by
    funext s
    unfold forUp
    exact loopUp_ext _ _ _ lo (fun k h1 h2 s => by
      rw [if_neg (by omega)]) s
  rw [e] at h
  exact h

theorem tally_counter (f : Int → List (Int × Int) → List (Int × Int)) (lo hi e : Int)
    {q : Int × Int → Nat} (h : Tally (forUp lo hi f) q) :
    Tally (fun s => (forUp lo hi
      (fun k (p : List (Int × Int) × Int) => (f k p.1, p.2 - 1)) (s, e)).1) q := by
  have e1 : (fun s => (forUp lo hi
      (fun k (p : List (Int × Int) × Int) => (f k p.1, p.2 - 1)) (s, e)).1) = forUp lo hi f :=
    funext (fun s => forUp_counter (fun k _ s => f k s) lo hi e s)
  rw [e1]
  exact h

theorem tally_counter_brk (brk : Int → Prop) [DecidablePred brk]
    (f : Int → List (Int × Int) → List (Int × Int))
    (atBrk : List (Int × Int) × Int → List (Int × Int) × Int) (hb : ∀ p, (atBrk p).1 = p.1)
    (hmono : ∀ k, brk k → brk (k + 1)) (lo hi e : Int) {q : Int × Int → Nat}
    (h : Tally (forUp lo hi (fun k s => if brk k then s else f k s)) q) :
    Tally (fun s => (forUpBrk lo hi
      (fun k (p : List (Int × Int) × Int) =>
        if brk k then (atBrk p, true) else ((f k p.1, p.2 - 1), false)) (s, e)).1) q := by
  have e1 : (fun s => (forUpBrk lo hi
      (fun k (p : List (Int × Int) × Int) =>
        if brk k then (atBrk p, true) else ((f k p.1, p.2 - 1), false)) (s, e)).1) =
      forUp lo hi (fun k s => if brk k then s else f k s) :=
    funext (fun s => forUpBrk_counter brk (fun k _ s => f k s) atBrk hb hmono lo hi e s)
  rw [e1]
  exact h

theorem inRect_congr {a b c d a' b' c' d' : Int} (h1 : a = a') (h2 : b = b') (h3 : c = c')
    (h4 : d = d') (p : Int × Int) : inRect a b c d p = inRect a' b' c' d' p := by
  subst h1 h2 h3 h4
  rfl

theorem sourcesInterior_tally (image mask : Matrix) (hfit : Fits image mask) :
    Tally (sourcesInterior image mask)
      (inRect ((mask.rows : Int) / 2) ((image.rows : Int) - mask.rows + (mask.rows : Int) / 2 + 1)
        ((mask.cols : Int) / 2)
        ((image.cols : Int) - mask.cols + (mask.cols : Int) / 2 + 1)) := by
  obtain ⟨f1, f2, f3, f4⟩ := hfit
  refine tally_congr
    (tally_rows_plain
      (fun r log => forUp 0 ((image.cols : Int) - mask.cols + 1)
        (fun c log => visit (r + (mask.rows : Int) / 2) (c + (mask.cols : Int) / 2) log) log)
      (0 + (mask.cols : Int) / 2) ((image.cols : Int) - mask.cols + 1 + (mask.cols : Int) / 2)
      ((mask.rows : Int) / 2) 0 ((image.rows : Int) - mask.rows + 1) (by omega)
      (fun r _ _ => tally_cols_plain _ _ _ ((mask.cols : Int) / 2) 0 _ (by omega)
        (fun c _ _ => tally_visit _ _)))
    (fun a => inRect_congr (by omega) (by omega) (by omega) (by omega) a)

theorem sourcesLeft_tally (image mask : Matrix) (hfit : Fits image mask) :
    Tally (sourcesLeft image mask)
      (inRect ((mask.rows : Int) / 2) ((image.rows : Int) - mask.rows + (mask.rows : Int) / 2 + 1)
        0 ((mask.cols : Int) / 2)) := by
  obtain ⟨f1, f2, f3, f4⟩ := hfit
  refine tally_congr
    (tally_counter
      (fun c log => forUp 0 ((image.rows : Int) - mask.rows + 1)
        (fun r log => visit (r + (mask.rows : Int) / 2) c log) log)
      0 ((mask.cols : Int) / 2) ((mask.cols : Int) / 2 + 1)
      (tally_cols_plain _ (0 + (mask.rows : Int) / 2)
        ((image.rows : Int) - mask.rows + 1 + (mask.rows : Int) / 2) 0 0 _ (by omega)
        (fun c _ _ => tally_congr
          (tally_rows_plain _ c (c + 1) ((mask.rows : Int) / 2) 0 _ (by omega)
            (fun r _ _ => tally_visit _ _))
          (fun a => inRect_congr rfl rfl (by omega) (by omega) a))))
    (fun a => inRect_congr (by omega) (by omega) (by omega) (by omega) a)

theorem sourcesRight_tally (image mask : Matrix) (hfit : Fits image mask) :
    Tally (sourcesRight image mask)
      (inRect ((mask.rows : Int) / 2) ((image.rows : Int) - mask.rows + (mask.rows : Int) / 2 + 1)
        ((image.cols : Int) - mask.cols + (mask.cols : Int) / 2 + 1) image.cols) := by
  obtain ⟨f1, f2, f3, f4⟩ := hfit
  refine tally_congr
    (tally_counter_brk
      (fun c => c + (mask.cols : Int) / 2 > (image.cols : Int) - 1)
      (fun c log => forUp 0 ((image.rows : Int) - mask.rows + 1)
        (fun r log => visit (r + (mask.rows : Int) / 2) (c + (mask.cols : Int) / 2) log) log)
      (fun p => (p.1, p.2 - 1)) (fun _ => rfl) (fun k hk => by omega)
      ((image.cols : Int) - mask.cols + 1)
      ((image.cols : Int) - ((mask.cols : Int) - (mask.cols : Int) / 2) + 1) (mask.cols : Int)
      (tally_cols _ (0 + (mask.rows : Int) / 2)
        ((image.rows : Int) - mask.rows + 1 + (mask.rows : Int) / 2) ((mask.cols : Int) / 2)
        (image.cols : Int) _ _ (by omega) (by omega)
        (fun c _ _ _ => tally_congr
          (tally_rows_plain _ (c + (mask.cols : Int) / 2) (c + (mask.cols : Int) / 2 + 1)
            ((mask.rows : Int) / 2) 0 _ (by omega) (fun r _ _ => tally_visit _ _))
          (fun a => inRect_congr rfl rfl rfl rfl a))))
    (fun a => inRect_congr (by omega) (by omega) (by omega) (by omega) a)

theorem sourcesTop_tally (image mask : Matrix) (hfit : Fits image mask) :
    Tally (sourcesTop image mask)
      (inRect 0 ((mask.rows : Int) / 2) ((mask.cols : Int) / 2)
        ((image.cols : Int) - mask.cols + (mask.cols : Int) / 2 + 1)) := by
  obtain ⟨f1, f2, f3, f4⟩ := hfit
  refine tally_congr
    (tally_counter
      (fun r log => forUp 0 ((image.cols : Int) - mask.cols + 1)
        (fun c log => visit r (c + (mask.cols : Int) / 2) log) log)
      0 ((mask.rows : Int) / 2) ((mask.rows : Int) / 2 + 1)
      (tally_rows_plain _ (0 + (mask.cols : Int) / 2)
        ((image.cols : Int) - mask.cols + 1 + (mask.cols : Int) / 2) 0 0 _ (by omega)
        (fun r _ _ => tally_congr
          (tally_cols_plain _ r (r + 1) ((mask.cols : Int) / 2) 0 _ (by omega)
            (fun c _ _ => tally_visit _ _))
          (fun a => inRect_congr (by omega) (by omega) rfl rfl a))))
    (fun a => inRect_congr (by omega) (by omega) (by omega) (by omega) a)

theorem sourcesBottom_tally (image mask : Matrix) (hfit : Fits image mask) :
    Tally (sourcesBottom image mask)
      (inRect ((image.rows : Int) - mask.rows + (mask.rows : Int) / 2 + 1) image.rows
        ((mask.cols : Int) / 2)
        ((image.cols : Int) - mask.cols + (mask.cols : Int) / 2 + 1)) := by
  obtain ⟨f1, f2, f3, f4⟩ := hfit
  refine tally_congr
    (tally_counter_brk
      (fun r => r + (mask.rows : Int) / 2 > (image.rows : Int) - 1)
      (fun r log => forUp 0 ((image.cols : Int) - mask.cols + 1)
        (fun c log => visit (r + (mask.rows : Int) / 2) (c + (mask.cols : Int) / 2) log) log)
      (fun p => p) (fun _ => rfl) (fun k hk => by omega)
      ((image.rows : Int) - mask.rows + 1)
      ((image.rows : Int) - ((mask.rows : Int) - (mask.rows : Int) / 2) + 1) (mask.rows : Int)
      (tally_rows _ (0 + (mask.cols : Int) / 2)
        ((image.cols : Int) - mask.cols + 1 + (mask.cols : Int) / 2) ((mask.rows : Int) / 2)
        (image.rows : Int) _ _ (by omega) (by omega)
        (fun r _ _ _ => tally_cols_plain _ (r + (mask.rows : Int) / 2)
          (r + (mask.rows : Int) / 2 + 1) ((mask.cols : Int) / 2) 0 _ (by omega)
          (fun c _ _ => tally_visit _ _))))
    (fun a => inRect_congr (by omega) (by omega) (by omega) (by omega) a)

/-- A corner pass: the rows `[rLo, rHi)` and the columns `[cLo, cHi)`, each loop
with its edge counter. -/
theorem corner_tally (rLo rHi cLo cHi e1 e2 : Int) (hr : rLo ≤ rHi) (hc : cLo ≤ cHi) :
    Tally
      (fun log => (forUp rLo rHi
        (fun r (s : List (Int × Int) × Int) =>
          ((forUp cLo cHi
            (fun c (t : List (Int × Int) × Int) => (visit r c t.1, t.2 - 1))
            (s.1, e2)).1, s.2 - 1))
        (log, e1)).1)
      (inRect rLo rHi cLo cHi) := by
  refine tally_congr
    (tally_counter
      (fun r log => (forUp cLo cHi
        (fun c (t : List (Int × Int) × Int) => (visit r c t.1, t.2 - 1)) (log, e2)).1)
      rLo rHi e1
      (tally_rows_plain _ (cLo + 0) (cHi + 0) 0 rLo rHi hr
        (fun r _ _ => tally_congr
          (tally_counter (fun c log => visit r c log) cLo cHi e2
            (tally_cols_plain _ r (r + 1) 0 cLo cHi hc
              (fun c _ _ => tally_congr (tally_visit r c)
                (fun a => inRect_congr rfl rfl (by omega) (by omega) a))))
          (fun a => inRect_congr (by omega) (by omega) rfl rfl a))))
    (fun a => inRect_congr (by omega) (by omega) (by omega) (by omega) a)

theorem sourcesLeftTop_tally (image mask : Matrix) (hfit : Fits image mask) :
    Tally (sourcesLeftTop mask)
      (inRect 0 ((mask.rows : Int) / 2) 0 ((mask.cols : Int) / 2)) := by
  obtain ⟨f1, f2, f3, f4⟩ := hfit
  exact corner_tally 0 ((mask.rows : Int) / 2) 0 ((mask.cols : Int) / 2) _ _ (by omega)
    (by omega)

theorem sourcesRightTop_tally (image mask : Matrix) (hfit : Fits image mask) :
    Tally (sourcesRightTop image mask)
      (inRect 0 ((mask.rows : Int) / 2)
        ((image.cols : Int) - mask.cols + (mask.cols : Int) / 2 + 1) image.cols) := by
  obtain ⟨f1, f2, f3, f4⟩ := hfit
  exact corner_tally 0 ((mask.rows : Int) / 2)
    ((image.cols : Int) - mask.cols + (mask.cols : Int) / 2 + 1) image.cols _ _ (by omega)
    (by omega)

theorem sourcesLeftBottom_tally (image mask : Matrix) (hfit : Fits image mask) :
    Tally (sourcesLeftBottom image mask)
      (inRect ((image.rows : Int) - mask.rows + (mask.rows : Int) / 2 + 1) image.rows
        0 ((mask.cols : Int) / 2)) := by
  obtain ⟨f1, f2, f3, f4⟩ := hfit
  exact corner_tally ((image.rows : Int) - mask.rows + (mask.rows : Int) / 2 + 1) image.rows
    0 ((mask.cols : Int) / 2) _ _ (by omega) (by omega)

theorem sourcesRightBottom_tally (image mask : Matrix) (hfit : Fits image mask) :
    Tally (sourcesRightBottom image mask)
      (inRect ((image.rows : Int) - mask.rows + (mask.rows : Int) / 2 + 1) image.rows
        ((image.cols : Int) - mask.cols + (mask.cols : Int) / 2 + 1) image.cols) := by
  obtain ⟨f1, f2, f3, f4⟩ := hfit
  exact corner_tally ((image.rows : Int) - mask.rows + (mask.rows : Int) / 2 + 1) image.rows
    ((image.cols : Int) - mask.cols + (mask.cols : Int) / 2 + 1) image.cols _ _ (by omega)
    (by omega)

theorem inRect_add_cols (rLo rHi a b c : Int) (h1 : a ≤ b) (h2 : b ≤ c) (p : Int × Int) :
    inRect rLo rHi a b p + inRect rLo rHi b c p = inRect rLo rHi a c p := by
  simp only [inRect]
  split_ifs <;> omega

theorem inRect_add_rows (cLo cHi a b c : Int) (h1 : a ≤ b) (h2 : b ≤ c) (p : Int × Int) :
    inRect a b cLo cHi p + inRect b c cLo cHi p = inRect a c cLo cHi p := by
  simp only [inRect]
  split_ifs <;> omega

theorem dilateSources_count (image mask : Matrix) (hfit : Fits image mask) (a : Int × Int) :
    (dilateSources image mask).count a = inRect 0 image.rows 0 image.cols a := by
  have h1 := fun s => sourcesInterior_tally image mask hfit s a
  have h2 := fun s => sourcesLeft_tally image mask hfit s a
  have h3 := fun s => sourcesRight_tally image mask hfit s a
  have h4 := fun s => sourcesTop_tally image mask hfit s a
  have h5 := fun s => sourcesBottom_tally image mask hfit s a
  have h6 := fun s => sourcesLeftTop_tally image mask hfit s a
  have h7 := fun s => sourcesRightTop_tally image mask hfit s a
  have h8 := fun s => sourcesLeftBottom_tally image mask hfit s a
  have h9 := fun s => sourcesRightBottom_tally image mask hfit s a
  unfold dilateSources
  rw [h9, h8, h7, h6, h5, h4, h3, h2, h1, List.count_nil]
  obtain ⟨f1, f2, f3, f4⟩ := hfit
  have hR0 : (0 : Int) ≤ (mask.rows : Int) / 2 := by omega
  have hR1 : (mask.rows : Int) / 2 ≤ (image.rows : Int) - mask.rows + (mask.rows : Int) / 2 + 1 := by
    omega
  have hR2 : (image.rows : Int) - mask.rows + (mask.rows : Int) / 2 + 1 ≤ image.rows := by omega
  have hC0 : (0 : Int) ≤ (mask.cols : Int) / 2 := by omega
  have hC1 : (mask.cols : Int) / 2 ≤ (image.cols : Int) - mask.cols + (mask.cols : Int) / 2 + 1 := by
    omega
  have hC2 : (image.cols : Int) - mask.cols + (mask.cols : Int) / 2 + 1 ≤ image.cols := by omega
  generalize (mask.rows : Int) / 2 = R0 at *
  generalize (mask.cols : Int) / 2 = C0 at *
  generalize (image.rows : Int) - mask.rows + R0 + 1 = R1 at *
  generalize (image.cols : Int) - mask.cols + C0 + 1 = C1 at *
  have m1 := inRect_add_cols R0 R1 0 C0 C1 hC0 hC1 a
  have m2 := inRect_add_cols R0 R1 0 C1 image.cols (by omega) hC2 a
  have t1 := inRect_add_cols 0 R0 0 C0 C1 hC0 hC1 a
  have t2 := inRect_add_cols 0 R0 0 C1 image.cols (by omega) hC2 a
  have b1 := inRect_add_cols R1 image.rows 0 C0 C1 hC0 hC1 a
  have b2 := inRect_add_cols R1 image.rows 0 C1 image.cols (by omega) hC2 a
  have r1 := inRect_add_rows 0 image.cols 0 R0 R1 hR0 hR1 a
  have r2 := inRect_add_rows 0 image.cols 0 R1 image.rows (by omega) hR2 a
  omega

/-- C26: for every image and mask with `1 <= maskRows <= rows` and
`1 <= maskCols <= cols` (odd or even mask extents), every read `image(r, c)`,
every write to the result and every mask read of the nine passes of `dilate` is
inside its grid, and the nine passes together test every pixel of the image as a
source exactly once (and no position outside the image). -/
theorem dilate_in_bounds (image mask : Matrix) (hfit : Fits image mask) :
    (dilate image mask).ok = true ∧
      ∀ r c : Int, (dilateSources image mask).count (r, c) =
        if 0 ≤ r ∧ r < image.rows ∧ 0 ≤ c ∧ c < image.cols then 1 else 0 :=
  ⟨(dilate_bits image mask hfit).1, fun r c => dilateSources_count image mask hfit (r, c)⟩

theorem dilate_in_bounds_witness :
    (dilate (ones 3 4) (ones 2 3)).ok = true ∧
      ∀ r c : Int, (dilateSources (ones 3 4) (ones 2 3)).count (r, c) =
        if 0 ≤ r ∧ r < ((ones 3 4).rows : Int) ∧ 0 ≤ c ∧ c < ((ones 3 4).cols : Int)
          then 1 else 0 :=
  dilate_in_bounds (ones 3 4) (ones 2 3) ⟨by decide, by decide, by decide, by decide⟩

end PiiImage
